import Mathlib

/-!
Verification of the railway path-construction engine.

The definitions in the `RailGeom` namespace are a shallow embedding of the
rail-geometry service (segment graph builder, Dijkstra shortest-path search,
greedy fallback assembler, path validator and path simplifier), with JavaScript
numbers modelled as real numbers.  The `RailGraph` namespace embeds the
secondary station-code interchange graph and its Dijkstra search.
-/

namespace RailGeom

/-- A geographic coordinate, `(lat, lng)` in degrees. -/
abbrev Point := ℝ × ℝ

/-- Euclidean distance in degree space between two points,
mirroring the source's `distance(p1, p2)`. -/
noncomputable def distance (p1 p2 : Point) : ℝ :=
  Real.sqrt ((p2.1 - p1.1) * (p2.1 - p1.1) + (p2.2 - p1.2) * (p2.2 - p1.2))

/-- Cumulative length of a polyline: the sum of consecutive point distances,
mirroring the `for (i = 1; ...) length += distance(coords[i-1], coords[i])` loops. -/
noncomputable def pathLength (coords : List Point) : ℝ :=
  (coords.zip coords.tail).foldl (fun acc ab => acc + distance ab.1 ab.2) 0

/-- Number of consecutive steps that move away from the destination by more
than 0.02 degrees, mirroring the backtrack-counting loop of `validatePath`. -/
noncomputable def backtrackCount (path : List Point) (destination : Point) : ℕ :=
  (path.zip path.tail).countP
    fun pq => decide (distance pq.2 destination > distance pq.1 destination + 0.02)

/-- Embedding of `validatePath(path, origin, destination)`. -/
noncomputable def validatePath (path : List Point) (origin destination : Point) :
    List Point :=
  if path.length < 2 then [origin, destination]
  else
    let totalDirectDist := distance origin destination
    if pathLength path > totalDirectDist * 3 then [origin, destination]
    else if (backtrackCount path destination : ℝ) > (path.length : ℝ) * 0.2 then
      [origin, destination]
    else path

/-- Embedding of `calculateAngle(a, b, c)`: the angle between the vectors
`a → b` and `b → c` in degrees, with zero-length vectors mapped to 180. -/
noncomputable def calculateAngle (a b c : Point) : ℝ :=
  let ab1 := b.1 - a.1
  let ab2 := b.2 - a.2
  let bc1 := c.1 - b.1
  let bc2 := c.2 - b.2
  let dotProduct := ab1 * bc1 + ab2 * bc2
  let magAB := Real.sqrt (ab1 * ab1 + ab2 * ab2)
  let magBC := Real.sqrt (bc1 * bc1 + bc2 * bc2)
  if magAB = 0 ∨ magBC = 0 then 180
  else Real.arccos (max (-1) (min 1 (dotProduct / (magAB * magBC)))) * (180 / Real.pi)

/-- Loop of `removeSharpTurns`: `acc` is the result list in reverse order
(so its head is the current last result point); each incoming point either
replaces the head (angle below 60) or is appended. -/
noncomputable def rstLoop : List Point → List Point → List Point
  | acc, [] => acc.reverse
  | acc, next :: rest =>
    match acc with
    | curr :: prev :: tl =>
      if calculateAngle prev curr next < 60 then rstLoop (next :: prev :: tl) rest
      else rstLoop (next :: curr :: prev :: tl) rest
    | _ => rstLoop (next :: acc) rest

/-- Embedding of `removeSharpTurns(path)`. -/
noncomputable def removeSharpTurns (path : List Point) : List Point :=
  if path.length ≤ 3 then path
  else
    match path with
    | p0 :: p1 :: rest => rstLoop [p1, p0] rest
    | l => l

/-- Embedding of `simplifyPath(path, threshold)`: a deduplication pass keeping
the first point, middle points spaced more than `threshold` from the last kept
point, and the final point, followed by the sharp-turn pass. -/
noncomputable def simplifyPath (path : List Point) (threshold : ℝ) : List Point :=
  if path.length ≤ 2 then path
  else
    let middles := (path.drop 1).dropLast
    let kept := middles.foldl
      (fun acc p => if distance acc.headI p > threshold then p :: acc else acc)
      [path.headI]
    let simplified := (path.getLastI :: kept).reverse
    if 2 < simplified.length then removeSharpTurns simplified else simplified

/-! Basic structural lemmas about the simplifier. -/

theorem rstLoop_length_ge (acc rest : List Point) (h : 2 ≤ acc.length) :
    2 ≤ (rstLoop acc rest).length := by
  induction rest generalizing acc with
  | nil => simpa [rstLoop] using h
  | cons next rest ih =>
    match acc with
    | curr :: prev :: tl =>
      rw [rstLoop]
      split
      · exact ih (next :: prev :: tl) (by simp)
      · exact ih (next :: curr :: prev :: tl) (by simp)
    | [] => simp at h
    | [a] => simp at h

theorem removeSharpTurns_length_ge (path : List Point) (h : 2 ≤ path.length) :
    2 ≤ (removeSharpTurns path).length := by
  match path with
  | [] => simp at h
  | [a] => simp at h
  | p0 :: p1 :: rest =>
    rw [removeSharpTurns]
    split
    · exact h
    · exact rstLoop_length_ge [p1, p0] rest (by simp)

theorem foldl_dedup_length_ge (threshold : ℝ) (ms acc : List Point)
    (h : 1 ≤ acc.length) :
    1 ≤ (ms.foldl
      (fun acc p => if distance acc.headI p > threshold then p :: acc else acc)
      acc).length := by
  induction ms generalizing acc with
  | nil => simpa using h
  | cons m ms ih =>
    simp only [List.foldl_cons]
    split
    · exact ih _ (by simp)
    · exact ih _ h

theorem simplifyPath_length_ge (path : List Point) (threshold : ℝ)
    (h : 2 ≤ path.length) : 2 ≤ (simplifyPath path threshold).length := by
  rw [simplifyPath]
  split
  · exact h
  · dsimp only
    have hb := foldl_dedup_length_ge threshold ((path.drop 1).dropLast)
      [path.headI] (by simp)
    split
    · apply removeSharpTurns_length_ge
      simp only [List.length_reverse, List.length_cons]
      omega
    · simp only [List.length_reverse, List.length_cons]
      omega

theorem validatePath_length_ge (path : List Point) (o d : Point) :
    2 ≤ (validatePath path o d).length := by
  rw [validatePath]
  split
  · simp
  · dsimp only
    split
    · simp
    · split
      · simp
      · omega

/-- C1: for every well-typed input, `simplify(validate(path))` has length at
least two (and, being a total function of total functions, never throws). -/
theorem simplify_validate_min_length (path : List Point) (o d : Point)
    (threshold : ℝ) :
    2 ≤ (simplifyPath (validatePath path o d) threshold).length :=
  simplifyPath_length_ge _ _ (validatePath_length_ge path o d)

/-- Sum of consecutive Euclidean distances of a path, written from the
claim's wording (the path length `L`), to be compared with the source's
accumulator loop. -/
noncomputable def claimPathLength : List Point → ℝ
  | a :: b :: rest => distance a b + claimPathLength (b :: rest)
  | _ => 0

/-- Number of steps that increase the distance to the destination by more than
0.02 degrees, written from the claim's wording (the backtrack count). -/
noncomputable def claimBacktracks (destination : Point) : List Point → ℕ
  | a :: b :: rest =>
    (if distance b destination > distance a destination + 0.02 then 1 else 0)
      + claimBacktracks destination (b :: rest)
  | _ => 0

theorem pathLength_foldl (l : List Point) :
    ∀ init : ℝ,
      (l.zip l.tail).foldl (fun acc ab => acc + distance ab.1 ab.2) init
        = init + claimPathLength l := by
  induction l with
  | nil => intro init; simp [claimPathLength]
  | cons a l ih =>
    cases l with
    | nil => intro init; simp [claimPathLength]
    | cons b rest =>
      intro init
      simp only [List.tail_cons, List.zip_cons_cons, List.foldl_cons]
      rw [show (b :: rest).zip rest = (b :: rest).zip (b :: rest).tail from rfl, ih]
      rw [claimPathLength]
      ring

theorem pathLength_eq_claim (l : List Point) : pathLength l = claimPathLength l := by
  rw [pathLength, pathLength_foldl, zero_add]

theorem backtrackCount_eq_claim (l : List Point) (d : Point) :
    backtrackCount l d = claimBacktracks d l := by
  rw [backtrackCount]
  induction l with
  | nil => simp [claimBacktracks]
  | cons a l ih =>
    cases l with
    | nil => simp [claimBacktracks]
    | cons b rest =>
      simp only [List.tail_cons, List.zip_cons_cons, List.countP_cons] at ih ⊢
      rw [ih]
      rw [claimBacktracks]
      by_cases h : distance b d > distance a d + 0.02 <;> simp [h, Nat.add_comm]

/-- C4: `validatePath` returns the straight line `[origin, destination]`
exactly under the claimed conditions (degenerate path, length above three times
the direct distance, or backtracks above twenty percent of the point count),
and otherwise returns the input path unchanged, in order. -/
theorem validatePath_characterization (path : List Point) (o d : Point) :
    validatePath path o d =
      if path.length < 2 ∨ claimPathLength path > distance o d * 3
          ∨ (claimBacktracks d path : ℝ) > (path.length : ℝ) * 0.2
      then [o, d] else path := by
  rw [validatePath]
  simp only [pathLength_eq_claim, backtrackCount_eq_claim]
  split_ifs <;> first | rfl | tauto

/-! Concrete evaluation of the sharp-turn pass. -/

theorem sixty_le_angle_of_cos_nonpos {c : ℝ} (hc : c ≤ 0) :
    60 ≤ Real.arccos c * (180 / Real.pi) := by
  have hpi : 0 < Real.pi := Real.pi_pos
  have h1 : Real.pi / 2 ≤ Real.arccos c :=
    le_of_not_lt fun h => absurd (Real.arccos_lt_pi_div_two.mp h) (not_lt.mpr hc)
  have h2 : Real.pi / 2 * (180 / Real.pi) ≤ Real.arccos c * (180 / Real.pi) :=
    mul_le_mul_of_nonneg_right h1 (by positivity)
  have h3 : Real.pi / 2 * (180 / Real.pi) = 90 := by
    field_simp
    ring
  linarith

theorem angle_straight_eval :
    calculateAngle ((1 : ℝ), (0 : ℝ)) ((2 : ℝ), (0 : ℝ)) ((3 : ℝ), (0 : ℝ)) < 60 := by
  rw [calculateAngle]
  norm_num [Real.sqrt_one, Real.arccos_one]

theorem angle_fold_eval :
    ¬ calculateAngle ((1 : ℝ), (0 : ℝ)) ((3 : ℝ), (0 : ℝ)) ((2 : ℝ), (1/5 : ℝ)) < 60 := by
  rw [calculateAngle]
  dsimp only
  rw [if_neg]
  · apply not_lt.mpr
    apply sixty_le_angle_of_cos_nonpos
    apply max_le (by norm_num)
    apply le_trans (min_le_right _ _)
    rw [div_nonpos_iff]
    right
    constructor
    · norm_num
    · positivity
  · push_neg
    constructor <;> · rw [Real.sqrt_ne_zero']; norm_num

/-- Concrete run of the simplifier on three collinear points followed by a
sharp fold-back: the code removes the straight-through middle vertex and keeps
the fold vertex `(3, 0)`. -/
theorem simplify_concrete_fold :
    simplifyPath [((1 : ℝ), (0 : ℝ)), (2, 0), (3, 0), (2, 1/5)] 0.001
      = [((1 : ℝ), (0 : ℝ)), (3, 0), (2, 1/5)] := by
  have h01 : distance ((1 : ℝ), (0 : ℝ)) (2, 0) = 1 := by
    rw [distance]
    norm_num [Real.sqrt_one]
  have h12 : distance ((2 : ℝ), (0 : ℝ)) (3, 0) = 1 := by
    rw [distance]
    norm_num [Real.sqrt_one]
  rw [simplifyPath]
  rw [if_neg (by norm_num)]
  dsimp only
  norm_num [h01, h12, List.getLastI]
  rw [removeSharpTurns, if_neg (by norm_num)]
  simp only [rstLoop]
  rw [if_pos angle_straight_eval]
  rw [if_neg angle_fold_eval]
  simp

/-- C3 (code evaluation): on the failing input the reflex vertex `(3, 0)` is
kept by the simplifier, not omitted. -/
theorem sharp_turn_keeps_reflex_vertex :
    ((3 : ℝ), (0 : ℝ)) ∈ simplifyPath [((1 : ℝ), (0 : ℝ)), (2, 0), (3, 0), (2, 1/5)] 0.001 := by
  rw [simplify_concrete_fold]
  simp

/-! Railway graph construction (`buildRailwayGraph`). -/

/-- Snap keys: the `getNodeKey` strings are in bijection with the integer grid
cells obtained by rounding each component divided by the 0.001-degree snap
threshold (JavaScript `Math.round` is round-half-up, which is Lean's `round`). -/
abbrev Key := ℤ × ℤ

/-- Embedding of `getNodeKey(lat, lng)`. -/
noncomputable def getNodeKey (p : Point) : Key :=
  (round (p.1 / 0.001), round (p.2 / 0.001))

/-- A directed graph edge carrying the originating segment's coordinates. -/
structure Edge where
  toKey : Key
  coords : List Point
  length : ℝ
  segmentId : ℤ

/-- A snapped connection point with its representative coordinate and
outgoing edges. -/
structure Node where
  key : Key
  lat : ℝ
  lng : ℝ
  edges : List Edge

/-- A raw railway segment: an identifier plus its polyline. -/
structure Segment where
  id : ℤ
  coords : List Point

/-- The railway graph: an insertion-ordered association list of nodes,
mirroring the JavaScript `Map`. -/
structure Graph where
  nodes : List (Key × Node)

/-- Association-list lookup, mirroring `Map.get`. -/
noncomputable def lookupNode : List (Key × Node) → Key → Option Node
  | [], _ => none
  | (k, n) :: rest, q => if q = k then some n else lookupNode rest q

/-- Embedding of `getOrCreateNode`: create the node for the snap key of `p`
if it is not present yet. -/
noncomputable def getOrCreateNode (nodes : List (Key × Node)) (p : Point) :
    List (Key × Node) :=
  let k := getNodeKey p
  if (lookupNode nodes k).isSome then nodes
  else nodes ++ [(k, ⟨k, p.1, p.2, []⟩)]

/-- Append an edge to the edge list of the node stored under `k`,
mirroring `node.edges.push(...)`. -/
noncomputable def pushEdge (nodes : List (Key × Node)) (k : Key) (e : Edge) :
    List (Key × Node) :=
  nodes.map fun kn =>
    if kn.1 = k then (kn.1, ⟨kn.2.key, kn.2.lat, kn.2.lng, kn.2.edges ++ [e]⟩) else kn

/-- Embedding of the per-segment body of `buildRailwayGraph`: get-or-create
the two endpoint nodes, then push the forward and the reverse edge. -/
noncomputable def addSegment (nodes : List (Key × Node)) (seg : Segment) :
    List (Key × Node) :=
  if seg.coords.length < 2 then nodes
  else
    let startCoord := seg.coords.headI
    let endCoord := seg.coords.getLastI
    let sk := getNodeKey startCoord
    let ek := getNodeKey endCoord
    let nodes1 := getOrCreateNode nodes startCoord
    let nodes2 := getOrCreateNode nodes1 endCoord
    let len := pathLength seg.coords
    let nodes3 := pushEdge nodes2 sk ⟨ek, seg.coords, len, seg.id⟩
    pushEdge nodes3 ek ⟨sk, seg.coords.reverse, len, seg.id⟩

/-- Embedding of `buildRailwayGraph(segments)`. -/
noncomputable def buildRailwayGraph (segments : List Segment) : Graph :=
  ⟨segments.foldl addSegment []⟩

/-- All directed edges of a node list, tagged with their source node key. -/
noncomputable def allEdgesL (nodes : List (Key × Node)) : List (Key × Edge) :=
  nodes.flatMap fun kn => kn.2.edges.map fun e => (kn.1, e)

/-- All directed edges of a graph, tagged with their source node key. -/
noncomputable def allEdges (g : Graph) : List (Key × Edge) :=
  allEdgesL g.nodes

/-- The forward edge contributed by a segment, as constructed by the source. -/
noncomputable def forwardEdge (seg : Segment) : Key × Edge :=
  (getNodeKey seg.coords.headI,
    ⟨getNodeKey seg.coords.getLastI, seg.coords, pathLength seg.coords, seg.id⟩)

/-- The reverse edge contributed by a segment, as constructed by the source. -/
noncomputable def reverseEdge (seg : Segment) : Key × Edge :=
  (getNodeKey seg.coords.getLastI,
    ⟨getNodeKey seg.coords.headI, seg.coords.reverse, pathLength seg.coords, seg.id⟩)

theorem distance_nonneg (p q : Point) : 0 ≤ distance p q :=
  Real.sqrt_nonneg _

theorem claimPathLength_nonneg (l : List Point) : 0 ≤ claimPathLength l := by
  induction l with
  | nil => simp [claimPathLength]
  | cons a l ih =>
    cases l with
    | nil => simp [claimPathLength]
    | cons b rest =>
      rw [claimPathLength]
      have := distance_nonneg a b
      linarith

theorem pathLength_nonneg (l : List Point) : 0 ≤ pathLength l := by
  rw [pathLength_eq_claim]
  exact claimPathLength_nonneg l

theorem allEdgesL_append (l1 l2 : List (Key × Node)) :
    allEdgesL (l1 ++ l2) = allEdgesL l1 ++ allEdgesL l2 := by
  simp [allEdgesL]

theorem lookupNode_eq_none_iff (nodes : List (Key × Node)) (k : Key) :
    lookupNode nodes k = none ↔ k ∉ nodes.map Prod.fst := by
  induction nodes with
  | nil => simp [lookupNode]
  | cons kn rest ih =>
    rw [lookupNode]
    by_cases h : k = kn.1 <;> simp [h, ih]

theorem lookupNode_isSome_iff (nodes : List (Key × Node)) (k : Key) :
    (lookupNode nodes k).isSome ↔ k ∈ nodes.map Prod.fst := by
  rw [Option.isSome_iff_ne_none, ne_eq, lookupNode_eq_none_iff, not_not]

theorem allEdgesL_getOrCreate (nodes : List (Key × Node)) (p : Point) :
    allEdgesL (getOrCreateNode nodes p) = allEdgesL nodes := by
  rw [getOrCreateNode]
  split
  · rfl
  · rw [allEdgesL_append]
    simp [allEdgesL]

theorem keys_getOrCreate_cases (nodes : List (Key × Node)) (p : Point) :
    (getOrCreateNode nodes p).map Prod.fst = nodes.map Prod.fst ∨
      ((getOrCreateNode nodes p).map Prod.fst
          = nodes.map Prod.fst ++ [getNodeKey p]
        ∧ getNodeKey p ∉ nodes.map Prod.fst) := by
  rw [getOrCreateNode]
  split
  · exact Or.inl rfl
  · right
    constructor
    · simp
    · rw [← lookupNode_eq_none_iff]
      rename_i h
      exact Option.not_isSome_iff_eq_none.mp h

theorem mem_keys_getOrCreate (nodes : List (Key × Node)) (p : Point) :
    getNodeKey p ∈ (getOrCreateNode nodes p).map Prod.fst := by
  rcases keys_getOrCreate_cases nodes p with h | ⟨h, _⟩
  · rw [h]
    rw [getOrCreateNode] at h
    by_cases hs : (lookupNode nodes (getNodeKey p)).isSome
    · exact (lookupNode_isSome_iff nodes _).mp hs
    · rw [if_neg hs] at h
      exact absurd (congrArg List.length h) (by simp)
  · rw [h]
    simp

theorem keys_mono_getOrCreate (nodes : List (Key × Node)) (p : Point) (x : Key)
    (hx : x ∈ nodes.map Prod.fst) : x ∈ (getOrCreateNode nodes p).map Prod.fst := by
  rcases keys_getOrCreate_cases nodes p with h | ⟨h, _⟩ <;> rw [h] <;> simp [hx]

theorem keys_nodup_getOrCreate (nodes : List (Key × Node)) (p : Point)
    (h : (nodes.map Prod.fst).Nodup) :
    ((getOrCreateNode nodes p).map Prod.fst).Nodup := by
  rcases keys_getOrCreate_cases nodes p with hc | ⟨hc, hnot⟩ <;> rw [hc]
  · exact h
  · simp [List.nodup_append, h, hnot]

theorem keys_pushEdge (nodes : List (Key × Node)) (k : Key) (e : Edge) :
    (pushEdge nodes k e).map Prod.fst = nodes.map Prod.fst := by
  rw [pushEdge, List.map_map]
  apply List.map_congr_left
  intro kn _
  by_cases h : kn.1 = k <;> simp [h]

theorem pushEdge_not_mem (nodes : List (Key × Node)) (k : Key) (e : Edge)
    (h : k ∉ nodes.map Prod.fst) : pushEdge nodes k e = nodes := by
  induction nodes with
  | nil => rfl
  | cons kn rest ih =>
    simp only [List.map_cons, List.mem_cons, not_or] at h
    rw [pushEdge, List.map_cons]
    rw [if_neg (fun hh => h.1 hh.symm)]
    have := ih h.2
    rw [pushEdge] at this
    rw [this]

theorem allEdgesL_pushEdge_split (nodes : List (Key × Node)) (k : Key) (e : Edge)
    (hnd : (nodes.map Prod.fst).Nodup) (hk : k ∈ nodes.map Prod.fst) :
    ∃ l1 l2, allEdgesL nodes = l1 ++ l2
      ∧ allEdgesL (pushEdge nodes k e) = l1 ++ (k, e) :: l2 := by
  induction nodes with
  | nil => simp at hk
  | cons kn rest ih =>
    simp only [List.map_cons, List.nodup_cons] at hnd
    rcases List.mem_cons.mp hk with hk1 | hk2
    · refine ⟨kn.2.edges.map fun ed => (kn.1, ed), allEdgesL rest, ?_, ?_⟩
      · simp [allEdgesL]
      · rw [pushEdge, List.map_cons, if_pos hk1.symm]
        have hrest : pushEdge rest k e = rest :=
          pushEdge_not_mem rest k e (hk1 ▸ hnd.1)
        rw [pushEdge] at hrest
        rw [hrest]
        simp [allEdgesL, hk1]
    · obtain ⟨l1, l2, h1, h2⟩ := ih hnd.2 hk2
      refine ⟨(kn.2.edges.map fun ed => (kn.1, ed)) ++ l1, l2, ?_, ?_⟩
      · simp only [allEdgesL, List.flatMap_cons] at h1 ⊢
        rw [h1, List.append_assoc]
      · have hkne : kn.1 ≠ k := fun hh => hnd.1 (hh ▸ hk2)
        rw [pushEdge, List.map_cons, if_neg hkne]
        rw [pushEdge] at h2
        simp only [allEdgesL, List.flatMap_cons] at h2 ⊢
        rw [h2, List.append_assoc]

theorem mem_allEdgesL_pushEdge {nodes : List (Key × Node)} {k : Key} {e : Edge}
    (hnd : (nodes.map Prod.fst).Nodup) (hk : k ∈ nodes.map Prod.fst)
    {x : Key × Edge} (hx : x ∈ allEdgesL nodes) : x ∈ allEdgesL (pushEdge nodes k e) := by
  obtain ⟨l1, l2, h1, h2⟩ := allEdgesL_pushEdge_split nodes k e hnd hk
  rw [h2]
  rw [h1] at hx
  rcases List.mem_append.mp hx with h | h
  · exact List.mem_append.mpr (Or.inl h)
  · exact List.mem_append.mpr (Or.inr (List.mem_cons_of_mem _ h))

theorem self_mem_allEdgesL_pushEdge {nodes : List (Key × Node)} {k : Key} {e : Edge}
    (hnd : (nodes.map Prod.fst).Nodup) (hk : k ∈ nodes.map Prod.fst) :
    (k, e) ∈ allEdgesL (pushEdge nodes k e) := by
  obtain ⟨l1, l2, _, h2⟩ := allEdgesL_pushEdge_split nodes k e hnd hk
  rw [h2]
  exact List.mem_append.mpr (Or.inr (List.mem_cons_self _ _))

theorem length_allEdgesL_pushEdge {nodes : List (Key × Node)} {k : Key} {e : Edge}
    (hnd : (nodes.map Prod.fst).Nodup) (hk : k ∈ nodes.map Prod.fst) :
    (allEdgesL (pushEdge nodes k e)).length = (allEdgesL nodes).length + 1 := by
  obtain ⟨l1, l2, h1, h2⟩ := allEdgesL_pushEdge_split nodes k e hnd hk
  rw [h1, h2]
  simp
  omega

theorem mem_of_mem_allEdgesL_pushEdge {nodes : List (Key × Node)} {k : Key} {e : Edge}
    (hnd : (nodes.map Prod.fst).Nodup) (hk : k ∈ nodes.map Prod.fst)
    {x : Key × Edge} (hx : x ∈ allEdgesL (pushEdge nodes k e)) :
    x ∈ allEdgesL nodes ∨ x = (k, e) := by
  obtain ⟨l1, l2, h1, h2⟩ := allEdgesL_pushEdge_split nodes k e hnd hk
  rw [h2] at hx
  rw [h1]
  rcases List.mem_append.mp hx with h | h
  · exact Or.inl (List.mem_append.mpr (Or.inl h))
  · rcases List.mem_cons.mp h with h | h
    · exact Or.inr h
    · exact Or.inl (List.mem_append.mpr (Or.inr h))

theorem addSegment_spec (nodes : List (Key × Node)) (seg : Segment)
    (hnd : (nodes.map Prod.fst).Nodup) :
    ((addSegment nodes seg).map Prod.fst).Nodup
    ∧ (∀ x ∈ allEdgesL nodes, x ∈ allEdgesL (addSegment nodes seg))
    ∧ (allEdgesL (addSegment nodes seg)).length
        = (allEdgesL nodes).length + (if 2 ≤ seg.coords.length then 2 else 0)
    ∧ (2 ≤ seg.coords.length →
        forwardEdge seg ∈ allEdgesL (addSegment nodes seg)
          ∧ reverseEdge seg ∈ allEdgesL (addSegment nodes seg))
    ∧ (∀ x ∈ allEdgesL (addSegment nodes seg),
        x ∈ allEdgesL nodes ∨ x = forwardEdge seg ∨ x = reverseEdge seg) := by
  by_cases hlen : seg.coords.length < 2
  · rw [addSegment, if_pos hlen]
    refine ⟨hnd, fun x hx => hx, ?_, ?_, fun x hx => Or.inl hx⟩
    · rw [if_neg (by omega)]
      omega
    · intro h
      omega
  · rw [addSegment, if_neg hlen]
    set nodes1 := getOrCreateNode nodes seg.coords.headI with hn1
    set nodes2 := getOrCreateNode nodes1 seg.coords.getLastI with hn2
    set sk := getNodeKey seg.coords.headI with hsk
    set ek := getNodeKey seg.coords.getLastI with hek
    set fwd : Edge := ⟨ek, seg.coords, pathLength seg.coords, seg.id⟩ with hfwd
    set rev : Edge := ⟨sk, seg.coords.reverse, pathLength seg.coords, seg.id⟩ with hrev
    set nodes3 := pushEdge nodes2 sk fwd with hn3
    have hnd1 : (nodes1.map Prod.fst).Nodup := keys_nodup_getOrCreate _ _ hnd
    have hnd2 : (nodes2.map Prod.fst).Nodup := keys_nodup_getOrCreate _ _ hnd1
    have hsk2 : sk ∈ nodes2.map Prod.fst :=
      keys_mono_getOrCreate _ _ _ (mem_keys_getOrCreate nodes seg.coords.headI)
    have hek2 : ek ∈ nodes2.map Prod.fst := mem_keys_getOrCreate nodes1 seg.coords.getLastI
    have hnd3 : (nodes3.map Prod.fst).Nodup := by
      rw [hn3, keys_pushEdge]
      exact hnd2
    have hek3 : ek ∈ nodes3.map Prod.fst := by
      rw [hn3, keys_pushEdge]
      exact hek2
    have hedges2 : allEdgesL nodes2 = allEdgesL nodes := by
      rw [hn2, allEdgesL_getOrCreate, hn1, allEdgesL_getOrCreate]
    refine ⟨?_, ?_, ?_, ?_, ?_⟩
    · rw [keys_pushEdge]
      exact hnd3
    · intro x hx
      apply mem_allEdgesL_pushEdge hnd3 hek3
      apply mem_allEdgesL_pushEdge hnd2 hsk2
      rw [hedges2]
      exact hx
    · rw [length_allEdgesL_pushEdge hnd3 hek3, hn3,
        length_allEdgesL_pushEdge hnd2 hsk2, hedges2, if_pos (by omega)]
    · intro _
      constructor
      · apply mem_allEdgesL_pushEdge hnd3 hek3
        exact self_mem_allEdgesL_pushEdge hnd2 hsk2
      · exact self_mem_allEdgesL_pushEdge hnd3 hek3
    · intro x hx
      rcases mem_of_mem_allEdgesL_pushEdge hnd3 hek3 hx with hx3 | hx3
      · rcases mem_of_mem_allEdgesL_pushEdge hnd2 hsk2 hx3 with hx2 | hx2
        · rw [hedges2] at hx2
          exact Or.inl hx2
        · exact Or.inr (Or.inl hx2)
      · exact Or.inr (Or.inr hx3)

theorem foldl_addSegment_spec (segs : List Segment) (nodes : List (Key × Node))
    (hnd : (nodes.map Prod.fst).Nodup) :
    (((segs.foldl addSegment nodes).map Prod.fst).Nodup)
    ∧ (∀ x ∈ allEdgesL nodes, x ∈ allEdgesL (segs.foldl addSegment nodes))
    ∧ (allEdgesL (segs.foldl addSegment nodes)).length
        = (allEdgesL nodes).length
            + 2 * (segs.countP fun s => decide (2 ≤ s.coords.length))
    ∧ (∀ seg ∈ segs, 2 ≤ seg.coords.length →
        forwardEdge seg ∈ allEdgesL (segs.foldl addSegment nodes)
          ∧ reverseEdge seg ∈ allEdgesL (segs.foldl addSegment nodes))
    ∧ (∀ x ∈ allEdgesL (segs.foldl addSegment nodes),
        x ∈ allEdgesL nodes
          ∨ ∃ seg ∈ segs, x = forwardEdge seg ∨ x = reverseEdge seg) := by
  induction segs generalizing nodes with
  | nil =>
    refine ⟨hnd, fun x hx => hx, by simp, by simp, fun x hx => Or.inl hx⟩
  | cons seg segs ih =>
    obtain ⟨and1, and2, and3, and4, and5⟩ := addSegment_spec nodes seg hnd
    obtain ⟨ih1, ih2, ih3, ih4, ih5⟩ := ih (addSegment nodes seg) and1
    simp only [List.foldl_cons]
    refine ⟨ih1, ?_, ?_, ?_, ?_⟩
    · intro x hx
      exact ih2 x (and2 x hx)
    · rw [ih3, and3, List.countP_cons]
      simp only [decide_eq_true_eq]
      by_cases h2 : 2 ≤ seg.coords.length
      · rw [if_pos h2, if_pos h2]
        omega
      · rw [if_neg h2, if_neg h2]
        omega
    · intro s hs h2
      rcases List.mem_cons.mp hs with rfl | hs'
      · obtain ⟨hf, hr⟩ := and4 h2
        exact ⟨ih2 _ hf, ih2 _ hr⟩
      · exact ih4 s hs' h2
    · intro x hx
      rcases ih5 x hx with hx' | ⟨s, hs, hfr⟩
      · rcases and5 x hx' with hn | hfr
        · exact Or.inl hn
        · exact Or.inr ⟨seg, List.mem_cons_self _ _, hfr⟩
      · exact Or.inr ⟨s, List.mem_cons_of_mem _ hs, hfr⟩

/-- C6 helper fact and C7 part: every edge in a built railway graph has a
non-negative weight. -/
theorem allEdges_nonneg (segments : List Segment) :
    ∀ x ∈ allEdges (buildRailwayGraph segments), 0 ≤ x.2.length := by
  intro x hx
  obtain ⟨-, -, -, -, h5⟩ := foldl_addSegment_spec segments [] (by simp)
  rcases h5 x hx with h | ⟨s, -, rfl | rfl⟩
  · simp [allEdgesL] at h
  · exact pathLength_nonneg s.coords
  · exact pathLength_nonneg s.coords

/-- C7: every input segment with at least two coordinates contributes exactly
two directed edges: the forward edge with its coordinates as given and the
reverse edge with the coordinates reversed, both weighted by the cumulative
Euclidean length of the coordinate sequence, which is non-negative; the total
edge count is twice the number of such segments. -/
theorem buildRailwayGraph_two_edges (segments : List Segment) (seg : Segment)
    (hmem : seg ∈ segments) (hlen : 2 ≤ seg.coords.length) :
    forwardEdge seg ∈ allEdges (buildRailwayGraph segments)
    ∧ reverseEdge seg ∈ allEdges (buildRailwayGraph segments)
    ∧ (allEdges (buildRailwayGraph segments)).length
        = 2 * (segments.countP fun s => decide (2 ≤ s.coords.length))
    ∧ 0 ≤ pathLength seg.coords
    ∧ (∀ x ∈ allEdges (buildRailwayGraph segments), 0 ≤ x.2.length) := by
  obtain ⟨-, -, h3, h4, -⟩ := foldl_addSegment_spec segments [] (by simp)
  obtain ⟨hf, hr⟩ := h4 seg hmem hlen
  refine ⟨hf, hr, ?_, pathLength_nonneg seg.coords, allEdges_nonneg segments⟩
  rw [show allEdges (buildRailwayGraph segments)
      = allEdgesL (segments.foldl addSegment []) from rfl, h3]
  simp [allEdgesL]

/-- Witness for C7 at a concrete one-segment input. -/
theorem buildRailwayGraph_two_edges_witness :
    ((⟨1, [((3 : ℝ), (0 : ℝ)), (3, 4)]⟩ : Segment)
        ∈ [(⟨1, [((3 : ℝ), (0 : ℝ)), (3, 4)]⟩ : Segment)]
      ∧ 2 ≤ ([((3 : ℝ), (0 : ℝ)), (3, 4)] : List Point).length)
    ∧ (forwardEdge ⟨1, [((3 : ℝ), (0 : ℝ)), (3, 4)]⟩
          ∈ allEdges (buildRailwayGraph [⟨1, [((3 : ℝ), (0 : ℝ)), (3, 4)]⟩])
        ∧ reverseEdge ⟨1, [((3 : ℝ), (0 : ℝ)), (3, 4)]⟩
          ∈ allEdges (buildRailwayGraph [⟨1, [((3 : ℝ), (0 : ℝ)), (3, 4)]⟩])
        ∧ (allEdges (buildRailwayGraph [⟨1, [((3 : ℝ), (0 : ℝ)), (3, 4)]⟩])).length
            = 2 * (([(⟨1, [((3 : ℝ), (0 : ℝ)), (3, 4)]⟩ : Segment)]).countP
                fun s => decide (2 ≤ s.coords.length))
        ∧ 0 ≤ pathLength [((3 : ℝ), (0 : ℝ)), (3, 4)]
        ∧ ∀ x ∈ allEdges (buildRailwayGraph [⟨1, [((3 : ℝ), (0 : ℝ)), (3, 4)]⟩]),
            0 ≤ x.2.length) :=
  ⟨⟨by simp, by norm_num⟩,
    buildRailwayGraph_two_edges _ _ (by simp) (by norm_num)⟩

/-! Dijkstra search over the railway graph. -/

/-- A frontier entry: node key and tentative distance
(JavaScript `Infinity` is `⊤`). -/
abbrev QEntry := Key × WithTop ℝ

/-- State of the Dijkstra main loop: tentative distances, predecessor map,
visited set (as a list, newest first) and the queue. -/
structure DState where
  distances : Key → WithTop ℝ
  previous : Key → Option (Key × Edge)
  visited : List Key
  queue : List QEntry

/-- Sorting of the frontier by tentative distance, mirroring
`queue.sort((a, b) => a.dist - b.dist)` (JavaScript sort is stable, as is
insertion sort). -/
noncomputable def sortQueue (q : List QEntry) : List QEntry :=
  q.insertionSort fun a b => a.2 ≤ b.2

/-- Relaxation of the current node's outgoing edges, mirroring the
`currentNode.edges.forEach` body.  A target key is updatable only when it is
present in the distances map (`dkeys`); a missing key compares as
`undefined` in JavaScript and never updates. -/
noncomputable def relaxAll (dkeys : List Key) (visited : List Key) (uKey : Key)
    (edges : List Edge)
    (st : (Key → WithTop ℝ) × (Key → Option (Key × Edge)) × List QEntry) :
    (Key → WithTop ℝ) × (Key → Option (Key × Edge)) × List QEntry :=
  edges.foldl
    (fun acc e =>
      if e.toKey ∈ visited then acc
      else
        let newDist := acc.1 uKey + (e.length : WithTop ℝ)
        if e.toKey ∈ dkeys ∧ newDist < acc.1 e.toKey then
          (Function.update acc.1 e.toKey newDist,
            Function.update acc.2.1 e.toKey (some (uKey, e)),
            acc.2.2 ++ [(e.toKey, newDist)])
        else acc)
    st

/-- Number of graph keys not yet visited; the primary termination measure. -/
noncomputable def unvisitedCount (nodeKeys visited : List Key) : ℕ :=
  (nodeKeys.filter fun k => decide (k ∉ visited)).length

theorem unvisitedCount_cons_aux (k : Key) (visited nodeKeys : List Key) :
    unvisitedCount nodeKeys (k :: visited)
      + (nodeKeys.filter fun x => decide (x ∉ visited)).count k
      = unvisitedCount nodeKeys visited := by
  induction nodeKeys with
  | nil => rfl
  | cons x keys ih =>
    unfold unvisitedCount at ih ⊢
    by_cases hxv : x ∈ visited
    · rw [List.filter_cons_of_neg (by simp [hxv]),
        List.filter_cons_of_neg (by simp [hxv])]
      exact ih
    · by_cases hxk : x = k
      · subst hxk
        rw [List.filter_cons_of_neg (by simp),
          List.filter_cons_of_pos (by simp [hxv])]
        rw [List.count_cons_self]
        simp only [List.length_cons]
        omega
      · rw [List.filter_cons_of_pos (by simp [hxk, hxv]),
          List.filter_cons_of_pos (by simp [hxv]),
          List.count_cons_of_ne (fun h => hxk h.symm), List.length_cons,
          List.length_cons]
        omega

theorem unvisitedCount_cons_not_mem (nodeKeys visited : List Key) (k : Key)
    (hk : k ∉ nodeKeys) :
    unvisitedCount nodeKeys (k :: visited) = unvisitedCount nodeKeys visited := by
  have h := unvisitedCount_cons_aux k visited nodeKeys
  have hc : (nodeKeys.filter fun x => decide (x ∉ visited)).count k = 0 := by
    rw [List.count_eq_zero]
    intro hmem
    exact hk (List.mem_of_mem_filter hmem)
  omega

theorem unvisitedCount_cons_mem (nodeKeys visited : List Key) (k : Key)
    (hk : k ∈ nodeKeys) (hv : k ∉ visited) :
    unvisitedCount nodeKeys (k :: visited) < unvisitedCount nodeKeys visited := by
  have h := unvisitedCount_cons_aux k visited nodeKeys
  have hc : 0 < (nodeKeys.filter fun x => decide (x ∉ visited)).count k := by
    rw [List.count_pos_iff]
    exact List.mem_filter.mpr ⟨hk, by simp [hv]⟩
  omega

/-- The Dijkstra main loop (`while (queue.length > 0)`): re-sort the queue,
shift the closest entry, skip it if visited, stop at the end key, and
otherwise relax the popped node's edges.  Terminates because every iteration
either visits a new graph node or shortens the queue. -/
noncomputable def dijkstraLoop (g : Graph) (dkeys : List Key) (endKey : Key)
    (st : DState) : DState :=
  match hs : sortQueue st.queue with
  | [] => st
  | current :: rest =>
    if current.1 ∈ st.visited then
      dijkstraLoop g dkeys endKey ⟨st.distances, st.previous, st.visited, rest⟩
    else
      if current.1 = endKey then ⟨st.distances, st.previous, current.1 :: st.visited, rest⟩
      else
        match hl : lookupNode g.nodes current.1 with
        | none =>
          dijkstraLoop g dkeys endKey
            ⟨st.distances, st.previous, current.1 :: st.visited, rest⟩
        | some node =>
          let r := relaxAll dkeys (current.1 :: st.visited) current.1 node.edges
            (st.distances, st.previous, rest)
          dijkstraLoop g dkeys endKey ⟨r.1, r.2.1, current.1 :: st.visited, r.2.2⟩
termination_by (unvisitedCount (g.nodes.map Prod.fst) st.visited, st.queue.length)
decreasing_by
  · apply Prod.Lex.right
    have := congrArg List.length hs
    simp only [sortQueue, List.length_insertionSort, List.length_cons] at this
    omega
  · rw [unvisitedCount_cons_not_mem _ _ _ ((lookupNode_eq_none_iff _ _).mp hl)]
    apply Prod.Lex.right
    have := congrArg List.length hs
    simp only [sortQueue, List.length_insertionSort, List.length_cons] at this
    omega
  · apply Prod.Lex.left
    apply unvisitedCount_cons_mem
    · have : (lookupNode g.nodes current.1).isSome := by rw [hl]; rfl
      exact (lookupNode_isSome_iff _ _).mp this
    · assumption

/-- The path-reconstruction loop (`while (current && current !== startKey)`),
with enough fuel for any predecessor chain arising from the search. -/
noncomputable def reconstructLoop (previous : Key → Option (Key × Edge))
    (startKey : Key) : ℕ → Key → List Key → List Key
  | 0, _, acc => startKey :: acc
  | fuel + 1, current, acc =>
    if current = startKey then startKey :: acc
    else
      match previous current with
      | some pe => reconstructLoop previous startKey fuel pe.1 (current :: acc)
      | none => startKey :: current :: acc

/-- Embedding of `dijkstra(graph, startNode, endNode)`. -/
noncomputable def dijkstra (g : Graph) (startNode endNode : Node) :
    Option (List Key) :=
  let dkeys := startNode.key :: g.nodes.map Prod.fst
  let final := dijkstraLoop g dkeys endNode.key
    ⟨fun k => if k = startNode.key then (0 : WithTop ℝ) else ⊤,
      fun _ => none, [], [(startNode.key, (0 : WithTop ℝ))]⟩
  if (final.previous endNode.key).isNone ∧ startNode.key ≠ endNode.key then none
  else some (reconstructLoop final.previous startNode.key (g.nodes.length + 1)
    endNode.key [])

/-- Embedding of `findClosestNode(nodes, point)`: fold over the nodes in
insertion order keeping the strictly closest one (`minDist` starts at
`Infinity`). -/
noncomputable def findClosestNode (nodes : List (Key × Node)) (point : Point) :
    Option Node :=
  (nodes.foldl
    (fun acc kn =>
      if (distance (kn.2.lat, kn.2.lng) point : WithTop ℝ) < acc.2 then
        (some kn.2, (distance (kn.2.lat, kn.2.lng) point : WithTop ℝ))
      else acc)
    ((none : Option Node), (⊤ : WithTop ℝ))).1

/-- One step of the coordinate expansion of `buildCoordPath`: append the
connecting edge's coordinates with the first one dropped (nothing when no
edge connects the pair). -/
noncomputable def coordStep (g : Graph) (acc : List Point) (kk : Key × Key) :
    List Point :=
  match lookupNode g.nodes kk.1 with
  | none => acc
  | some node =>
    match node.edges.find? fun e => decide (e.toKey = kk.2) with
    | some edge => acc ++ edge.coords.drop 1
    | none => acc

/-- Embedding of `buildCoordPath(graph, nodePath, origin, destination)`:
the literal origin, then for each consecutive node pair the coordinates of the
connecting edge with its first point dropped, then the literal destination. -/
noncomputable def buildCoordPath (g : Graph) (nodePath : List Key)
    (origin destination : Point) : List Point :=
  ((nodePath.zip nodePath.tail).foldl (coordStep g) [origin]) ++ [destination]

/-- Embedding of `isInCorridor(point, start, end, margin)`. -/
noncomputable def isInCorridor (point s e : Point) (margin : ℝ) : Prop :=
  min s.1 e.1 - margin ≤ point.1 ∧ point.1 ≤ max s.1 e.1 + margin
    ∧ min s.2 e.2 - margin ≤ point.2 ∧ point.2 ≤ max s.2 e.2 + margin

noncomputable instance (point s e : Point) (margin : ℝ) :
    Decidable (isInCorridor point s e margin) := by
  unfold isInCorridor
  infer_instance

/-- The best candidate chosen by one scan of the greedy loop. -/
structure BestSeg where
  idx : ℕ
  seg : Segment
  reversed : Bool
  segEnd : Point

/-- One candidate check of the greedy scan (`for (let i = 0; ...)` body):
skip used or unconnected segments and segments losing more than 0.02 degrees
of progress; otherwise keep the strictly best score `minDist - 2 * progress`. -/
noncomputable def bestStep (used : Finset ℕ) (currentPos destination : Point)
    (distToDest : ℝ) (acc : Option BestSeg × WithTop ℝ) (iseg : ℕ × Segment) :
    Option BestSeg × WithTop ℝ :=
  if iseg.1 ∈ used then acc
  else
    let seg := iseg.2
    let firstPoint := seg.coords.headI
    let lastPoint := seg.coords.getLastI
    let distToFirst := distance currentPos firstPoint
    let distToLast := distance currentPos lastPoint
    let minDist := min distToFirst distToLast
    if minDist > 0.005 then acc
    else
      let useReversed := distToLast < distToFirst
      let segEnd := if useReversed then firstPoint else lastPoint
      let newDistToDest := distance segEnd destination
      let progress := distToDest - newDistToDest
      if progress < -0.02 then acc
      else
        let score := minDist - progress * 2
        if (score : WithTop ℝ) < acc.2 then
          (some ⟨iseg.1, seg, decide useReversed, segEnd⟩, (score : WithTop ℝ))
        else acc

/-- Embedding of the candidate scan of `followSegmentsGreedy`: among unused
corridor segments connected within 0.005 degrees whose far endpoint does not
lose more than 0.02 degrees of progress, pick the strictly best score. -/
noncomputable def findBestSegment (corridor : List Segment) (used : Finset ℕ)
    (currentPos destination : Point) (distToDest : ℝ) : Option BestSeg :=
  (corridor.enum.foldl (bestStep used currentPos destination distToDest)
    ((none : Option BestSeg), (⊤ : WithTop ℝ))).1

/-- Appending a chosen segment's coordinates to the (reversed) path,
skipping the first coordinate when it nearly coincides with the path's last
point, mirroring the `coords.forEach` push loop. -/
noncomputable def appendCoords (pathRev : List Point) (coords : List Point) :
    List Point :=
  match coords with
  | [] => pathRev
  | c :: cs =>
    cs.foldl (fun acc p => p :: acc)
      (if distance pathRev.headI c < 0.002 then pathRev else c :: pathRev)

/-- State of the greedy assembler loop; the path is kept in reverse order. -/
structure GreedyState where
  pathRev : List Point
  used : Finset ℕ
  currentPos : Point
  distToDest : ℝ

/-- The greedy main loop (`while (usedSegments.size < corridorSegments.length)`),
with an explicit iteration budget; each productive iteration marks a fresh
segment index as used, so `corridor.length` iterations always suffice
(theorem `greedyLoop_fuel_stable`). -/
noncomputable def greedyLoop (corridor : List Segment) (destination : Point) :
    ℕ → GreedyState → GreedyState
  | 0, st => st
  | fuel + 1, st =>
    if st.used.card < corridor.length then
      match findBestSegment corridor st.used st.currentPos destination
        st.distToDest with
      | none => st
      | some best =>
        let coords := if best.reversed then best.seg.coords.reverse
          else best.seg.coords
        let pathRev := appendCoords st.pathRev coords
        let newDist := distance best.segEnd destination
        let st2 : GreedyState :=
          ⟨pathRev, insert best.idx st.used, best.segEnd, newDist⟩
        if newDist < 0.01 then st2 else greedyLoop corridor destination fuel st2
    else st

/-- The corridor prefilter of `followSegmentsGreedy` (margin 0.1). -/
noncomputable def greedyCorridor (segments : List Segment)
    (origin destination : Point) : List Segment :=
  segments.filter fun seg =>
    seg.coords.any fun c => decide (isInCorridor c origin destination 0.1)

/-- Embedding of `followSegmentsGreedy` with an explicit iteration budget. -/
noncomputable def followSegmentsGreedyFuel (segments : List Segment)
    (origin destination : Point) (fuel : ℕ) : List Point :=
  let corridor := greedyCorridor segments origin destination
  if corridor.length = 0 then [origin, destination]
  else
    let final := greedyLoop corridor destination fuel
      ⟨[origin], ∅, origin, distance origin destination⟩
    final.pathRev.reverse ++ [destination]

/-- Embedding of `followSegmentsGreedy(segments, origin, destination)`. -/
noncomputable def followSegmentsGreedy (segments : List Segment)
    (origin destination : Point) : List Point :=
  followSegmentsGreedyFuel segments origin destination
    (greedyCorridor segments origin destination).length

/-- A raw Overpass way: an identifier and an optional geometry. -/
structure Way where
  id : ℤ
  geometry : Option (List Point)

/-- The segment extraction of `findBestPath`:
`ways.filter(w => w.geometry && w.geometry.length > 1).map(...)`. -/
noncomputable def waySegments (ways : List Way) : List Segment :=
  ways.filterMap fun w =>
    match w.geometry with
    | some geo => if 1 < geo.length then some ⟨w.id, geo⟩ else none
    | none => none

/-- Embedding of `findBestPath(ways, origin, destination)`: graph search with
greedy and straight-line fallbacks, then validation and simplification. -/
noncomputable def findBestPath (ways : List Way) (origin destination : Point) :
    List Point :=
  if ways.length = 0 then [origin, destination]
  else
    let segments := waySegments ways
    if segments.length = 0 then [origin, destination]
    else
      let graph := buildRailwayGraph segments
      match findClosestNode graph.nodes origin,
          findClosestNode graph.nodes destination with
      | some startNode, some endNode =>
        let coordPath :=
          match dijkstra graph startNode endNode with
          | some nodePath =>
            if nodePath.length < 2 then
              followSegmentsGreedy segments origin destination
            else buildCoordPath graph nodePath origin destination
          | none => followSegmentsGreedy segments origin destination
        simplifyPath (validatePath coordPath origin destination) 0.001
      | _, _ => [origin, destination]

/-! Termination of the greedy assembler (C10). -/

theorem bestStep_spec (used : Finset ℕ) (currentPos destination : Point)
    (distToDest : ℝ) (acc : Option BestSeg × WithTop ℝ) (iseg : ℕ × Segment)
    (b : BestSeg)
    (h : (bestStep used currentPos destination distToDest acc iseg).1 = some b) :
    acc.1 = some b ∨ (b.idx = iseg.1 ∧ iseg.1 ∉ used) := by
  simp only [bestStep] at h
  by_cases hu : iseg.1 ∈ used
  · rw [if_pos hu] at h
    exact Or.inl h
  · rw [if_neg hu] at h
    split_ifs at h <;>
      first
        | exact Or.inl h
        | (have hb := Option.some.inj h
           exact Or.inr ⟨by rw [← hb], hu⟩)

theorem findBestSegment_fold_spec (used : Finset ℕ)
    (currentPos destination : Point) (distToDest : ℝ) (n : ℕ)
    (l : List (ℕ × Segment)) (hl : ∀ x ∈ l, x.1 < n)
    (acc : Option BestSeg × WithTop ℝ)
    (hacc : ∀ b, acc.1 = some b → b.idx ∉ used ∧ b.idx < n) :
    ∀ b, (l.foldl (bestStep used currentPos destination distToDest) acc).1
        = some b → b.idx ∉ used ∧ b.idx < n := by
  induction l generalizing acc with
  | nil => exact hacc
  | cons x l ih =>
    intro b
    simp only [List.foldl_cons]
    apply ih (fun y hy => hl y (List.mem_cons_of_mem _ hy))
    intro b' hb'
    rcases bestStep_spec used currentPos destination distToDest acc x b' hb'
      with h | ⟨hidx, hu⟩
    · exact hacc b' h
    · rw [hidx]
      exact ⟨hu, hl x (List.mem_cons_self _ _)⟩

theorem findBestSegment_spec (corridor : List Segment) (used : Finset ℕ)
    (currentPos destination : Point) (distToDest : ℝ) (b : BestSeg)
    (h : findBestSegment corridor used currentPos destination distToDest
      = some b) :
    b.idx ∉ used ∧ b.idx < corridor.length :=
  findBestSegment_fold_spec used currentPos destination distToDest
    corridor.length corridor.enum (fun x hx => List.fst_lt_of_mem_enum hx)
    ((none : Option BestSeg), (⊤ : WithTop ℝ)) (by simp) b h

theorem greedyLoop_exit (corridor : List Segment) (destination : Point)
    (fuel : ℕ) (st : GreedyState) (h : ¬ st.used.card < corridor.length) :
    greedyLoop corridor destination fuel st = st := by
  cases fuel with
  | zero => rfl
  | succ n =>
    rw [greedyLoop, if_neg h]

theorem greedyLoop_fuel_stable (corridor : List Segment) (destination : Point)
    (fuel1 fuel2 : ℕ) (st : GreedyState)
    (h1 : corridor.length - st.used.card ≤ fuel1)
    (h2 : corridor.length - st.used.card ≤ fuel2) :
    greedyLoop corridor destination fuel1 st
      = greedyLoop corridor destination fuel2 st := by
  induction fuel1 generalizing fuel2 st with
  | zero =>
    have hcond : ¬ st.used.card < corridor.length := by omega
    rw [greedyLoop_exit _ _ _ _ hcond, greedyLoop_exit _ _ _ _ hcond]
  | succ n ih =>
    by_cases hcond : st.used.card < corridor.length
    · obtain ⟨m, rfl⟩ : ∃ m, fuel2 = m + 1 := by
        cases fuel2 with
        | zero => omega
        | succ m => exact ⟨m, rfl⟩
      rw [greedyLoop, greedyLoop, if_pos hcond, if_pos hcond]
      cases hb : findBestSegment corridor st.used st.currentPos destination
        st.distToDest with
      | none => rfl
      | some best =>
        dsimp only
        obtain ⟨hu, hlt⟩ := findBestSegment_spec _ _ _ _ _ _ hb
        have hcard : (insert best.idx st.used).card = st.used.card + 1 :=
          Finset.card_insert_of_not_mem hu
        split
        · rfl
        · apply ih
          · simp only [hcard]
            omega
          · simp only [hcard]
            omega
    · rw [greedyLoop_exit _ _ _ _ hcond, greedyLoop_exit _ _ _ _ hcond]

/-- C10: the greedy assembler terminates on every input: each productive
iteration marks a fresh corridor-segment index as used, so the number of
corridor segments bounds the iteration count, and granting the loop any
extra budget beyond that bound does not change the result. -/
theorem followSegmentsGreedy_terminates (segments : List Segment)
    (origin destination : Point) (k : ℕ) :
    followSegmentsGreedyFuel segments origin destination
        ((greedyCorridor segments origin destination).length + k)
      = followSegmentsGreedy segments origin destination := by
  rw [followSegmentsGreedy, followSegmentsGreedyFuel, followSegmentsGreedyFuel]
  split
  · rfl
  · rw [greedyLoop_fuel_stable _ _
      ((greedyCorridor segments origin destination).length + k)
      ((greedyCorridor segments origin destination).length) _ (by simp)
      (by simp)]

/-! Endpoint preservation through the pipeline (C5). -/

theorem head?_eq_headI {l : List Point} (h : l ≠ []) : l.head? = some l.headI := by
  cases l with
  | nil => exact absurd rfl h
  | cons a t => rfl

theorem getLast?_eq_getLastI {l : List Point} (h : l ≠ []) :
    l.getLast? = some l.getLastI := by
  rw [List.getLastI_eq_getLast?]
  cases hl : l.getLast? with
  | none =>
    rw [List.getLast?_eq_none_iff] at hl
    exact absurd hl h
  | some a => rfl

theorem getLast?_cons_ne_nil {a : Point} {l : List Point} (h : l ≠ []) :
    (a :: l).getLast? = l.getLast? := by
  cases l with
  | nil => exact absurd rfl h
  | cons b t => exact List.getLast?_cons_cons

theorem coordStep_append (g : Graph) (acc : List Point) (kk : Key × Key) :
    ∃ ys, coordStep g acc kk = acc ++ ys := by
  rw [coordStep]
  split
  · exact ⟨[], by simp⟩
  · split
    · exact ⟨_, rfl⟩
    · exact ⟨[], by simp⟩

theorem foldl_coordStep_append (g : Graph) (l : List (Key × Key))
    (acc : List Point) : ∃ ys, l.foldl (coordStep g) acc = acc ++ ys := by
  induction l generalizing acc with
  | nil => exact ⟨[], by simp⟩
  | cons kk l ih =>
    obtain ⟨ys1, h1⟩ := coordStep_append g acc kk
    obtain ⟨ys2, h2⟩ := ih (coordStep g acc kk)
    exact ⟨ys1 ++ ys2, by rw [List.foldl_cons, h2, h1, List.append_assoc]⟩

theorem buildCoordPath_head (g : Graph) (nodePath : List Key)
    (o d : Point) : (buildCoordPath g nodePath o d).head? = some o := by
  rw [buildCoordPath]
  obtain ⟨ys, hy⟩ := foldl_coordStep_append g (nodePath.zip nodePath.tail) [o]
  rw [hy]
  simp

theorem buildCoordPath_getLast (g : Graph) (nodePath : List Key)
    (o d : Point) : (buildCoordPath g nodePath o d).getLast? = some d := by
  rw [buildCoordPath]
  exact List.getLast?_concat _

theorem appendCoords_spec (pathRev coords : List Point) (h : pathRev ≠ []) :
    (appendCoords pathRev coords).getLast? = pathRev.getLast?
      ∧ appendCoords pathRev coords ≠ [] := by
  cases coords with
  | nil => exact ⟨rfl, h⟩
  | cons c cs =>
    rw [appendCoords]
    have base : ∀ b : List Point, b.getLast? = pathRev.getLast? → b ≠ [] →
        ((cs.foldl (fun acc p => p :: acc) b).getLast? = pathRev.getLast?
          ∧ cs.foldl (fun acc p => p :: acc) b ≠ []) := by
      induction cs with
      | nil => exact fun b hb hne => ⟨hb, hne⟩
      | cons p cs ih =>
        intro b hb hne
        simp only [List.foldl_cons]
        exact ih (p :: b) (by rw [getLast?_cons_ne_nil hne, hb]) (by simp)
    apply base
    · split
      · rfl
      · exact getLast?_cons_ne_nil h
    · split
      · exact h
      · simp

theorem greedyLoop_pathRev (corridor : List Segment) (destination : Point)
    (fuel : ℕ) (st : GreedyState) (h : st.pathRev ≠ []) :
    (greedyLoop corridor destination fuel st).pathRev.getLast?
        = st.pathRev.getLast?
      ∧ (greedyLoop corridor destination fuel st).pathRev ≠ [] := by
  induction fuel generalizing st with
  | zero => exact ⟨rfl, h⟩
  | succ n ih =>
    rw [greedyLoop]
    split
    · cases hb : findBestSegment corridor st.used st.currentPos destination
        st.distToDest with
      | none => exact ⟨rfl, h⟩
      | some best =>
        dsimp only
        obtain ⟨ha1, ha2⟩ := appendCoords_spec st.pathRev
          (if best.reversed then best.seg.coords.reverse else best.seg.coords) h
        split
        · exact ⟨ha1, ha2⟩
        · obtain ⟨hr1, hr2⟩ := ih
            ⟨appendCoords st.pathRev
                (if best.reversed then best.seg.coords.reverse
                  else best.seg.coords),
              insert best.idx st.used, best.segEnd,
              distance best.segEnd destination⟩ ha2
          exact ⟨hr1.trans ha1, hr2⟩
    · exact ⟨rfl, h⟩

theorem followSegmentsGreedy_endpoints (segments : List Segment)
    (o d : Point) :
    (followSegmentsGreedy segments o d).head? = some o
      ∧ (followSegmentsGreedy segments o d).getLast? = some d := by
  rw [followSegmentsGreedy, followSegmentsGreedyFuel]
  split
  · exact ⟨rfl, rfl⟩
  · obtain ⟨h1, h2⟩ := greedyLoop_pathRev
      (greedyCorridor segments o d) d (greedyCorridor segments o d).length
      ⟨[o], ∅, o, distance o d⟩ (by simp)
    constructor
    · rw [List.head?_append_of_ne_nil]
      · rw [List.head?_reverse, h1]
        rfl
      · simp [h2]
    · exact List.getLast?_concat _

theorem validatePath_endpoints (p : List Point) (o d : Point)
    (hh : p.head? = some o) (hl : p.getLast? = some d) :
    (validatePath p o d).head? = some o
      ∧ (validatePath p o d).getLast? = some d := by
  rw [validatePath]
  split
  · exact ⟨rfl, rfl⟩
  · dsimp only
    split
    · exact ⟨rfl, rfl⟩
    · split
      · exact ⟨rfl, rfl⟩
      · exact ⟨hh, hl⟩

theorem rstLoop_head? (acc rest : List Point) (h : acc ≠ []) :
    (rstLoop acc rest).head? = acc.getLast? := by
  induction rest generalizing acc with
  | nil =>
    simp only [rstLoop, List.head?_reverse]
  | cons next rest ih =>
    cases acc with
    | nil => exact absurd rfl h
    | cons curr acct =>
      cases acct with
      | nil =>
        simp only [rstLoop]
        rw [ih [next, curr] (by simp)]
        rfl
      | cons prev tl =>
        simp only [rstLoop]
        have e1 : (next :: prev :: tl).getLast?
            = (curr :: prev :: tl).getLast? := by
          rw [getLast?_cons_ne_nil (l := prev :: tl) (by simp),
            getLast?_cons_ne_nil (l := prev :: tl) (by simp)]
        have e2 : (next :: curr :: prev :: tl).getLast?
            = (curr :: prev :: tl).getLast? :=
          getLast?_cons_ne_nil (by simp)
        split
        · rw [ih (next :: prev :: tl) (by simp), e1]
        · rw [ih (next :: curr :: prev :: tl) (by simp), e2]

theorem rstLoop_getLast? (acc rest : List Point) (h : acc ≠ []) :
    (rstLoop acc rest).getLast? = some (rest.getLastD acc.headI) := by
  induction rest generalizing acc with
  | nil =>
    simp only [rstLoop, List.getLast?_reverse]
    exact head?_eq_headI h
  | cons next rest ih =>
    cases acc with
    | nil => exact absurd rfl h
    | cons curr acct =>
      cases acct with
      | nil =>
        simp only [rstLoop]
        rw [ih [next, curr] (by simp), List.getLastD_cons]
        rfl
      | cons prev tl =>
        simp only [rstLoop, List.getLastD_cons]
        split
        · rw [ih (next :: prev :: tl) (by simp)]
          rfl
        · rw [ih (next :: curr :: prev :: tl) (by simp)]
          rfl

theorem removeSharpTurns_endpoints (p : List Point) :
    (removeSharpTurns p).head? = p.head?
      ∧ (removeSharpTurns p).getLast? = p.getLast? := by
  by_cases hlen : p.length ≤ 3
  · rw [removeSharpTurns.eq_def, if_pos hlen]
    exact ⟨rfl, rfl⟩
  · obtain ⟨p0, p1, q0, q1, qs, rfl⟩ :
        ∃ p0 p1 q0 q1 qs, p = p0 :: p1 :: q0 :: q1 :: qs := by
      match p, hlen with
      | p0 :: p1 :: q0 :: q1 :: qs, _ => exact ⟨p0, p1, q0, q1, qs, rfl⟩
      | [], hlen => exact (hlen (by simp)).elim
      | [a], hlen => exact (hlen (by simp)).elim
      | [a, b], hlen => exact (hlen (by simp)).elim
      | [a, b, c], hlen => exact (hlen (by simp)).elim
    rw [removeSharpTurns.eq_def, if_neg hlen]
    refine ⟨?_, ?_⟩
    · show (rstLoop [p1, p0] (q0 :: q1 :: qs)).head? = _
      rw [rstLoop_head? _ _ (by simp)]
      rfl
    · show (rstLoop [p1, p0] (q0 :: q1 :: qs)).getLast? = _
      have hr : (p0 :: p1 :: q0 :: q1 :: qs).getLast?
          = (q0 :: q1 :: qs).getLast? := by
        rw [getLast?_cons_ne_nil (by simp), getLast?_cons_ne_nil (by simp)]
      rw [rstLoop_getLast? _ _ (by simp), hr, List.getLastD_eq_getLast?]
      cases hq : (q0 :: q1 :: qs).getLast? with
      | none => simp at hq
      | some x => rfl

theorem dedup_fold_getLast (t : ℝ) (ms : List Point) (acc : List Point)
    (h : acc ≠ []) :
    ((ms.foldl
        (fun acc p => if distance acc.headI p > t then p :: acc else acc)
        acc).getLast? = acc.getLast?
      ∧ ms.foldl
        (fun acc p => if distance acc.headI p > t then p :: acc else acc)
        acc ≠ []) := by
  induction ms generalizing acc with
  | nil => exact ⟨rfl, h⟩
  | cons m ms ih =>
    simp only [List.foldl_cons]
    split
    · obtain ⟨h1, h2⟩ := ih (m :: acc) (by simp)
      exact ⟨h1.trans (getLast?_cons_ne_nil h), h2⟩
    · exact ih acc h

theorem simplifyPath_endpoints (p : List Point) (t : ℝ) (hp : 2 ≤ p.length) :
    (simplifyPath p t).head? = p.head?
      ∧ (simplifyPath p t).getLast? = p.getLast? := by
  rw [simplifyPath]
  split
  · exact ⟨rfl, rfl⟩
  · dsimp only
    have hpne : p ≠ [] := by
      intro hnil
      rw [hnil] at hp
      simp at hp
    obtain ⟨hk1, hk2⟩ := dedup_fold_getLast t ((p.drop 1).dropLast)
      [p.headI] (by simp)
    have hsimpl :
        ((p.getLastI :: ((p.drop 1).dropLast).foldl
          (fun acc q => if distance acc.headI q > t then q :: acc else acc)
          [p.headI]).reverse).head? = p.head?
        ∧ ((p.getLastI :: ((p.drop 1).dropLast).foldl
          (fun acc q => if distance acc.headI q > t then q :: acc else acc)
          [p.headI]).reverse).getLast? = p.getLast? := by
      constructor
      · rw [List.head?_reverse, getLast?_cons_ne_nil hk2, hk1]
        exact (head?_eq_headI hpne).symm
      · rw [List.getLast?_reverse]
        exact (getLast?_eq_getLastI hpne).symm
    split
    · obtain ⟨hr1, hr2⟩ := removeSharpTurns_endpoints
        ((p.getLastI :: ((p.drop 1).dropLast).foldl
          (fun acc q => if distance acc.headI q > t then q :: acc else acc)
          [p.headI]).reverse)
      exact ⟨hr1.trans hsimpl.1, hr2.trans hsimpl.2⟩
    · exact hsimpl

/-- C5: the pipeline output always starts with the literal requested origin
point and ends with the literal requested destination point, whichever
strategy produced the intermediate path. -/
theorem findBestPath_endpoints (ways : List Way) (o d : Point) :
    (findBestPath ways o d).head? = some o
      ∧ (findBestPath ways o d).getLast? = some d := by
  have key : ∀ cp : List Point,
      cp.head? = some o → cp.getLast? = some d →
      (simplifyPath (validatePath cp o d) 0.001).head? = some o
        ∧ (simplifyPath (validatePath cp o d) 0.001).getLast? = some d := by
    intro cp h1 h2
    obtain ⟨hv1, hv2⟩ := validatePath_endpoints cp o d h1 h2
    obtain ⟨hs1, hs2⟩ := simplifyPath_endpoints (validatePath cp o d) 0.001
      (validatePath_length_ge cp o d)
    exact ⟨hs1.trans hv1, hs2.trans hv2⟩
  rw [findBestPath]
  split
  · exact ⟨rfl, rfl⟩
  · dsimp only
    split
    · exact ⟨rfl, rfl⟩
    · cases hcs : findClosestNode (buildRailwayGraph (waySegments ways)).nodes o with
      | none =>
        cases hce : findClosestNode (buildRailwayGraph (waySegments ways)).nodes d with
        | none => exact ⟨rfl, rfl⟩
        | some endNode => exact ⟨rfl, rfl⟩
      | some startNode =>
        cases hce : findClosestNode (buildRailwayGraph (waySegments ways)).nodes d with
        | none => exact ⟨rfl, rfl⟩
        | some endNode =>
          dsimp only
          apply key
          · cases dijkstra (buildRailwayGraph (waySegments ways)) startNode
              endNode with
            | none => exact (followSegmentsGreedy_endpoints _ o d).1
            | some nodePath =>
              dsimp only
              split
              · exact (followSegmentsGreedy_endpoints _ o d).1
              · exact buildCoordPath_head _ _ o d
          · cases dijkstra (buildRailwayGraph (waySegments ways)) startNode
              endNode with
            | none => exact (followSegmentsGreedy_endpoints _ o d).2
            | some nodePath =>
              dsimp only
              split
              · exact (followSegmentsGreedy_endpoints _ o d).2
              · exact buildCoordPath_getLast _ _ o d

/-! Degenerate requests: origin equal to destination (C9). -/

theorem distance_self (p : Point) : distance p p = 0 := by
  rw [distance]
  simp

theorem distance_eq_zero {p q : Point} (h : distance p q = 0) : p = q := by
  rw [distance, Real.sqrt_eq_zero'] at h
  have h1 : (q.1 - p.1) * (q.1 - p.1) = 0 := by
    nlinarith [mul_self_nonneg (q.1 - p.1), mul_self_nonneg (q.2 - p.2)]
  have h2 : (q.2 - p.2) * (q.2 - p.2) = 0 := by
    nlinarith [mul_self_nonneg (q.1 - p.1), mul_self_nonneg (q.2 - p.2)]
  have e1 : p.1 = q.1 := by nlinarith
  have e2 : p.2 = q.2 := by nlinarith
  exact Prod.ext e1 e2

theorem claimPathLength_zero_all_eq (l : List Point)
    (h : claimPathLength l = 0) : ∀ x ∈ l, x = l.headI := by
  induction l with
  | nil => simp
  | cons a t ih =>
    cases t with
    | nil =>
      intro x hx
      simp only [List.mem_singleton] at hx
      simp [hx]
    | cons b r =>
      rw [claimPathLength] at h
      have hd : distance a b = 0 := by
        nlinarith [distance_nonneg a b, claimPathLength_nonneg (b :: r)]
      have hr : claimPathLength (b :: r) = 0 := by
        nlinarith [distance_nonneg a b, claimPathLength_nonneg (b :: r)]
      have hab : a = b := distance_eq_zero hd
      intro x hx
      rcases List.mem_cons.mp hx with rfl | hx'
      · rfl
      · have := ih hr x hx'
        simp only [List.headI] at this ⊢
        rw [this, hab]

theorem dedup_fold_const (ms : List Point) (o : Point)
    (hms : ∀ p ∈ ms, p = o) :
    ms.foldl
      (fun acc p => if distance acc.headI p > (0.001 : ℝ) then p :: acc else acc)
      [o] = [o] := by
  induction ms with
  | nil => rfl
  | cons m ms ih =>
    have hm := hms m (List.mem_cons_self _ _)
    subst hm
    simp only [List.foldl_cons]
    rw [if_neg]
    · exact ih fun p hp => hms p (List.mem_cons_of_mem _ hp)
    · rw [show ([m] : List Point).headI = m from rfl, distance_self]
      norm_num

theorem simplifyPath_const (cp : List Point) (o : Point) (h2 : 2 ≤ cp.length)
    (hall : ∀ x ∈ cp, x = o) : simplifyPath cp 0.001 = [o, o] := by
  rw [simplifyPath]
  by_cases hle : cp.length ≤ 2
  · rw [if_pos hle]
    match cp, h2, hle with
    | [x, y], _, _ =>
      rw [hall x (by simp), hall y (by simp)]
  · rw [if_neg hle]
    dsimp only
    have hne : cp ≠ [] := by
      intro hnil
      rw [hnil] at h2
      simp at h2
    have hmid : ∀ p ∈ (cp.drop 1).dropLast, p = o := fun p hp =>
      hall p (List.mem_of_mem_drop (List.mem_of_mem_dropLast hp))
    have hh : cp.headI = o := by
      apply hall
      cases cp with
      | nil => exact absurd rfl hne
      | cons a t => exact List.mem_cons_self _ _
    have hl : cp.getLastI = o := by
      apply hall
      exact List.mem_of_mem_getLast? (Option.mem_def.mpr (getLast?_eq_getLastI hne))
    rw [hh, dedup_fold_const _ o hmid, hl]
    norm_num

theorem validatePath_self (cp : List Point) (o : Point)
    (hh : cp.head? = some o) :
    validatePath cp o o = [o, o]
      ∨ (validatePath cp o o = cp ∧ ∀ x ∈ cp, x = o) := by
  rw [validatePath]
  split
  · exact Or.inl rfl
  · dsimp only
    split
    · exact Or.inl rfl
    · split
      · exact Or.inl rfl
      · right
        refine ⟨rfl, ?_⟩
        rename_i hlen hL hB
        have hD : distance o o = 0 := distance_self o
        have hle : pathLength cp ≤ 0 := by
          rw [hD] at hL
          have := not_lt.mp hL
          linarith
        have hzero : claimPathLength cp = 0 := by
          have := claimPathLength_nonneg cp
          rw [pathLength_eq_claim] at hle
          linarith
        intro x hx
        rw [claimPathLength_zero_all_eq cp hzero x hx]
        cases cp with
        | nil => simp at hx
        | cons a t => simpa using hh

/-- C9: when the requested destination equals the requested origin, the whole
pipeline returns exactly the two-point degenerate path `[origin, origin]`. -/
theorem findBestPath_self (ways : List Way) (o : Point) :
    findBestPath ways o o = [o, o] := by
  have key : ∀ cp : List Point, cp.head? = some o →
      simplifyPath (validatePath cp o o) 0.001 = [o, o] := by
    intro cp hh
    rcases validatePath_self cp o hh with h | ⟨h, hall⟩
    · rw [h, simplifyPath]
      norm_num
    · rw [h]
      have hlen : 2 ≤ cp.length := by
        have := validatePath_length_ge cp o o
        rw [h] at this
        exact this
      exact simplifyPath_const cp o hlen hall
  rw [findBestPath]
  split
  · rfl
  · dsimp only
    split
    · rfl
    · cases hc : findClosestNode (buildRailwayGraph (waySegments ways)).nodes o with
      | none => rfl
      | some startNode =>
        dsimp only
        apply key
        cases dijkstra (buildRailwayGraph (waySegments ways)) startNode
          startNode with
        | none => exact (followSegmentsGreedy_endpoints _ o o).1
        | some nodePath =>
          dsimp only
          split
          · exact (followSegmentsGreedy_endpoints _ o o).1
          · exact buildCoordPath_head _ _ o o

/-! Dijkstra optimality (C6): walks, the loop invariant, and the
shortest-path theorem. -/

/-- The outgoing edges stored for a key in the graph. -/
noncomputable def edgesOf (g : Graph) (k : Key) : List Edge :=
  match lookupNode g.nodes k with
  | some n => n.edges
  | none => []

/-- A walk in the railway graph: a chain of stored edges from one key to
another. -/
inductive GWalk (g : Graph) : Key → Key → List Edge → Prop
  | nil (a : Key) : GWalk g a a []
  | cons {a c : Key} {es : List Edge} (e : Edge) (he : e ∈ edgesOf g a)
      (hw : GWalk g e.toKey c es) : GWalk g a c (e :: es)

/-- Total weight of a walk: the sum of its edge lengths. -/
noncomputable def walkWeight (es : List Edge) : ℝ :=
  (es.map Edge.length).sum

/-- Non-negative edge weights, the hypothesis of the optimality claim. -/
def NonnegWeights (g : Graph) : Prop :=
  ∀ k : Key, ∀ e ∈ edgesOf g k, 0 ≤ e.length

theorem walkWeight_nil : walkWeight [] = 0 := rfl

theorem walkWeight_cons (e : Edge) (es : List Edge) :
    walkWeight (e :: es) = e.length + walkWeight es := by
  simp [walkWeight]

theorem GWalk.append_edges {g : Graph} {a b c : Key} {es1 es2 : List Edge}
    (h1 : GWalk g a b es1) (h2 : GWalk g b c es2) :
    GWalk g a c (es1 ++ es2) := by
  induction h1 with
  | nil => exact h2
  | cons e he _ ih => exact GWalk.cons e he (ih h2)

theorem walkWeight_append (es1 es2 : List Edge) :
    walkWeight (es1 ++ es2) = walkWeight es1 + walkWeight es2 := by
  simp [walkWeight]

theorem walkWeight_nonneg {g : Graph} (hnn : NonnegWeights g)
    {a b : Key} {es : List Edge} (h : GWalk g a b es) : 0 ≤ walkWeight es := by
  induction h with
  | nil => simp [walkWeight]
  | cons e he _ ih =>
    rw [walkWeight_cons]
    have := hnn _ e he
    linarith

/-- A real number is the shortest-walk distance from `s` to `k`:
attained by some walk and a lower bound of every walk. -/
def Shortest (g : Graph) (s k : Key) (d : ℝ) : Prop :=
  (∃ es, GWalk g s k es ∧ walkWeight es = d)
    ∧ ∀ es, GWalk g s k es → d ≤ walkWeight es

/-- Chains of predecessor pointers of bounded length ending at `s`. -/
def PrevChain (previous : Key → Option (Key × Edge)) (s : Key) :
    ℕ → Key → Prop
  | 0, v => v = s
  | n + 1, v => v = s ∨ ∃ u e, previous v = some (u, e) ∧ PrevChain previous s n u

/-- The invariant of the Dijkstra main loop. -/
structure DInv (g : Graph) (dkeys : List Key) (s : Key) (st : DState) : Prop where
  settled : ∀ k ∈ st.visited, ∃ d : ℝ, st.distances k = (d : WithTop ℝ)
    ∧ Shortest g s k d
  qpaths : ∀ kd ∈ st.queue, ∃ d : ℝ, kd.2 = (d : WithTop ℝ)
    ∧ ∃ es, GWalk g s kd.1 es ∧ walkWeight es = d
  dist_le : ∀ kd ∈ st.queue, st.distances kd.1 ≤ kd.2
  fresh : ∀ k, k ∉ st.visited → st.distances k ≠ ⊤ →
    (k, st.distances k) ∈ st.queue
  frontier : ∀ u ∈ st.visited, ∀ e ∈ edgesOf g u, e.toKey ∉ st.visited →
    e.toKey ∈ dkeys →
    ∃ q ∈ st.queue, q.1 = e.toKey ∧ q.2 ≤ st.distances u + (e.length : WithTop ℝ)
  start : s ∈ st.visited ∨ (s, (0 : WithTop ℝ)) ∈ st.queue
  dist_start : st.distances s = 0
  dist_nonneg : ∀ k, 0 ≤ st.distances k
  prev_eq : ∀ v u e, st.previous v = some (u, e) → e ∈ edgesOf g u
    ∧ e.toKey = v ∧ u ∈ st.visited
    ∧ st.distances v = st.distances u + (e.length : WithTop ℝ)
  queue_prev : ∀ kd ∈ st.queue, kd.1 = s ∨ st.previous kd.1 ≠ none
  chain : ∀ v ∈ st.visited, ∃ n < st.visited.length, PrevChain st.previous s n v
  visited_sub : ∀ k ∈ st.visited, k ∈ dkeys
  visited_nodup : st.visited.Nodup
  queue_sub : ∀ kd ∈ st.queue, kd.1 ∈ dkeys

instance : IsTotal QEntry fun a b => a.2 ≤ b.2 :=
  ⟨fun a b => le_total a.2 b.2⟩

instance : IsTrans QEntry fun a b => a.2 ≤ b.2 :=
  ⟨fun _ _ _ hab hbc => le_trans hab hbc⟩

theorem mem_sortQueue {q : List QEntry} {x : QEntry} :
    x ∈ sortQueue q ↔ x ∈ q :=
  (List.perm_insertionSort _ q).mem_iff

theorem sortQueue_head_mem {q : List QEntry} {c : QEntry} {rest : List QEntry}
    (hs : sortQueue q = c :: rest) : c ∈ q :=
  mem_sortQueue.mp (hs ▸ List.mem_cons_self c rest)

theorem sortQueue_rest_mem {q : List QEntry} {c : QEntry} {rest : List QEntry}
    (hs : sortQueue q = c :: rest) : ∀ x ∈ rest, x ∈ q :=
  fun x hx => mem_sortQueue.mp (hs ▸ List.mem_cons_of_mem c hx)

theorem sortQueue_head_min {q : List QEntry} {c : QEntry} {rest : List QEntry}
    (hs : sortQueue q = c :: rest) : ∀ x ∈ q, c.2 ≤ x.2 := by
  intro x hx
  have hsorted : List.Sorted (fun a b : QEntry => a.2 ≤ b.2) (c :: rest) := by
    rw [← hs]
    exact List.sorted_insertionSort _ q
  have hx' : x ∈ c :: rest := by
    rw [← hs]
    exact mem_sortQueue.mpr hx
  rcases List.mem_cons.mp hx' with rfl | hmem
  · exact le_refl _
  · exact (List.sorted_cons.mp hsorted).1 x hmem

theorem sortQueue_nil {q : List QEntry} (hs : sortQueue q = []) : q = [] :=
  List.eq_nil_of_length_eq_zero (by
    have := congrArg List.length hs
    simpa [sortQueue] using this)

/-- Non-dependent unfolding equation for the main loop. -/
theorem dijkstraLoop_eq (g : Graph) (dkeys : List Key) (endKey : Key)
    (st : DState) :
    dijkstraLoop g dkeys endKey st =
      match sortQueue st.queue with
      | [] => st
      | current :: rest =>
        if current.1 ∈ st.visited then
          dijkstraLoop g dkeys endKey ⟨st.distances, st.previous, st.visited, rest⟩
        else if current.1 = endKey then
          ⟨st.distances, st.previous, current.1 :: st.visited, rest⟩
        else
          match lookupNode g.nodes current.1 with
          | none =>
            dijkstraLoop g dkeys endKey
              ⟨st.distances, st.previous, current.1 :: st.visited, rest⟩
          | some node =>
            dijkstraLoop g dkeys endKey
              ⟨(relaxAll dkeys (current.1 :: st.visited) current.1 node.edges
                  (st.distances, st.previous, rest)).1,
               (relaxAll dkeys (current.1 :: st.visited) current.1 node.edges
                  (st.distances, st.previous, rest)).2.1,
               current.1 :: st.visited,
               (relaxAll dkeys (current.1 :: st.visited) current.1 node.edges
                  (st.distances, st.previous, rest)).2.2⟩ := by
  rw [dijkstraLoop]
  cases hq : sortQueue st.queue with
  | nil => rfl
  | cons current rest =>
    dsimp only
    cases hl : lookupNode g.nodes current.1 with
    | none => rfl
    | some node => rfl

theorem mem_keys_of_edgesOf_ne_nil {g : Graph} {k : Key}
    (h : edgesOf g k ≠ []) : k ∈ g.nodes.map Prod.fst := by
  rw [← lookupNode_isSome_iff]
  unfold edgesOf at h
  cases hl : lookupNode g.nodes k with
  | none => rw [hl] at h; exact absurd rfl h
  | some n => rfl

theorem edgesOf_eq_of_lookup {g : Graph} {k : Key} {n : Node}
    (h : lookupNode g.nodes k = some n) : edgesOf g k = n.edges := by
  unfold edgesOf
  rw [h]

/-- Cover lemma, generalized form: from a settled node `a`, any walk to an
unvisited in-map target is covered by some queue entry of priority at most
the distance of `a` plus the walk weight. -/
theorem dijkstra_cover_aux {g : Graph} {dkeys : List Key} {s : Key} {st : DState}
    (hinv : DInv g dkeys s st) (hnn : NonnegWeights g)
    (hnk : ∀ k ∈ g.nodes.map Prod.fst, k ∈ dkeys) :
    ∀ {a t : Key} {es : List Edge}, GWalk g a t es → a ∈ st.visited →
      t ∉ st.visited → t ∈ dkeys → ∀ da : ℝ,
      st.distances a = (da : WithTop ℝ) → Shortest g s a da →
      ∃ q ∈ st.queue, q.2 ≤ ((da + walkWeight es : ℝ) : WithTop ℝ) := by
  intro a t es hw
  induction hw with
  | nil => intro ha ht; exact absurd ha ht
  | @cons a c es e he hw ih =>
    intro ha hc hcd da hda hsh
    by_cases hv : e.toKey ∈ st.visited
    · obtain ⟨db, hdb, hshb⟩ := hinv.settled _ hv
      have hble : db ≤ da + e.length := by
        obtain ⟨⟨esa, hwa, hwae⟩, _⟩ := hsh
        have := hshb.2 (esa ++ [e])
          (hwa.append_edges (GWalk.cons e he (GWalk.nil e.toKey)))
        rw [walkWeight_append, walkWeight_cons, walkWeight_nil, hwae] at this
        linarith
      obtain ⟨q, hq, hqle⟩ := ih hv hc hcd db hdb hshb
      refine ⟨q, hq, le_trans hqle ?_⟩
      rw [WithTop.coe_le_coe, walkWeight_cons]
      linarith
    · have hed : e.toKey ∈ dkeys := by
        cases hw with
        | nil => exact hcd
        | cons e' he' hw' =>
          exact hnk _ (mem_keys_of_edgesOf_ne_nil (List.ne_nil_of_mem he'))
      obtain ⟨q, hq, _, hq2⟩ := hinv.frontier _ ha e he hv hed
      have h0 : 0 ≤ walkWeight es := walkWeight_nonneg hnn hw
      refine ⟨q, hq, ?_⟩
      calc q.2 ≤ st.distances a + (e.length : WithTop ℝ) := hq2
        _ = ((da + e.length : ℝ) : WithTop ℝ) := by rw [hda, ← WithTop.coe_add]
        _ ≤ ((da + walkWeight (e :: es) : ℝ) : WithTop ℝ) := by
            rw [WithTop.coe_le_coe, walkWeight_cons]; linarith

/-- Cover lemma: any walk from the start to an unvisited in-map target is
covered by a queue entry of priority at most the walk weight. -/
theorem dijkstra_cover {g : Graph} {dkeys : List Key} {s : Key} {st : DState}
    (hinv : DInv g dkeys s st) (hnn : NonnegWeights g)
    (hnk : ∀ k ∈ g.nodes.map Prod.fst, k ∈ dkeys)
    {t : Key} {es : List Edge} (hw : GWalk g s t es) (ht : t ∉ st.visited)
    (htd : t ∈ dkeys) :
    ∃ q ∈ st.queue, q.2 ≤ ((walkWeight es : ℝ) : WithTop ℝ) := by
  by_cases hsv : s ∈ st.visited
  · have hsh : Shortest g s s 0 :=
      ⟨⟨[], GWalk.nil s, rfl⟩, fun es' hw' => walkWeight_nonneg hnn hw'⟩
    have hds : st.distances s = ((0 : ℝ) : WithTop ℝ) := by
      rw [hinv.dist_start]
      exact WithTop.coe_zero.symm
    obtain ⟨q, hq, hle⟩ := dijkstra_cover_aux hinv hnn hnk hw hsv ht htd 0 hds hsh
    exact ⟨q, hq, by simpa using hle⟩
  · rcases hinv.start with h | h
    · exact absurd h hsv
    · refine ⟨(s, 0), h, ?_⟩
      show (0 : WithTop ℝ) ≤ _
      rw [← WithTop.coe_zero, WithTop.coe_le_coe]
      exact walkWeight_nonneg hnn hw

/-- When the minimum entry of the queue is popped and unvisited, its stored
priority equals its tentative distance and both equal the true shortest
distance. -/
theorem dijkstra_settle {g : Graph} {dkeys : List Key} {s : Key} {st : DState}
    {current : QEntry} {rest : List QEntry}
    (hinv : DInv g dkeys s st) (hnn : NonnegWeights g)
    (hnk : ∀ k ∈ g.nodes.map Prod.fst, k ∈ dkeys)
    (hs : sortQueue st.queue = current :: rest)
    (hcv : current.1 ∉ st.visited) :
    ∃ d : ℝ, current.2 = (d : WithTop ℝ)
      ∧ st.distances current.1 = (d : WithTop ℝ) ∧ Shortest g s current.1 d := by
  have hcq : current ∈ st.queue := sortQueue_head_mem hs
  obtain ⟨d0, hd0, es0, hw0, hwe0⟩ := hinv.qpaths current hcq
  have hmin : ∀ x ∈ st.queue, current.2 ≤ x.2 := sortQueue_head_min hs
  have hle : st.distances current.1 ≤ current.2 := hinv.dist_le current hcq
  have hne : st.distances current.1 ≠ ⊤ := by
    rw [hd0] at hle
    exact ne_top_of_le_ne_top (WithTop.coe_ne_top) hle
  have hfr := hinv.fresh current.1 hcv hne
  have heq : st.distances current.1 = current.2 :=
    le_antisymm hle (hmin _ hfr)
  refine ⟨d0, hd0, heq.trans hd0, ⟨es0, hw0, hwe0⟩, ?_⟩
  intro es' hw'
  obtain ⟨q, hq, hqle⟩ :=
    dijkstra_cover hinv hnn hnk hw' hcv (hinv.queue_sub current hcq)
  have h2 : (d0 : WithTop ℝ) ≤ ((walkWeight es' : ℝ) : WithTop ℝ) :=
    hd0 ▸ le_trans (hmin q hq) hqle
  exact WithTop.coe_le_coe.mp h2

/-- One step of the edge-relaxation fold (the `forEach` body). -/
noncomputable def relaxStep (dkeys : List Key) (visited : List Key) (uKey : Key)
    (acc : (Key → WithTop ℝ) × (Key → Option (Key × Edge)) × List QEntry)
    (e : Edge) :
    (Key → WithTop ℝ) × (Key → Option (Key × Edge)) × List QEntry :=
  if e.toKey ∈ visited then acc
  else
    let newDist := acc.1 uKey + (e.length : WithTop ℝ)
    if e.toKey ∈ dkeys ∧ newDist < acc.1 e.toKey then
      (Function.update acc.1 e.toKey newDist,
        Function.update acc.2.1 e.toKey (some (uKey, e)),
        acc.2.2 ++ [(e.toKey, newDist)])
    else acc

theorem relaxAll_eq (dkeys visited : List Key) (uKey : Key) (edges : List Edge)
    (st : (Key → WithTop ℝ) × (Key → Option (Key × Edge)) × List QEntry) :
    relaxAll dkeys visited uKey edges st
      = edges.foldl (relaxStep dkeys visited uKey) st := rfl

theorem prevChain_mono {prev prev' : Key → Option (Key × Edge)}
    {W : List Key} {s : Key}
    (hagree : ∀ x ∈ W, prev' x = prev x)
    (hclosed : ∀ x ∈ W, ∀ u e, prev x = some (u, e) → u ∈ W) :
    ∀ n v, v ∈ W → PrevChain prev s n v → PrevChain prev' s n v := by
  intro n
  induction n with
  | zero => intro v _ h; exact h
  | succ n ih =>
    intro v hv h
    rcases h with h | ⟨u, e, hpe, hch⟩
    · exact Or.inl h
    · exact Or.inr ⟨u, e, by rw [hagree v hv]; exact hpe,
        ih u (hclosed v hv u e hpe) hch⟩

/-- Invariant of the intermediate state during the relaxation fold, with the
freshly visited node `c` prepended to the old visited list `ov`. -/
structure RInv (g : Graph) (dkeys : List Key) (s : Key) (ov : List Key) (c : Key)
    (acc : (Key → WithTop ℝ) × (Key → Option (Key × Edge)) × List QEntry) :
    Prop where
  settled : ∀ k ∈ c :: ov, ∃ d : ℝ, acc.1 k = (d : WithTop ℝ) ∧ Shortest g s k d
  qpaths : ∀ kd ∈ acc.2.2, ∃ d : ℝ, kd.2 = (d : WithTop ℝ)
    ∧ ∃ es, GWalk g s kd.1 es ∧ walkWeight es = d
  dist_le : ∀ kd ∈ acc.2.2, acc.1 kd.1 ≤ kd.2
  fresh : ∀ k, k ∉ c :: ov → acc.1 k ≠ ⊤ → (k, acc.1 k) ∈ acc.2.2
  frontier_old : ∀ u ∈ ov, ∀ e ∈ edgesOf g u, e.toKey ∉ c :: ov →
    e.toKey ∈ dkeys →
    ∃ q ∈ acc.2.2, q.1 = e.toKey ∧ q.2 ≤ acc.1 u + (e.length : WithTop ℝ)
  start : s ∈ c :: ov ∨ (s, (0 : WithTop ℝ)) ∈ acc.2.2
  dist_start : acc.1 s = 0
  dist_nonneg : ∀ k, 0 ≤ acc.1 k
  prev_eq : ∀ v u e, acc.2.1 v = some (u, e) → e ∈ edgesOf g u ∧ e.toKey = v
    ∧ u ∈ c :: ov ∧ acc.1 v = acc.1 u + (e.length : WithTop ℝ)
  queue_prev : ∀ kd ∈ acc.2.2, kd.1 = s ∨ acc.2.1 kd.1 ≠ none
  queue_sub : ∀ kd ∈ acc.2.2, kd.1 ∈ dkeys

/-- A single relaxation step preserves the fold invariant, only appends to
the queue, leaves visited keys untouched, and establishes the frontier
property for the processed edge. -/
theorem relaxStep_inv {g : Graph} {dkeys : List Key} {s : Key} {ov : List Key}
    {c : Key}
    {acc : (Key → WithTop ℝ) × (Key → Option (Key × Edge)) × List QEntry}
    {e : Edge} (hnn : NonnegWeights g) (he : e ∈ edgesOf g c)
    (h : RInv g dkeys s ov c acc) :
    RInv g dkeys s ov c (relaxStep dkeys (c :: ov) c acc e)
    ∧ (∀ y ∈ acc.2.2, y ∈ (relaxStep dkeys (c :: ov) c acc e).2.2)
    ∧ (∀ k ∈ c :: ov, (relaxStep dkeys (c :: ov) c acc e).1 k = acc.1 k
        ∧ (relaxStep dkeys (c :: ov) c acc e).2.1 k = acc.2.1 k)
    ∧ (e.toKey ∉ c :: ov → e.toKey ∈ dkeys →
        ∃ q ∈ (relaxStep dkeys (c :: ov) c acc e).2.2, q.1 = e.toKey
          ∧ q.2 ≤ (relaxStep dkeys (c :: ov) c acc e).1 c
              + (e.length : WithTop ℝ)) := by
  obtain ⟨dc, hdc, hshc⟩ := h.settled c (List.mem_cons_self c ov)
  have hel : 0 ≤ e.length := hnn c e he
  unfold relaxStep
  by_cases htv : e.toKey ∈ c :: ov
  · rw [if_pos htv]
    exact ⟨h, fun y hy => hy, fun k _ => ⟨rfl, rfl⟩, fun hcon => absurd htv hcon⟩
  · rw [if_neg htv]
    have hndne : acc.1 c + (e.length : WithTop ℝ)
        = ((dc + e.length : ℝ) : WithTop ℝ) := by
      rw [hdc, ← WithTop.coe_add]
    have hnd0 : (0 : WithTop ℝ) ≤ acc.1 c + (e.length : WithTop ℝ) :=
      add_nonneg (h.dist_nonneg c) (by exact_mod_cast hel)
    by_cases hcond : e.toKey ∈ dkeys
        ∧ acc.1 c + (e.length : WithTop ℝ) < acc.1 e.toKey
    · rw [if_pos hcond]
      obtain ⟨hdk, hlt⟩ := hcond
      have htks : e.toKey ≠ s := by
        intro heq
        rw [heq, h.dist_start] at hlt
        exact absurd hlt (not_lt.mpr hnd0)
      have hne_of_mem : ∀ k ∈ c :: ov, k ≠ e.toKey :=
        fun k hk heq => htv (heq ▸ hk)
      refine ⟨?_, ?_, ?_, ?_⟩
      · refine ⟨?_, ?_, ?_, ?_, ?_, ?_, ?_, ?_, ?_, ?_, ?_⟩ <;> try dsimp only
        · intro k hk
          rw [Function.update_noteq (hne_of_mem k hk)]
          exact h.settled k hk
        · intro kd hkd
          rcases List.mem_append.mp hkd with hkd | hkd
          · exact h.qpaths kd hkd
          · rw [List.mem_singleton.mp hkd]
            refine ⟨dc + e.length, hndne, ?_⟩
            obtain ⟨⟨esc, hwc, hwec⟩, _⟩ := hshc
            refine ⟨esc ++ [e], hwc.append_edges (GWalk.cons e he (GWalk.nil e.toKey)), ?_⟩
            rw [walkWeight_append, walkWeight_cons, walkWeight_nil, hwec]
            ring
        · intro kd hkd
          rcases List.mem_append.mp hkd with hkd | hkd
          · by_cases hk : kd.1 = e.toKey
            · rw [hk, Function.update_same]
              calc acc.1 c + (e.length : WithTop ℝ)
                  ≤ acc.1 e.toKey := le_of_lt hlt
                _ ≤ kd.2 := hk ▸ h.dist_le kd hkd
            · rw [Function.update_noteq hk]
              exact h.dist_le kd hkd
          · rw [List.mem_singleton.mp hkd]
            simp only [Function.update_same]
            exact le_refl _
        · intro k hk hkt
          by_cases hke : k = e.toKey
          · subst hke
            rw [Function.update_same]
            exact List.mem_append_right _ (List.mem_singleton.mpr rfl)
          · rw [Function.update_noteq hke] at hkt ⊢
            exact List.mem_append_left _ (h.fresh k hk hkt)
        · intro u hu e' he' ht' hd'
          obtain ⟨q, hq, hq1, hq2⟩ := h.frontier_old u hu e' he' ht' hd'
          refine ⟨q, List.mem_append_left _ hq, hq1, ?_⟩
          rw [Function.update_noteq (hne_of_mem u (List.mem_cons_of_mem c hu))]
          exact hq2
        · rcases h.start with hst | hst
          · exact Or.inl hst
          · exact Or.inr (List.mem_append_left _ hst)
        · rw [Function.update_noteq (fun hh => htks hh.symm)]
          exact h.dist_start
        · intro k
          by_cases hke : k = e.toKey
          · subst hke
            rw [Function.update_same]
            exact hnd0
          · rw [Function.update_noteq hke]
            exact h.dist_nonneg k
        · intro v u e' hpe
          by_cases hv : v = e.toKey
          · subst hv
            rw [Function.update_same] at hpe
            have h2 := Option.some_injective _ hpe.symm
            have hu : u = c := congrArg Prod.fst h2
            have he2 : e' = e := congrArg Prod.snd h2
            refine ⟨?_, ?_, ?_, ?_⟩
            · rw [hu, he2]; exact he
            · rw [he2]
            · rw [hu]; exact List.mem_cons_self c ov
            · rw [hu, he2, Function.update_same,
                Function.update_noteq (hne_of_mem c (List.mem_cons_self c ov))]
          · rw [Function.update_noteq hv] at hpe
            obtain ⟨h1, h2, h3, h4⟩ := h.prev_eq v u e' hpe
            refine ⟨h1, h2, h3, ?_⟩
            rw [Function.update_noteq hv,
              Function.update_noteq (hne_of_mem u h3)]
            exact h4
        · intro kd hkd
          rcases List.mem_append.mp hkd with hkd | hkd
          · rcases h.queue_prev kd hkd with hh | hh
            · exact Or.inl hh
            · right
              by_cases hk : kd.1 = e.toKey
              · rw [hk, Function.update_same]
                exact Option.some_ne_none _
              · rw [Function.update_noteq hk]
                exact hh
          · right
            rw [List.mem_singleton.mp hkd]
            simp only [Function.update_same]
            exact Option.some_ne_none _
        · intro kd hkd
          rcases List.mem_append.mp hkd with hkd | hkd
          · exact h.queue_sub kd hkd
          · rw [List.mem_singleton.mp hkd]
            exact hdk
      · exact fun y hy => List.mem_append_left _ hy
      · intro k hk
        exact ⟨Function.update_noteq (hne_of_mem k hk) _ _,
          Function.update_noteq (hne_of_mem k hk) _ _⟩
      · intro _ _
        dsimp only
        refine ⟨(e.toKey, acc.1 c + (e.length : WithTop ℝ)),
          List.mem_append_right _ (List.mem_singleton.mpr rfl), rfl, ?_⟩
        rw [Function.update_noteq (hne_of_mem c (List.mem_cons_self c ov))]
    · rw [if_neg hcond]
      refine ⟨h, fun y hy => hy, fun k _ => ⟨rfl, rfl⟩, ?_⟩
      intro _ hdk
      have hnlt : ¬ acc.1 c + (e.length : WithTop ℝ) < acc.1 e.toKey :=
        fun hlt => hcond ⟨hdk, hlt⟩
      have hle : acc.1 e.toKey ≤ acc.1 c + (e.length : WithTop ℝ) :=
        le_of_not_lt hnlt
      have hnt : acc.1 e.toKey ≠ ⊤ := by
        rw [hndne] at hle
        exact ne_top_of_le_ne_top (WithTop.coe_ne_top) hle
      exact ⟨(e.toKey, acc.1 e.toKey), h.fresh e.toKey htv hnt, rfl, hle⟩

/-- The whole relaxation fold preserves the invariant, only appends to the
queue, leaves visited keys untouched, and establishes the frontier property
for every processed edge. -/
theorem relaxAll_fold_inv {g : Graph} {dkeys : List Key} {s : Key}
    {ov : List Key} {c : Key} (hnn : NonnegWeights g) :
    ∀ (edges : List Edge)
      (acc : (Key → WithTop ℝ) × (Key → Option (Key × Edge)) × List QEntry),
      (∀ e ∈ edges, e ∈ edgesOf g c) → RInv g dkeys s ov c acc →
      RInv g dkeys s ov c (edges.foldl (relaxStep dkeys (c :: ov) c) acc)
      ∧ (∀ y ∈ acc.2.2, y ∈ (edges.foldl (relaxStep dkeys (c :: ov) c) acc).2.2)
      ∧ (∀ k ∈ c :: ov,
          (edges.foldl (relaxStep dkeys (c :: ov) c) acc).1 k = acc.1 k
          ∧ (edges.foldl (relaxStep dkeys (c :: ov) c) acc).2.1 k = acc.2.1 k)
      ∧ ∀ e ∈ edges, e.toKey ∉ c :: ov → e.toKey ∈ dkeys →
          ∃ q ∈ (edges.foldl (relaxStep dkeys (c :: ov) c) acc).2.2,
            q.1 = e.toKey
            ∧ q.2 ≤ (edges.foldl (relaxStep dkeys (c :: ov) c) acc).1 c
                + (e.length : WithTop ℝ) := by
  intro edges
  induction edges with
  | nil =>
    intro acc _ h
    exact ⟨h, fun y hy => hy, fun k _ => ⟨rfl, rfl⟩, by simp⟩
  | cons e es ih =>
    intro acc hsub h
    obtain ⟨h1, h2, h3, h4⟩ :=
      relaxStep_inv hnn (hsub e (List.mem_cons_self e es)) h
    obtain ⟨g1, g2, g3, g4⟩ := ih (relaxStep dkeys (c :: ov) c acc e)
      (fun e' he' => hsub e' (List.mem_cons_of_mem e he')) h1
    rw [List.foldl_cons]
    refine ⟨g1, ?_, ?_, ?_⟩
    · exact fun y hy => g2 y (h2 y hy)
    · intro k hk
      obtain ⟨ga, gb⟩ := g3 k hk
      obtain ⟨ha, hb⟩ := h3 k hk
      exact ⟨ga.trans ha, gb.trans hb⟩
    · intro e' he' ht hd
      rcases List.mem_cons.mp he' with rfl | he'
      · obtain ⟨q, hq, hq1, hq2⟩ := h4 ht hd
        refine ⟨q, g2 q hq, hq1, ?_⟩
        rw [(g3 c (List.mem_cons_self c ov)).1]
        exact hq2
      · exact g4 e' he' ht hd

/-- Dropping a stale (already-visited) popped entry preserves the
invariant. -/
theorem skip_branch_inv {g : Graph} {dkeys : List Key} {s : Key} {st : DState}
    {current : QEntry} {rest : List QEntry}
    (hinv : DInv g dkeys s st)
    (hs : sortQueue st.queue = current :: rest)
    (hcv : current.1 ∈ st.visited) :
    DInv g dkeys s ⟨st.distances, st.previous, st.visited, rest⟩ := by
  have hrme : ∀ x ∈ rest, x ∈ st.queue := sortQueue_rest_mem hs
  have hmemr : ∀ x ∈ st.queue, x.1 ∉ st.visited → x ∈ rest := by
    intro x hx hxv
    have hxc : x ∈ current :: rest := by
      rw [← hs]
      exact mem_sortQueue.mpr hx
    rcases List.mem_cons.mp hxc with rfl | h
    · exact absurd hcv hxv
    · exact h
  refine ⟨?_, ?_, ?_, ?_, ?_, ?_, ?_, ?_, ?_, ?_, ?_, ?_, ?_, ?_⟩
  · exact hinv.settled
  · exact fun kd hkd => hinv.qpaths kd (hrme kd hkd)
  · exact fun kd hkd => hinv.dist_le kd (hrme kd hkd)
  · exact fun k hk hkt => hmemr _ (hinv.fresh k hk hkt) hk
  · intro u hu e he ht hd
    obtain ⟨q, hq, hq1, hq2⟩ := hinv.frontier u hu e he ht hd
    exact ⟨q, hmemr q hq (by rw [hq1]; exact ht), hq1, hq2⟩
  · rcases hinv.start with h | h
    · exact Or.inl h
    · by_cases hsv : s ∈ st.visited
      · exact Or.inl hsv
      · exact Or.inr (hmemr _ h hsv)
  · exact hinv.dist_start
  · exact hinv.dist_nonneg
  · exact hinv.prev_eq
  · exact fun kd hkd => hinv.queue_prev kd (hrme kd hkd)
  · exact hinv.chain
  · exact hinv.visited_sub
  · exact hinv.visited_nodup
  · exact fun kd hkd => hinv.queue_sub kd (hrme kd hkd)

/-- The predecessor chains after one more node is marked visited. -/
theorem chain_extend {g : Graph} {dkeys : List Key} {s : Key} {st : DState}
    {current : QEntry} {rest : List QEntry}
    (hinv : DInv g dkeys s st)
    (hs : sortQueue st.queue = current :: rest) :
    ∀ v ∈ current.1 :: st.visited, ∃ n < (current.1 :: st.visited).length,
      PrevChain st.previous s n v := by
  intro v hv
  rcases List.mem_cons.mp hv with rfl | hv
  · rcases hinv.queue_prev current (sortQueue_head_mem hs) with hcs | hcs
    · exact ⟨0, by simp, hcs⟩
    · obtain ⟨⟨u, e⟩, hpe⟩ := Option.ne_none_iff_exists'.mp hcs
      obtain ⟨_, _, hu, _⟩ := hinv.prev_eq _ u e hpe
      obtain ⟨n, hn, hch⟩ := hinv.chain u hu
      exact ⟨n + 1, by simp only [List.length_cons]; omega,
        Or.inr ⟨u, e, hpe, hch⟩⟩
  · obtain ⟨n, hn, hch⟩ := hinv.chain v hv
    exact ⟨n, by simp only [List.length_cons]; omega, hch⟩

/-- Visiting a popped key that has no stored node preserves the
invariant. -/
theorem novisit_branch_inv {g : Graph} {dkeys : List Key} {s : Key}
    {st : DState} {current : QEntry} {rest : List QEntry}
    (hinv : DInv g dkeys s st) (hnn : NonnegWeights g)
    (hnk : ∀ k ∈ g.nodes.map Prod.fst, k ∈ dkeys)
    (hs : sortQueue st.queue = current :: rest)
    (hcv : current.1 ∉ st.visited)
    (hedges : edgesOf g current.1 = []) :
    DInv g dkeys s ⟨st.distances, st.previous, current.1 :: st.visited, rest⟩ := by
  obtain ⟨d, hd2, hdist, hsh⟩ := dijkstra_settle hinv hnn hnk hs hcv
  have hrme : ∀ x ∈ rest, x ∈ st.queue := sortQueue_rest_mem hs
  have hmemr : ∀ x ∈ st.queue, x.1 ≠ current.1 → x ∈ rest := by
    intro x hx hxv
    have hxc : x ∈ current :: rest := by
      rw [← hs]
      exact mem_sortQueue.mpr hx
    rcases List.mem_cons.mp hxc with rfl | h
    · exact absurd rfl hxv
    · exact h
  refine ⟨?_, ?_, ?_, ?_, ?_, ?_, ?_, ?_, ?_, ?_, ?_, ?_, ?_, ?_⟩
  · intro k hk
    rcases List.mem_cons.mp hk with rfl | hk
    · exact ⟨d, hdist, hsh⟩
    · exact hinv.settled k hk
  · exact fun kd hkd => hinv.qpaths kd (hrme kd hkd)
  · exact fun kd hkd => hinv.dist_le kd (hrme kd hkd)
  · intro k hk hkt
    have hk1 : k ∉ st.visited := fun h => hk (List.mem_cons_of_mem _ h)
    have hk2 : k ≠ current.1 := fun h => hk (h ▸ List.mem_cons_self _ _)
    exact hmemr _ (hinv.fresh k hk1 hkt) hk2
  · intro u hu e he ht hd
    rcases List.mem_cons.mp hu with rfl | hu
    · rw [hedges] at he
      exact absurd he (List.not_mem_nil e)
    · have ht1 : e.toKey ∉ st.visited := fun h => ht (List.mem_cons_of_mem _ h)
      have ht2 : e.toKey ≠ current.1 := fun h => ht (h ▸ List.mem_cons_self _ _)
      obtain ⟨q, hq, hq1, hq2⟩ := hinv.frontier u hu e he ht1 hd
      exact ⟨q, hmemr q hq (hq1 ▸ ht2), hq1, hq2⟩
  · rcases hinv.start with h | h
    · exact Or.inl (List.mem_cons_of_mem _ h)
    · by_cases hseq : s = current.1
      · exact Or.inl (by rw [hseq]; exact List.mem_cons_self _ _)
      · exact Or.inr (hmemr _ h hseq)
  · exact hinv.dist_start
  · exact hinv.dist_nonneg
  · intro v u e hpe
    obtain ⟨h1, h2, h3, h4⟩ := hinv.prev_eq v u e hpe
    exact ⟨h1, h2, List.mem_cons_of_mem _ h3, h4⟩
  · exact fun kd hkd => hinv.queue_prev kd (hrme kd hkd)
  · exact chain_extend hinv hs
  · intro k hk
    rcases List.mem_cons.mp hk with rfl | hk
    · exact hinv.queue_sub current (sortQueue_head_mem hs)
    · exact hinv.visited_sub k hk
  · exact List.nodup_cons.mpr ⟨hcv, hinv.visited_nodup⟩
  · exact fun kd hkd => hinv.queue_sub kd (hrme kd hkd)

/-- Visiting a popped key and relaxing its node's edges preserves the
invariant. -/
theorem relax_branch_inv {g : Graph} {dkeys : List Key} {s : Key}
    {st : DState} {current : QEntry} {rest : List QEntry} {node : Node}
    (hinv : DInv g dkeys s st) (hnn : NonnegWeights g)
    (hnk : ∀ k ∈ g.nodes.map Prod.fst, k ∈ dkeys)
    (hs : sortQueue st.queue = current :: rest)
    (hcv : current.1 ∉ st.visited)
    (hl : lookupNode g.nodes current.1 = some node) :
    DInv g dkeys s
      ⟨(relaxAll dkeys (current.1 :: st.visited) current.1 node.edges
          (st.distances, st.previous, rest)).1,
       (relaxAll dkeys (current.1 :: st.visited) current.1 node.edges
          (st.distances, st.previous, rest)).2.1,
       current.1 :: st.visited,
       (relaxAll dkeys (current.1 :: st.visited) current.1 node.edges
          (st.distances, st.previous, rest)).2.2⟩ := by
  obtain ⟨d, hd2, hdist, hsh⟩ := dijkstra_settle hinv hnn hnk hs hcv
  have hrme : ∀ x ∈ rest, x ∈ st.queue := sortQueue_rest_mem hs
  have hmemr : ∀ x ∈ st.queue, x.1 ≠ current.1 → x ∈ rest := by
    intro x hx hxv
    have hxc : x ∈ current :: rest := by
      rw [← hs]
      exact mem_sortQueue.mpr hx
    rcases List.mem_cons.mp hxc with rfl | h
    · exact absurd rfl hxv
    · exact h
  have hedges : edgesOf g current.1 = node.edges := edgesOf_eq_of_lookup hl
  have hinit : RInv g dkeys s st.visited current.1
      (st.distances, st.previous, rest) := by
    refine ⟨?_, ?_, ?_, ?_, ?_, ?_, ?_, ?_, ?_, ?_, ?_⟩
    · intro k hk
      rcases List.mem_cons.mp hk with rfl | hk
      · exact ⟨d, hdist, hsh⟩
      · exact hinv.settled k hk
    · exact fun kd hkd => hinv.qpaths kd (hrme kd hkd)
    · exact fun kd hkd => hinv.dist_le kd (hrme kd hkd)
    · intro k hk hkt
      have hk1 : k ∉ st.visited := fun h => hk (List.mem_cons_of_mem _ h)
      have hk2 : k ≠ current.1 := fun h => hk (h ▸ List.mem_cons_self _ _)
      exact hmemr _ (hinv.fresh k hk1 hkt) hk2
    · intro u hu e he ht hd
      have ht1 : e.toKey ∉ st.visited := fun h => ht (List.mem_cons_of_mem _ h)
      have ht2 : e.toKey ≠ current.1 := fun h => ht (h ▸ List.mem_cons_self _ _)
      obtain ⟨q, hq, hq1, hq2⟩ := hinv.frontier u hu e he ht1 hd
      exact ⟨q, hmemr q hq (hq1 ▸ ht2), hq1, hq2⟩
    · rcases hinv.start with h | h
      · exact Or.inl (List.mem_cons_of_mem _ h)
      · by_cases hseq : s = current.1
        · exact Or.inl (by rw [hseq]; exact List.mem_cons_self _ _)
        · exact Or.inr (hmemr _ h hseq)
    · exact hinv.dist_start
    · exact hinv.dist_nonneg
    · intro v u e hpe
      obtain ⟨h1, h2, h3, h4⟩ := hinv.prev_eq v u e hpe
      exact ⟨h1, h2, List.mem_cons_of_mem _ h3, h4⟩
    · exact fun kd hkd => hinv.queue_prev kd (hrme kd hkd)
    · exact fun kd hkd => hinv.queue_sub kd (hrme kd hkd)
  have hsub : ∀ e ∈ node.edges, e ∈ edgesOf g current.1 := by
    rw [hedges]
    exact fun e he => he
  rw [relaxAll_eq]
  obtain ⟨hfin, hmono, hagree, hfront⟩ :=
    relaxAll_fold_inv hnn node.edges (st.distances, st.previous, rest) hsub hinit
  refine ⟨?_, ?_, ?_, ?_, ?_, ?_, ?_, ?_, ?_, ?_, ?_, ?_, ?_, ?_⟩
  · exact hfin.settled
  · exact hfin.qpaths
  · exact hfin.dist_le
  · exact hfin.fresh
  · intro u hu e he ht hd
    rcases List.mem_cons.mp hu with rfl | hu
    · rw [hedges] at he
      exact hfront e he ht hd
    · exact hfin.frontier_old u hu e he ht hd
  · exact hfin.start
  · exact hfin.dist_start
  · exact hfin.dist_nonneg
  · exact hfin.prev_eq
  · exact hfin.queue_prev
  · intro v hv
    obtain ⟨n, hn, hch⟩ := chain_extend hinv hs v hv
    refine ⟨n, hn, ?_⟩
    refine prevChain_mono (fun x hx => (hagree x hx).2) ?_ n v hv hch
    intro x hx u e hpe
    obtain ⟨_, _, h3, _⟩ := hinv.prev_eq x u e hpe
    exact List.mem_cons_of_mem _ h3
  · intro k hk
    rcases List.mem_cons.mp hk with rfl | hk
    · exact hinv.queue_sub current (sortQueue_head_mem hs)
    · exact hinv.visited_sub k hk
  · exact List.nodup_cons.mpr ⟨hcv, hinv.visited_nodup⟩
  · exact hfin.queue_sub

/-- The post-condition established by the main loop: everything visited is
settled at its true shortest distance, a recorded predecessor for the end
key means the end key was settled, and the predecessor map carries
well-founded chains back to the start. -/
structure DPost (g : Graph) (dkeys : List Key) (s endKey : Key)
    (st : DState) : Prop where
  settled : ∀ k ∈ st.visited, ∃ d : ℝ, st.distances k = (d : WithTop ℝ)
    ∧ Shortest g s k d
  end_visited : st.previous endKey ≠ none → endKey ∈ st.visited
  prev_eq : ∀ v u e, st.previous v = some (u, e) → e ∈ edgesOf g u
    ∧ e.toKey = v ∧ u ∈ st.visited
    ∧ st.distances v = st.distances u + (e.length : WithTop ℝ)
  chain : ∀ v ∈ st.visited, ∃ n < st.visited.length, PrevChain st.previous s n v
  dist_start : st.distances s = 0
  visited_nodup : st.visited.Nodup
  visited_sub : ∀ k ∈ st.visited, k ∈ dkeys

/-- The main loop carries the invariant to the post-condition. -/
theorem dijkstraLoop_post {g : Graph} {dkeys : List Key} {endKey s : Key}
    (hnn : NonnegWeights g) (hnk : ∀ k ∈ g.nodes.map Prod.fst, k ∈ dkeys) :
    ∀ st : DState, DInv g dkeys s st →
      DPost g dkeys s endKey (dijkstraLoop g dkeys endKey st) := by
  intro st
  induction st using dijkstraLoop.induct g dkeys endKey with
  | case1 st hq =>
    intro hinv
    rw [dijkstraLoop_eq, hq]
    have hqe : st.queue = [] := sortQueue_nil hq
    refine ⟨hinv.settled, ?_, hinv.prev_eq, hinv.chain, hinv.dist_start,
      hinv.visited_nodup, hinv.visited_sub⟩
    intro hne
    obtain ⟨⟨u, e⟩, hpe⟩ := Option.ne_none_iff_exists'.mp hne
    obtain ⟨_, _, hu, hd⟩ := hinv.prev_eq _ u e hpe
    obtain ⟨du, hdu, _⟩ := hinv.settled u hu
    by_contra hev
    have hnt : st.distances endKey ≠ ⊤ := by
      rw [hd, hdu, ← WithTop.coe_add]
      exact WithTop.coe_ne_top
    have := hinv.fresh endKey hev hnt
    rw [hqe] at this
    exact absurd this (List.not_mem_nil _)
  | case2 st current rest hq hv ih =>
    intro hinv
    rw [dijkstraLoop_eq, hq]
    dsimp only
    rw [if_pos hv]
    exact ih (skip_branch_inv hinv hq hv)
  | case3 st current rest hq hv hend =>
    intro hinv
    rw [dijkstraLoop_eq, hq]
    dsimp only
    rw [if_neg hv, if_pos hend]
    obtain ⟨d, hd2, hdist, hsh⟩ := dijkstra_settle hinv hnn hnk hq hv
    refine ⟨?_, ?_, ?_, ?_, ?_, ?_, ?_⟩
    · intro k hk
      rcases List.mem_cons.mp hk with rfl | hk
      · exact ⟨d, hdist, hsh⟩
      · exact hinv.settled k hk
    · intro _
      rw [← hend]
      exact List.mem_cons_self _ _
    · intro v u e hpe
      obtain ⟨h1, h2, h3, h4⟩ := hinv.prev_eq v u e hpe
      exact ⟨h1, h2, List.mem_cons_of_mem _ h3, h4⟩
    · exact chain_extend hinv hq
    · exact hinv.dist_start
    · exact List.nodup_cons.mpr ⟨hv, hinv.visited_nodup⟩
    · intro k hk
      rcases List.mem_cons.mp hk with rfl | hk
      · exact hinv.queue_sub current (sortQueue_head_mem hq)
      · exact hinv.visited_sub k hk
  | case4 st current rest hq hv hend hl ih =>
    intro hinv
    rw [dijkstraLoop_eq, hq]
    dsimp only
    rw [if_neg hv, if_neg hend, hl]
    exact ih (novisit_branch_inv hinv hnn hnk hq hv (by
      unfold edgesOf
      rw [hl]))
  | case5 st current rest hq hv hend node hl r ih =>
    intro hinv
    rw [dijkstraLoop_eq, hq]
    dsimp only
    rw [if_neg hv, if_neg hend, hl]
    exact ih (relax_branch_inv hinv hnn hnk hq hv hl)

/-- The loop invariant holds for the initial search state. -/
theorem dijkstra_init_inv (g : Graph) (sk : Key) :
    DInv g (sk :: g.nodes.map Prod.fst) sk
      ⟨fun k => if k = sk then (0 : WithTop ℝ) else ⊤, fun _ => none, [],
        [(sk, (0 : WithTop ℝ))]⟩ := by
  refine ⟨?_, ?_, ?_, ?_, ?_, ?_, ?_, ?_, ?_, ?_, ?_, ?_, ?_, ?_⟩
  · intro k hk
    exact absurd hk (List.not_mem_nil k)
  · intro kd hkd
    rw [List.mem_singleton.mp hkd]
    exact ⟨0, WithTop.coe_zero.symm, [], GWalk.nil sk, rfl⟩
  · intro kd hkd
    rw [List.mem_singleton.mp hkd]
    simp
  · intro k hk hkt
    by_cases hks : k = sk
    · subst hks
      simp
    · exfalso
      apply hkt
      simp [hks]
  · intro u hu
    exact absurd hu (List.not_mem_nil u)
  · exact Or.inr (List.mem_singleton.mpr rfl)
  · simp
  · intro k
    by_cases h : k = sk <;> simp [h]
  · intro v u e hpe
    exact Option.noConfusion hpe
  · intro kd hkd
    rw [List.mem_singleton.mp hkd]
    exact Or.inl rfl
  · intro v hv
    exact absurd hv (List.not_mem_nil v)
  · intro k hk
    exact absurd hk (List.not_mem_nil k)
  · exact List.nodup_nil
  · intro kd hkd
    rw [List.mem_singleton.mp hkd]
    exact List.mem_cons_self _ _

/-- Path reconstruction follows the predecessor chain and produces a walk
whose weight telescopes to the recorded distance. -/
theorem reconstructLoop_spec {g : Graph} {s : Key} {st : DState}
    (hprev : ∀ v u e, st.previous v = some (u, e) → e ∈ edgesOf g u
      ∧ e.toKey = v ∧ st.distances v = st.distances u + (e.length : WithTop ℝ))
    (hs0 : st.distances s = 0) :
    ∀ n v fuel acc, PrevChain st.previous s n v → n ≤ fuel →
      ∃ es, GWalk g s v es
        ∧ ((walkWeight es : ℝ) : WithTop ℝ) = st.distances v
        ∧ reconstructLoop st.previous s fuel v acc
            = s :: es.map Edge.toKey ++ acc := by
  intro n
  induction n with
  | zero =>
    intro v fuel acc hch _
    have hvs : v = s := hch
    subst hvs
    refine ⟨[], GWalk.nil v, ?_, ?_⟩
    · rw [walkWeight_nil, hs0]
      exact WithTop.coe_zero
    · cases fuel with
      | zero => simp [reconstructLoop]
      | succ m => simp [reconstructLoop]
  | succ n ih =>
    intro v fuel acc hch hle
    by_cases hvs : v = s
    · subst hvs
      refine ⟨[], GWalk.nil v, ?_, ?_⟩
      · rw [walkWeight_nil, hs0]
        exact WithTop.coe_zero
      · cases fuel with
        | zero => simp [reconstructLoop]
        | succ m => simp [reconstructLoop]
    · have hch' : v = s
          ∨ ∃ u e, st.previous v = some (u, e) ∧ PrevChain st.previous s n u :=
        hch
      rcases hch' with h | ⟨u, e, hpe, hchu⟩
      · exact absurd h hvs
      · obtain ⟨he, htk, hd⟩ := hprev v u e hpe
        cases fuel with
        | zero => omega
        | succ m =>
          obtain ⟨es, hw, hwd, hrec⟩ := ih u m (v :: acc) hchu (by omega)
          have hwv : GWalk g u v [e] := by
            rw [← htk]
            exact GWalk.cons e he (GWalk.nil e.toKey)
          refine ⟨es ++ [e], hw.append_edges hwv, ?_, ?_⟩
          · rw [walkWeight_append, walkWeight_cons, walkWeight_nil, add_zero,
              WithTop.coe_add, hwd, hd]
          · rw [reconstructLoop, if_neg hvs, hpe]
            dsimp only
            rw [hrec]
            simp [htk]

/-- C6: whenever the railway-graph Dijkstra search returns a node path, the
path is realized by a walk of graph edges from the start node to the end
node whose total weight is at most the weight of every walk between the
same two nodes, provided every edge weight in the graph is
non-negative. -/
theorem dijkstra_optimal (g : Graph) (sN eN : Node) (p : List Key)
    (hnn : NonnegWeights g) (hp : dijkstra g sN eN = some p) :
    ∃ es : List Edge, GWalk g sN.key eN.key es
      ∧ p = sN.key :: es.map Edge.toKey
      ∧ ∀ es' : List Edge, GWalk g sN.key eN.key es' →
          walkWeight es ≤ walkWeight es' := by
  have hpost : DPost g (sN.key :: g.nodes.map Prod.fst) sN.key eN.key
      (dijkstraLoop g (sN.key :: g.nodes.map Prod.fst) eN.key
        ⟨fun k => if k = sN.key then (0 : WithTop ℝ) else ⊤, fun _ => none, [],
          [(sN.key, (0 : WithTop ℝ))]⟩) :=
    dijkstraLoop_post hnn (fun k hk => List.mem_cons_of_mem _ hk) _
      (dijkstra_init_inv g sN.key)
  rw [dijkstra] at hp
  set final := dijkstraLoop g (sN.key :: g.nodes.map Prod.fst) eN.key
    ⟨fun k => if k = sN.key then (0 : WithTop ℝ) else ⊤, fun _ => none, [],
      [(sN.key, (0 : WithTop ℝ))]⟩ with hfinal
  by_cases hse : sN.key = eN.key
  · rw [if_neg (fun hc => hc.2 hse)] at hp
    have hrec : reconstructLoop final.previous sN.key (g.nodes.length + 1)
        eN.key [] = [sN.key] := by
      rw [reconstructLoop, if_pos hse.symm]
    rw [hrec] at hp
    refine ⟨[], ?_, ?_, ?_⟩
    · rw [← hse]
      exact GWalk.nil sN.key
    · simpa using (Option.some_injective _ hp).symm
    · intro es' hw'
      rw [walkWeight_nil]
      exact walkWeight_nonneg hnn hw'
  · have hne : final.previous eN.key ≠ none := by
      intro h
      rw [if_pos ⟨by rw [h]; rfl, hse⟩] at hp
      exact Option.noConfusion hp
    rw [if_neg (fun hc => hne (Option.isNone_iff_eq_none.mp hc.1))] at hp
    have hev : eN.key ∈ final.visited := hpost.end_visited hne
    obtain ⟨d, hdist, hsh⟩ := hpost.settled _ hev
    obtain ⟨n, hn, hch⟩ := hpost.chain _ hev
    have hlen : final.visited.length ≤ g.nodes.length + 1 := by
      have h1 : final.visited.toFinset.card = final.visited.length :=
        List.toFinset_card_of_nodup hpost.visited_nodup
      have h2 : final.visited.toFinset
          ⊆ (sN.key :: g.nodes.map Prod.fst).toFinset := by
        intro x hx
        rw [List.mem_toFinset] at hx ⊢
        exact hpost.visited_sub x hx
      have h3 := Finset.card_le_card h2
      have h4 := List.toFinset_card_le (sN.key :: g.nodes.map Prod.fst)
      simp only [List.length_cons, List.length_map] at h4
      omega
    obtain ⟨es, hw, hwd, hrec⟩ := reconstructLoop_spec
      (fun v u e hpe =>
        let h := hpost.prev_eq v u e hpe
        ⟨h.1, h.2.1, h.2.2.2⟩)
      hpost.dist_start n eN.key (g.nodes.length + 1) [] hch (by omega)
    rw [hrec] at hp
    have hpe : p = sN.key :: es.map Edge.toKey := by
      have := (Option.some_injective _ hp).symm
      simpa using this
    have hwed : walkWeight es = d := by
      rw [hdist] at hwd
      exact_mod_cast hwd
    refine ⟨es, hw, hpe, ?_⟩
    intro es' hw'
    rw [hwed]
    exact hsh.2 es' hw'

/-- Concrete instance for the optimality theorem: a one-node graph. -/
noncomputable def wNode : Node := ⟨(1, 2), 51, 0, []⟩

def wGraph : Graph := ⟨[]⟩

theorem dijkstra_optimal_witness :
    ∃ es : List Edge, GWalk wGraph wNode.key wNode.key es
      ∧ [wNode.key] = wNode.key :: es.map Edge.toKey
      ∧ ∀ es' : List Edge, GWalk wGraph wNode.key wNode.key es' →
          walkWeight es ≤ walkWeight es' := by
  refine dijkstra_optimal wGraph wNode wNode [wNode.key] ?_ ?_
  · intro k e he
    simp [edgesOf, lookupNode, wGraph] at he
  · rw [dijkstra]
    have hsq : sortQueue [(wNode.key, (0 : WithTop ℝ))]
        = [(wNode.key, (0 : WithTop ℝ))] := by
      simp [sortQueue, List.insertionSort, List.orderedInsert]
    rw [dijkstraLoop_eq]
    dsimp only
    rw [hsq]
    dsimp only
    rw [if_neg (List.not_mem_nil _), if_pos rfl]
    dsimp only
    rw [if_neg (fun hc => hc.2 rfl)]
    rw [reconstructLoop, if_pos rfl]

/-! Concrete two-segment scenario (C2). -/

noncomputable def c2o : Point := (51.50, -0.10)

noncomputable def c2p1 : Point := (51.51, -0.09)

noncomputable def c2d : Point := (51.52, -0.08)

noncomputable def c2segA : Segment := ⟨1, [c2o, c2p1]⟩

noncomputable def c2segB : Segment := ⟨2, [c2p1, c2d]⟩

noncomputable def c2ways : List Way :=
  [⟨1, some [c2o, c2p1]⟩, ⟨2, some [c2p1, c2d]⟩]

noncomputable def c2eAf : Edge :=
  ⟨(51510, -90), [c2o, c2p1], pathLength [c2o, c2p1], 1⟩

noncomputable def c2eAr : Edge :=
  ⟨(51500, -100), [c2p1, c2o], pathLength [c2o, c2p1], 1⟩

noncomputable def c2eBf : Edge :=
  ⟨(51520, -80), [c2p1, c2d], pathLength [c2p1, c2d], 2⟩

noncomputable def c2eBr : Edge :=
  ⟨(51510, -90), [c2d, c2p1], pathLength [c2p1, c2d], 2⟩

noncomputable def c2n1 : Node := ⟨(51500, -100), 51.50, -0.10, [c2eAf]⟩

noncomputable def c2n2 : Node := ⟨(51510, -90), 51.51, -0.09, [c2eAr, c2eBf]⟩

noncomputable def c2n3 : Node := ⟨(51520, -80), 51.52, -0.08, [c2eBr]⟩

noncomputable def c2nodes : List (Key × Node) :=
  [((51500, -100), c2n1), ((51510, -90), c2n2), ((51520, -80), c2n3)]

theorem c2_key_o : getNodeKey (51.50, -0.10) = ((51500 : ℤ), (-100 : ℤ)) := by
  unfold getNodeKey
  have h1 : round ((51.50 : ℝ) / 0.001) = 51500 := by
    rw [show (51.50 : ℝ) / 0.001 = 51500 by norm_num, round_eq]
    refine Int.floor_eq_iff.mpr ⟨by norm_num, by norm_num⟩
  have h2 : round ((-0.10 : ℝ) / 0.001) = -100 := by
    rw [show (-0.10 : ℝ) / 0.001 = -100 by norm_num, round_eq]
    refine Int.floor_eq_iff.mpr ⟨by norm_num, by norm_num⟩
  simp only [h1, h2]

theorem c2_key_p1 : getNodeKey (51.51, -0.09) = ((51510 : ℤ), (-90 : ℤ)) := by
  unfold getNodeKey
  have h1 : round ((51.51 : ℝ) / 0.001) = 51510 := by
    rw [show (51.51 : ℝ) / 0.001 = 51510 by norm_num, round_eq]
    refine Int.floor_eq_iff.mpr ⟨by norm_num, by norm_num⟩
  have h2 : round ((-0.09 : ℝ) / 0.001) = -90 := by
    rw [show (-0.09 : ℝ) / 0.001 = -90 by norm_num, round_eq]
    refine Int.floor_eq_iff.mpr ⟨by norm_num, by norm_num⟩
  simp only [h1, h2]

theorem c2_key_d : getNodeKey (51.52, -0.08) = ((51520 : ℤ), (-80 : ℤ)) := by
  unfold getNodeKey
  have h1 : round ((51.52 : ℝ) / 0.001) = 51520 := by
    rw [show (51.52 : ℝ) / 0.001 = 51520 by norm_num, round_eq]
    refine Int.floor_eq_iff.mpr ⟨by norm_num, by norm_num⟩
  have h2 : round ((-0.08 : ℝ) / 0.001) = -80 := by
    rw [show (-0.08 : ℝ) / 0.001 = -80 by norm_num, round_eq]
    refine Int.floor_eq_iff.mpr ⟨by norm_num, by norm_num⟩
  simp only [h1, h2]

theorem c2_dist_o_p1 : distance c2o c2p1 = Real.sqrt 0.0002 := by
  unfold distance c2o c2p1
  norm_num

theorem c2_dist_p1_d : distance c2p1 c2d = Real.sqrt 0.0002 := by
  unfold distance c2p1 c2d
  norm_num

theorem c2_dist_o_d : distance c2o c2d = Real.sqrt 0.0008 := by
  unfold distance c2o c2d
  norm_num

theorem c2_sqrt2_pos : (0 : ℝ) < Real.sqrt 0.0002 :=
  Real.sqrt_pos.mpr (by norm_num)

theorem c2_sqrt2_lt_sqrt8 : Real.sqrt 0.0002 < Real.sqrt 0.0008 :=
  Real.sqrt_lt_sqrt (by norm_num) (by norm_num)

theorem c2_sqrt8_eq : Real.sqrt 0.0008 = 2 * Real.sqrt 0.0002 := by
  rw [show (0.0008 : ℝ) = 4 * 0.0002 by norm_num,
    Real.sqrt_mul (by norm_num : (0 : ℝ) ≤ 4),
    show Real.sqrt 4 = 2 by
      rw [show (4 : ℝ) = 2 ^ 2 by norm_num, Real.sqrt_sq (by norm_num)]]

theorem c2_sqrt2_gt : (0.001 : ℝ) < Real.sqrt 0.0002 := by
  have h : Real.sqrt 0.000001 < Real.sqrt 0.0002 :=
    Real.sqrt_lt_sqrt (by norm_num) (by norm_num)
  rwa [show (0.000001 : ℝ) = 0.001 ^ 2 by norm_num,
    Real.sqrt_sq (by norm_num)] at h

theorem c2_addA : addSegment [] c2segA
    = [((51500, -100), ⟨(51500, -100), 51.50, -0.10, [c2eAf]⟩),
       ((51510, -90), ⟨(51510, -90), 51.51, -0.09, [c2eAr]⟩)] := by
  rw [addSegment, if_neg (by simp [c2segA])]
  simp only [c2segA, List.headI, List.getLastI]
  have h1 : getOrCreateNode [] c2o
      = [((51500, -100), ⟨(51500, -100), 51.50, -0.10, []⟩)] := by
    simp [getOrCreateNode, lookupNode, c2_key_o, c2o]
  have h2 : getOrCreateNode [((51500, -100),
        ⟨(51500, -100), 51.50, -0.10, []⟩)] c2p1
      = [((51500, -100), ⟨(51500, -100), 51.50, -0.10, []⟩),
         ((51510, -90), ⟨(51510, -90), 51.51, -0.09, []⟩)] := by
    simp [getOrCreateNode, lookupNode, c2_key_p1, c2p1]
  rw [show getNodeKey c2o = ((51500 : ℤ), (-100 : ℤ)) by rw [c2o]; exact c2_key_o,
    show getNodeKey c2p1 = ((51510 : ℤ), (-90 : ℤ)) by rw [c2p1]; exact c2_key_p1,
    h1, h2]
  simp [pushEdge, c2eAf, c2eAr]

theorem c2_addB : addSegment
    [((51500, -100), ⟨(51500, -100), 51.50, -0.10, [c2eAf]⟩),
     ((51510, -90), ⟨(51510, -90), 51.51, -0.09, [c2eAr]⟩)] c2segB
    = c2nodes := by
  rw [addSegment, if_neg (by simp [c2segB])]
  simp only [c2segB, List.headI, List.getLastI]
  have h1 : getOrCreateNode
      [((51500, -100), ⟨(51500, -100), 51.50, -0.10, [c2eAf]⟩),
       ((51510, -90), ⟨(51510, -90), 51.51, -0.09, [c2eAr]⟩)] c2p1
      = [((51500, -100), ⟨(51500, -100), 51.50, -0.10, [c2eAf]⟩),
         ((51510, -90), ⟨(51510, -90), 51.51, -0.09, [c2eAr]⟩)] := by
    simp [getOrCreateNode, lookupNode, c2p1, c2_key_p1]
  have h2 : getOrCreateNode
      [((51500, -100), ⟨(51500, -100), 51.50, -0.10, [c2eAf]⟩),
       ((51510, -90), ⟨(51510, -90), 51.51, -0.09, [c2eAr]⟩)] c2d
      = [((51500, -100), ⟨(51500, -100), 51.50, -0.10, [c2eAf]⟩),
         ((51510, -90), ⟨(51510, -90), 51.51, -0.09, [c2eAr]⟩),
         ((51520, -80), ⟨(51520, -80), 51.52, -0.08, []⟩)] := by
    simp [getOrCreateNode, lookupNode, c2d, c2_key_d]
  rw [show getNodeKey c2p1 = ((51510 : ℤ), (-90 : ℤ)) by
      rw [c2p1]; exact c2_key_p1,
    show getNodeKey c2d = ((51520 : ℤ), (-80 : ℤ)) by
      rw [c2d]; exact c2_key_d,
    h1, h2]
  simp [pushEdge, c2nodes, c2n1, c2n2, c2n3, c2eBf, c2eBr]

theorem c2_graph : buildRailwayGraph [c2segA, c2segB] = ⟨c2nodes⟩ := by
  rw [buildRailwayGraph,
    show [c2segA, c2segB].foldl addSegment []
      = addSegment (addSegment [] c2segA) c2segB from rfl,
    c2_addA, c2_addB]

theorem c2_segments : waySegments c2ways = [c2segA, c2segB] := by
  simp [waySegments, c2ways, c2segA, c2segB]

theorem c2_closest_o : findClosestNode c2nodes c2o = some c2n1 := by
  have hdoo : distance (51.50, -0.10) c2o = 0 := by
    rw [show ((51.50 : ℝ), (-0.10 : ℝ)) = c2o from rfl, distance_self]
  have hd1o : distance (51.51, -0.09) c2o = Real.sqrt 0.0002 := by
    unfold distance c2o
    norm_num
  have hd2o : distance (51.52, -0.08) c2o = Real.sqrt 0.0008 := by
    unfold distance c2o
    norm_num
  simp [findClosestNode, c2nodes, c2n1, c2n2, c2n3, hdoo, hd1o, hd2o,
    WithTop.coe_lt_top,
    show ¬ Real.sqrt 0.0002 < 0 from not_lt.mpr (Real.sqrt_nonneg _),
    show ¬ Real.sqrt 0.0008 < 0 from not_lt.mpr (Real.sqrt_nonneg _)]

theorem c2_closest_d : findClosestNode c2nodes c2d = some c2n3 := by
  have hdod : distance (51.50, -0.10) c2d = Real.sqrt 0.0008 := by
    unfold distance c2d
    norm_num
  have hd1d : distance (51.51, -0.09) c2d = Real.sqrt 0.0002 := by
    unfold distance c2d
    norm_num
  have hd2d : distance (51.52, -0.08) c2d = 0 := by
    rw [show ((51.52 : ℝ), (-0.08 : ℝ)) = c2d from rfl, distance_self]
  simp [findClosestNode, c2nodes, c2n1, c2n2, c2n3, hdod, hd1d, hd2d,
    WithTop.coe_lt_top, c2_sqrt2_lt_sqrt8, c2_sqrt2_pos,
    show (0 : ℝ) < 2e-4 by norm_num]

def c2dkeys : List Key :=
  [(51500, -100), (51500, -100), (51510, -90), (51520, -80)]

noncomputable def c2wA : ℝ := pathLength [c2o, c2p1]

noncomputable def c2wB : ℝ := pathLength [c2p1, c2d]

noncomputable def c2d0 : Key → WithTop ℝ :=
  fun k => if k = ((51500 : ℤ), (-100 : ℤ)) then 0 else ⊤

noncomputable def c2dist1 : Key → WithTop ℝ :=
  Function.update c2d0 (51510, -90) ((0 : WithTop ℝ) + (c2wA : WithTop ℝ))

noncomputable def c2prev1 : Key → Option (Key × Edge) :=
  Function.update (fun _ => none) (51510, -90) (some ((51500, -100), c2eAf))

noncomputable def c2dist2 : Key → WithTop ℝ :=
  Function.update c2dist1 (51520, -80)
    ((0 : WithTop ℝ) + (c2wA : WithTop ℝ) + (c2wB : WithTop ℝ))

noncomputable def c2prev2 : Key → Option (Key × Edge) :=
  Function.update c2prev1 (51520, -80) (some ((51510, -90), c2eBf))

theorem c2_lookup1 : lookupNode c2nodes (51500, -100) = some c2n1 := by
  simp [c2nodes, lookupNode]

theorem c2_lookup2 : lookupNode c2nodes (51510, -90) = some c2n2 := by
  simp [c2nodes, lookupNode]

theorem c2_relax1 : relaxAll c2dkeys [((51500 : ℤ), (-100 : ℤ))]
    (51500, -100) c2n1.edges (c2d0, (fun _ => none), [])
    = (c2dist1, c2prev1, [((51510, -90), (0 : WithTop ℝ) + (c2wA : WithTop ℝ))]) := by
  have hd0K1 : c2d0 (51500, -100) = 0 := by simp [c2d0]
  have hd0K2 : c2d0 (51510, -90) = ⊤ := by simp [c2d0]
  have hlt : (0 : WithTop ℝ) + (c2wA : WithTop ℝ) < ⊤ := by
    rw [zero_add]
    exact WithTop.coe_lt_top c2wA
  rw [relaxAll_eq]
  simp only [show c2n1.edges = [c2eAf] from rfl, List.foldl_cons, List.foldl_nil]
  rw [relaxStep]
  rw [show c2eAf.toKey = ((51510 : ℤ), (-90 : ℤ)) from rfl,
    show c2eAf.length = c2wA from rfl]
  rw [if_neg (show ((51510 : ℤ), (-90 : ℤ))
      ∉ ([((51500 : ℤ), (-100 : ℤ))] : List Key) by decide)]
  dsimp only
  rw [hd0K1, hd0K2]
  rw [if_pos (show ((51510 : ℤ), (-90 : ℤ)) ∈ c2dkeys
      ∧ (0 : WithTop ℝ) + (c2wA : WithTop ℝ) < (⊤ : WithTop ℝ)
    from ⟨by decide, hlt⟩)]
  rfl

theorem c2_relax2 : relaxAll c2dkeys
    [((51510 : ℤ), (-90 : ℤ)), ((51500 : ℤ), (-100 : ℤ))]
    (51510, -90) c2n2.edges (c2dist1, c2prev1, [])
    = (c2dist2, c2prev2,
        [((51520, -80),
          (0 : WithTop ℝ) + (c2wA : WithTop ℝ) + (c2wB : WithTop ℝ))]) := by
  have h1 : c2dist1 (51510, -90) = (0 : WithTop ℝ) + (c2wA : WithTop ℝ) := by
    unfold c2dist1
    rw [Function.update_same]
  have h2 : c2dist1 (51520, -80) = ⊤ := by
    unfold c2dist1
    rw [Function.update_noteq (by decide)]
    simp [c2d0]
  have hlt : (0 : WithTop ℝ) + (c2wA : WithTop ℝ) + (c2wB : WithTop ℝ) < ⊤ := by
    rw [zero_add, ← WithTop.coe_add]
    exact WithTop.coe_lt_top _
  have hstep1 : relaxStep c2dkeys
      [((51510 : ℤ), (-90 : ℤ)), ((51500 : ℤ), (-100 : ℤ))]
      (51510, -90) (c2dist1, c2prev1, ([] : List QEntry)) c2eAr
      = (c2dist1, c2prev1, []) := by
    rw [relaxStep]
    rw [show c2eAr.toKey = ((51500 : ℤ), (-100 : ℤ)) from rfl]
    rw [if_pos (show ((51500 : ℤ), (-100 : ℤ))
      ∈ [((51510 : ℤ), (-90 : ℤ)), ((51500 : ℤ), (-100 : ℤ))] by decide)]
  have hstep2 : relaxStep c2dkeys
      [((51510 : ℤ), (-90 : ℤ)), ((51500 : ℤ), (-100 : ℤ))]
      (51510, -90) (c2dist1, c2prev1, ([] : List QEntry)) c2eBf
      = (c2dist2, c2prev2,
          [((51520, -80),
            (0 : WithTop ℝ) + (c2wA : WithTop ℝ) + (c2wB : WithTop ℝ))]) := by
    rw [relaxStep]
    rw [show c2eBf.toKey = ((51520 : ℤ), (-80 : ℤ)) from rfl,
      show c2eBf.length = c2wB from rfl]
    rw [if_neg (show ((51520 : ℤ), (-80 : ℤ))
      ∉ [((51510 : ℤ), (-90 : ℤ)), ((51500 : ℤ), (-100 : ℤ))] by decide)]
    dsimp only
    rw [h1, h2]
    rw [if_pos (show ((51520 : ℤ), (-80 : ℤ)) ∈ c2dkeys
        ∧ (0 : WithTop ℝ) + (c2wA : WithTop ℝ) + (c2wB : WithTop ℝ)
            < (⊤ : WithTop ℝ)
      from ⟨by decide, hlt⟩)]
    rfl
  rw [relaxAll_eq]
  simp only [show c2n2.edges = [c2eAr, c2eBf] from rfl, List.foldl_cons,
    List.foldl_nil]
  rw [hstep1, hstep2]

theorem c2_loop : dijkstraLoop ⟨c2nodes⟩ c2dkeys (51520, -80)
    ⟨c2d0, (fun _ => none), [], [((51500, -100), (0 : WithTop ℝ))]⟩
    = ⟨c2dist2, c2prev2, [(51520, -80), (51510, -90), (51500, -100)], []⟩ := by
  have hsq1 : sortQueue [(((51500 : ℤ), (-100 : ℤ)), (0 : WithTop ℝ))]
      = [(((51500 : ℤ), (-100 : ℤ)), (0 : WithTop ℝ))] := by
    simp [sortQueue, List.insertionSort, List.orderedInsert]
  have hsq2 : sortQueue [(((51510 : ℤ), (-90 : ℤ)),
        (0 : WithTop ℝ) + (c2wA : WithTop ℝ))]
      = [(((51510 : ℤ), (-90 : ℤ)), (0 : WithTop ℝ) + (c2wA : WithTop ℝ))] := by
    simp [sortQueue, List.insertionSort, List.orderedInsert]
  have hsq3 : sortQueue [(((51520 : ℤ), (-80 : ℤ)),
        (0 : WithTop ℝ) + (c2wA : WithTop ℝ) + (c2wB : WithTop ℝ))]
      = [(((51520 : ℤ), (-80 : ℤ)),
          (0 : WithTop ℝ) + (c2wA : WithTop ℝ) + (c2wB : WithTop ℝ))] := by
    simp [sortQueue, List.insertionSort, List.orderedInsert]
  rw [dijkstraLoop_eq]
  dsimp only
  rw [hsq1]
  dsimp only
  rw [if_neg (List.not_mem_nil _),
    if_neg (show ¬((51500 : ℤ), (-100 : ℤ)) = ((51520 : ℤ), (-80 : ℤ)) by decide),
    c2_lookup1]
  dsimp only
  rw [c2_relax1]
  dsimp only
  rw [dijkstraLoop_eq]
  dsimp only
  rw [hsq2]
  dsimp only
  rw [if_neg (show ((51510 : ℤ), (-90 : ℤ))
      ∉ [((51500 : ℤ), (-100 : ℤ))] by decide),
    if_neg (show ¬((51510 : ℤ), (-90 : ℤ)) = ((51520 : ℤ), (-80 : ℤ)) by decide),
    c2_lookup2]
  dsimp only
  rw [c2_relax2]
  dsimp only
  rw [dijkstraLoop_eq]
  dsimp only
  rw [hsq3]
  dsimp only
  rw [if_neg (show ((51520 : ℤ), (-80 : ℤ))
      ∉ [((51510 : ℤ), (-90 : ℤ)), ((51500 : ℤ), (-100 : ℤ))] by decide),
    if_pos rfl]

theorem c2_dijkstra : dijkstra ⟨c2nodes⟩ c2n1 c2n3
    = some [(51500, -100), (51510, -90), (51520, -80)] := by
  have hp3 : c2prev2 (51520, -80) = some ((51510, -90), c2eBf) := by
    unfold c2prev2
    rw [Function.update_same]
  have hp2 : c2prev2 (51510, -90) = some ((51500, -100), c2eAf) := by
    unfold c2prev2 c2prev1
    rw [Function.update_noteq (by decide), Function.update_same]
  rw [dijkstra]
  rw [show c2n1.key = ((51500 : ℤ), (-100 : ℤ)) from rfl,
    show c2n3.key = ((51520 : ℤ), (-80 : ℤ)) from rfl,
    show (Graph.mk c2nodes).nodes = c2nodes from rfl]
  rw [show ((51500 : ℤ), (-100 : ℤ)) :: c2nodes.map Prod.fst = c2dkeys by
    simp [c2nodes, c2dkeys]]
  rw [show (fun k : Key => if k = ((51500 : ℤ), (-100 : ℤ))
      then (0 : WithTop ℝ) else ⊤) = c2d0 from rfl]
  rw [c2_loop]
  rw [show (DState.mk c2dist2 c2prev2
      [(51520, -80), (51510, -90), (51500, -100)] []).previous = c2prev2
    from rfl]
  rw [hp3]
  rw [if_neg (show ¬((some (((51510 : ℤ), (-90 : ℤ)), c2eBf)).isNone = true
      ∧ ¬((51500 : ℤ), (-100 : ℤ)) = ((51520 : ℤ), (-80 : ℤ)))
    from fun hc => by simpa using hc.1)]
  have hrecon : reconstructLoop c2prev2 (51500, -100) (c2nodes.length + 1)
      (51520, -80) [] = [(51500, -100), (51510, -90), (51520, -80)] := by
    rw [show c2nodes.length + 1 = 3 + 1 by simp [c2nodes]]
    rw [reconstructLoop,
      if_neg (show ¬((51520 : ℤ), (-80 : ℤ)) = ((51500 : ℤ), (-100 : ℤ))
        by decide), hp3]
    dsimp only
    rw [reconstructLoop,
      if_neg (show ¬((51510 : ℤ), (-90 : ℤ)) = ((51500 : ℤ), (-100 : ℤ))
        by decide), hp2]
    dsimp only
    rw [reconstructLoop, if_pos rfl]
  rw [hrecon]

theorem c2_find1 : (List.find? (fun e => decide (e.toKey = ((51510 : ℤ), (-90 : ℤ))))
    [c2eAf]) = some c2eAf := by
  rw [List.find?_cons_of_pos]
  simp [show c2eAf.toKey = ((51510 : ℤ), (-90 : ℤ)) from rfl]

theorem c2_find2 : (List.find? (fun e => decide (e.toKey = ((51520 : ℤ), (-80 : ℤ))))
    [c2eAr, c2eBf]) = some c2eBf := by
  rw [List.find?_cons_of_neg, List.find?_cons_of_pos]
  · simp [show c2eBf.toKey = ((51520 : ℤ), (-80 : ℤ)) from rfl]
  · simp [show c2eAr.toKey = ((51500 : ℤ), (-100 : ℤ)) from rfl]

theorem c2_coordPath : buildCoordPath ⟨c2nodes⟩
    [(51500, -100), (51510, -90), (51520, -80)] c2o c2d
    = [c2o, c2p1, c2d, c2d] := by
  have hcs1 : coordStep ⟨c2nodes⟩ [c2o] (((51500 : ℤ), (-100 : ℤ)),
      ((51510 : ℤ), (-90 : ℤ))) = [c2o, c2p1] := by
    rw [coordStep]
    rw [show (Graph.mk c2nodes).nodes = c2nodes from rfl, c2_lookup1]
    dsimp only
    rw [show c2n1.edges = [c2eAf] from rfl, c2_find1]
    rfl
  have hcs2 : coordStep ⟨c2nodes⟩ [c2o, c2p1] (((51510 : ℤ), (-90 : ℤ)),
      ((51520 : ℤ), (-80 : ℤ))) = [c2o, c2p1, c2d] := by
    rw [coordStep]
    rw [show (Graph.mk c2nodes).nodes = c2nodes from rfl, c2_lookup2]
    dsimp only
    rw [show c2n2.edges = [c2eAr, c2eBf] from rfl, c2_find2]
    rfl
  rw [buildCoordPath]
  rw [show ([((51500 : ℤ), (-100 : ℤ)), ((51510 : ℤ), (-90 : ℤ)),
      ((51520 : ℤ), (-80 : ℤ))].zip
        [((51500 : ℤ), (-100 : ℤ)), ((51510 : ℤ), (-90 : ℤ)),
          ((51520 : ℤ), (-80 : ℤ))].tail)
    = [(((51500 : ℤ), (-100 : ℤ)), ((51510 : ℤ), (-90 : ℤ))),
       (((51510 : ℤ), (-90 : ℤ)), ((51520 : ℤ), (-80 : ℤ)))] from rfl]
  rw [List.foldl_cons, List.foldl_cons, List.foldl_nil, hcs1, hcs2]
  rfl

theorem c2_validate : validatePath [c2o, c2p1, c2d, c2d] c2o c2d
    = [c2o, c2p1, c2d, c2d] := by
  have hpl : pathLength [c2o, c2p1, c2d, c2d]
      = Real.sqrt 0.0002 + Real.sqrt 0.0002 := by
    rw [pathLength]
    rw [show ([c2o, c2p1, c2d, c2d].zip [c2o, c2p1, c2d, c2d].tail)
      = [(c2o, c2p1), (c2p1, c2d), (c2d, c2d)] from rfl]
    simp only [List.foldl_cons, List.foldl_nil]
    rw [c2_dist_o_p1, c2_dist_p1_d, distance_self]
    ring
  have hbt : backtrackCount [c2o, c2p1, c2d, c2d] c2d = 0 := by
    have h1 : ¬ distance c2p1 c2d > distance c2o c2d + 0.02 := by
      rw [c2_dist_p1_d, c2_dist_o_d]
      have := c2_sqrt2_lt_sqrt8
      push_neg
      linarith
    have h2 : ¬ distance c2d c2d > distance c2p1 c2d + 0.02 := by
      rw [distance_self, c2_dist_p1_d]
      have := Real.sqrt_nonneg (0.0002 : ℝ)
      push_neg
      linarith
    have h3 : ¬ distance c2d c2d > distance c2d c2d + 0.02 := by
      rw [distance_self]
      norm_num
    rw [backtrackCount]
    rw [show ([c2o, c2p1, c2d, c2d].zip [c2o, c2p1, c2d, c2d].tail)
      = [(c2o, c2p1), (c2p1, c2d), (c2d, c2d)] from rfl]
    simp [h1, h2, h3]
  rw [validatePath]
  rw [if_neg (by norm_num)]
  rw [if_neg (show ¬ pathLength [c2o, c2p1, c2d, c2d]
      > distance c2o c2d * 3 by
    rw [hpl, c2_dist_o_d, c2_sqrt8_eq]
    have := c2_sqrt2_pos
    push_neg
    linarith)]
  rw [if_neg (show ¬ ((backtrackCount [c2o, c2p1, c2d, c2d] c2d : ℝ)
      > ([c2o, c2p1, c2d, c2d].length : ℝ) * 0.2) by
    rw [hbt]
    push_neg
    norm_num)]

theorem c2_angle1 : calculateAngle c2o c2p1 c2d < 60 := by
  have hm : ((Real.sqrt 5000)⁻¹ * (Real.sqrt 5000)⁻¹ : ℝ) = 1 / 5000 := by
    rw [← mul_inv, Real.mul_self_sqrt (by norm_num)]
    norm_num
  rw [calculateAngle]
  unfold c2o c2p1 c2d
  norm_num [hm, Real.arccos_one, min_self, max_eq_right]

theorem c2_angle2 : ¬ calculateAngle c2o c2d c2d < 60 := by
  rw [calculateAngle]
  unfold c2o c2d
  dsimp only
  rw [if_pos]
  · norm_num
  · right
    norm_num

theorem c2_simplify : simplifyPath [c2o, c2p1, c2d, c2d] 0.001
    = [c2o, c2d, c2d] := by
  have hgt1 : distance c2o c2p1 > 0.001 := by
    rw [c2_dist_o_p1]
    exact c2_sqrt2_gt
  have hgt2 : distance c2p1 c2d > 0.001 := by
    rw [c2_dist_p1_d]
    exact c2_sqrt2_gt
  rw [simplifyPath]
  rw [if_neg (by norm_num)]
  dsimp only
  rw [show ([c2o, c2p1, c2d, c2d].drop 1).dropLast = [c2p1, c2d] from rfl]
  rw [List.foldl_cons, List.foldl_cons, List.foldl_nil]
  rw [show ([c2o, c2p1, c2d, c2d].headI) = c2o from rfl]
  rw [if_pos (show distance ([c2o] : List Point).headI c2p1 > 0.001 from hgt1)]
  rw [if_pos (show distance ([c2p1, c2o] : List Point).headI c2d > 0.001
    from hgt2)]
  rw [show ([c2o, c2p1, c2d, c2d].getLastI) = c2d from rfl]
  rw [show ((c2d :: [c2d, c2p1, c2o]).reverse) = [c2o, c2p1, c2d, c2d] from by
    simp]
  rw [if_pos (by norm_num)]
  rw [removeSharpTurns, if_neg (by norm_num)]
  simp only [rstLoop]
  rw [if_pos c2_angle1]
  rw [if_neg c2_angle2]
  simp

theorem c2_pipeline : findBestPath c2ways c2o c2d = [c2o, c2d, c2d] := by
  rw [findBestPath]
  rw [if_neg (show ¬ c2ways.length = 0 by simp [c2ways])]
  rw [c2_segments]
  rw [if_neg (show ¬ ([c2segA, c2segB] : List Segment).length = 0 by simp)]
  rw [c2_graph]
  dsimp only
  rw [c2_closest_o, c2_closest_d]
  dsimp only
  rw [c2_dijkstra]
  dsimp only
  rw [if_neg (show ¬ ([((51500 : ℤ), (-100 : ℤ)), ((51510 : ℤ), (-90 : ℤ)),
      ((51520 : ℤ), (-80 : ℤ))] : List Key).length < 2 by simp)]
  rw [c2_coordPath, c2_validate, c2_simplify]

/-- C2 (amended): on the two shared-endpoint segments
A = [(51.50,-0.10),(51.51,-0.09)] and B = [(51.51,-0.09),(51.52,-0.08)] the
full pipeline returns [(51.50,-0.10),(51.52,-0.08),(51.52,-0.08)]: the shared
interior vertex (51.51,-0.09) is removed by the sharp-turn pass (which treats
the collinear straight-through vertex as a sharp turn) and the literal
destination is appended once more after the final segment coordinate. -/
theorem findBestPath_two_segments :
    findBestPath c2ways c2o c2d = [c2o, c2d, c2d] :=
  c2_pipeline

/-- C2 (counterexample to the claimed output): the pipeline does not return
the three-point path [(51.50,-0.10),(51.51,-0.09),(51.52,-0.08)] claimed by
the specification. -/
theorem findBestPath_two_segments_counterexample :
    findBestPath c2ways c2o c2d ≠ [c2o, c2p1, c2d] := by
  rw [c2_pipeline]
  intro h
  have h2 : c2d = c2p1 := by
    injection h with _ h2
    injection h2 with h2 _
  have h3 : (51.52 : ℝ) = 51.51 := congrArg Prod.fst h2
  norm_num at h3

end RailGeom

/-! Embedding of `src/js/routing/railGraph.js` `findPath` (C8): plain
Dijkstra over a station-code adjacency map, with a sorted-insert priority
queue, no visited set, and an early return when the end code is popped. -/

namespace RailGraphJS

/-- A CRS station code. -/
abbrev Code := String

/-- A neighbor list: neighbor code with edge weight. -/
abbrev NbrList := List (Code × ℝ)

/-- The station graph: an insertion-ordered map station code → neighbors,
mirroring the JSON object `graph`. -/
structure GraphR where
  stations : List (Code × NbrList)

/-- Association-list lookup mirroring `graph[code]`. -/
def lookupR : List (Code × NbrList) → Code → Option NbrList
  | [], _ => none
  | (k, v) :: rest, q => if q = k then some v else lookupR rest q

/-- The keys of the graph object (`for (const station in graph)`). -/
def keysR (g : GraphR) : List Code := g.stations.map Prod.fst

/-- The neighbor list of a code, empty when the code is not in the map. -/
def nbrsOf (g : GraphR) (c : Code) : NbrList :=
  match lookupR g.stations c with
  | some l => l
  | none => []

theorem lookupR_eq_none_iff (l : List (Code × NbrList)) (k : Code) :
    lookupR l k = none ↔ k ∉ l.map Prod.fst := by
  induction l with
  | nil => simp [lookupR]
  | cons kn rest ih =>
    rw [lookupR]
    by_cases h : k = kn.1 <;> simp [h, ih]

theorem lookupR_isSome_iff (l : List (Code × NbrList)) (k : Code) :
    (lookupR l k).isSome ↔ k ∈ l.map Prod.fst := by
  rw [Option.isSome_iff_ne_none, ne_eq, lookupR_eq_none_iff, not_not]

theorem lookupR_mem {l : List (Code × NbrList)} {k : Code} {v : NbrList}
    (h : lookupR l k = some v) : (k, v) ∈ l := by
  induction l with
  | nil => exact absurd h (by simp [lookupR])
  | cons kn rest ih =>
    rw [lookupR] at h
    by_cases hk : k = kn.1
    · rw [if_pos hk] at h
      have hv : kn.2 = v := Option.some_injective _ h
      rw [hk, ← hv]
      exact List.mem_cons_self _ _
    · rw [if_neg hk] at h
      exact List.mem_cons_of_mem _ (ih h)

theorem mem_keysR_of_nbrs_ne_nil {g : GraphR} {k : Code}
    (h : nbrsOf g k ≠ []) : k ∈ keysR g := by
  rw [keysR, ← lookupR_isSome_iff]
  unfold nbrsOf at h
  cases hl : lookupR g.stations k with
  | none => rw [hl] at h; exact absurd rfl h
  | some l => rfl

theorem nbrsOf_eq_of_lookup {g : GraphR} {k : Code} {l : NbrList}
    (h : lookupR g.stations k = some l) : nbrsOf g k = l := by
  unfold nbrsOf
  rw [h]

/-- A walk in the station graph: each step is a neighbor entry of the
current station. -/
inductive GWalkR (g : GraphR) : Code → Code → List (Code × ℝ) → Prop
  | nil (a : Code) : GWalkR g a a []
  | cons {a c : Code} {steps : List (Code × ℝ)} (n : Code × ℝ)
      (hn : n ∈ nbrsOf g a) (hw : GWalkR g n.1 c steps) :
      GWalkR g a c (n :: steps)

/-- Total weight of a station walk. -/
def weightR (steps : List (Code × ℝ)) : ℝ := (steps.map Prod.snd).sum

/-- Non-negative edge weights in the adjacency map. -/
def NonnegR (g : GraphR) : Prop :=
  ∀ kn ∈ g.stations, ∀ n ∈ kn.2, 0 ≤ n.2

theorem nonneg_of_mem_nbrs {g : GraphR} (hnn : NonnegR g) {k : Code}
    {n : Code × ℝ} (hn : n ∈ nbrsOf g k) : 0 ≤ n.2 := by
  unfold nbrsOf at hn
  cases hl : lookupR g.stations k with
  | none => rw [hl] at hn; exact absurd hn (List.not_mem_nil n)
  | some l =>
    rw [hl] at hn
    exact hnn (k, l) (lookupR_mem hl) n hn

theorem weightR_nil : weightR [] = 0 := rfl

theorem weightR_cons (n : Code × ℝ) (steps : List (Code × ℝ)) :
    weightR (n :: steps) = n.2 + weightR steps := by
  simp [weightR]

theorem weightR_append (s1 s2 : List (Code × ℝ)) :
    weightR (s1 ++ s2) = weightR s1 + weightR s2 := by
  simp [weightR]

theorem GWalkR.append_steps {g : GraphR} {a b c : Code}
    {s1 s2 : List (Code × ℝ)} (h1 : GWalkR g a b s1) (h2 : GWalkR g b c s2) :
    GWalkR g a c (s1 ++ s2) := by
  induction h1 with
  | nil => exact h2
  | cons n hn _ ih => exact GWalkR.cons n hn (ih h2)

theorem weightR_nonneg {g : GraphR} (hnn : NonnegR g) {a b : Code}
    {steps : List (Code × ℝ)} (h : GWalkR g a b steps) : 0 ≤ weightR steps := by
  induction h with
  | nil => simp [weightR]
  | cons n hn _ ih =>
    rw [weightR_cons]
    have := nonneg_of_mem_nbrs hnn hn
    linarith

theorem GWalkR_map_getLast {g : GraphR} {a b : Code}
    {steps : List (Code × ℝ)} (h : GWalkR g a b steps) (hne : steps ≠ []) :
    (steps.map Prod.fst).getLast? = some b := by
  induction h with
  | nil => exact absurd rfl hne
  | @cons a c steps n hn hw ih =>
    cases steps with
    | nil =>
      cases hw
      simp
    | cons m rest =>
      have h2 := ih (by simp)
      rw [List.map_cons, List.map_cons, List.getLast?_cons_cons]
      rw [List.map_cons] at h2
      exact h2

/-- The shortest-distance predicate for station walks. -/
def ShortestR (g : GraphR) (s k : Code) (d : ℝ) : Prop :=
  (∃ es, GWalkR g s k es ∧ weightR es = d)
    ∧ ∀ es, GWalkR g s k es → d ≤ weightR es

/-- Predecessor chains of bounded length. -/
def PrevChainR (prev : Code → Option Code) (s : Code) : ℕ → Code → Prop
  | 0, v => v = s
  | n + 1, v => v = s ∨ ∃ u, prev v = some u ∧ PrevChainR prev s n u

/-- `PriorityQueue.enqueue`: splice the new element in before the first
entry with a strictly greater priority, or push it at the end. -/
noncomputable def pqEnqueue :
    List (Code × WithTop ℝ) → (Code × WithTop ℝ) → List (Code × WithTop ℝ)
  | [], e => [e]
  | x :: rest, e => if e.2 < x.2 then e :: x :: rest else x :: pqEnqueue rest e

theorem mem_pqEnqueue_self (items : List (Code × WithTop ℝ))
    (e : Code × WithTop ℝ) : e ∈ pqEnqueue items e := by
  induction items with
  | nil => simp [pqEnqueue]
  | cons x rest ih =>
    rw [pqEnqueue]
    by_cases h : e.2 < x.2
    · rw [if_pos h]
      exact List.mem_cons_self _ _
    · rw [if_neg h]
      exact List.mem_cons_of_mem _ ih

theorem mem_pqEnqueue_of_mem {items : List (Code × WithTop ℝ)}
    {y : Code × WithTop ℝ} (e : Code × WithTop ℝ) (hy : y ∈ items) :
    y ∈ pqEnqueue items e := by
  induction items with
  | nil => exact absurd hy (List.not_mem_nil y)
  | cons x rest ih =>
    rw [pqEnqueue]
    by_cases h : e.2 < x.2
    · rw [if_pos h]
      exact List.mem_cons_of_mem _ hy
    · rw [if_neg h]
      rcases List.mem_cons.mp hy with rfl | hy2
      · exact List.mem_cons_self _ _
      · exact List.mem_cons_of_mem _ (ih hy2)

theorem mem_of_mem_pqEnqueue {items : List (Code × WithTop ℝ)}
    {y e : Code × WithTop ℝ} (hy : y ∈ pqEnqueue items e) :
    y ∈ items ∨ y = e := by
  induction items with
  | nil =>
    rw [pqEnqueue] at hy
    exact Or.inr (List.mem_singleton.mp hy)
  | cons x rest ih =>
    rw [pqEnqueue] at hy
    by_cases h : e.2 < x.2
    · rw [if_pos h] at hy
      rcases List.mem_cons.mp hy with rfl | hy2
      · exact Or.inr rfl
      · exact Or.inl hy2
    · rw [if_neg h] at hy
      rcases List.mem_cons.mp hy with rfl | hy2
      · exact Or.inl (List.mem_cons_self _ _)
      · rcases ih hy2 with h2 | h2
        · exact Or.inl (List.mem_cons_of_mem _ h2)
        · exact Or.inr h2

theorem length_pqEnqueue (items : List (Code × WithTop ℝ))
    (e : Code × WithTop ℝ) :
    (pqEnqueue items e).length = items.length + 1 := by
  induction items with
  | nil => rfl
  | cons x rest ih =>
    rw [pqEnqueue]
    by_cases h : e.2 < x.2
    · rw [if_pos h]
      simp
    · rw [if_neg h]
      simp [ih]

theorem pairwise_pqEnqueue {items : List (Code × WithTop ℝ)}
    {e : Code × WithTop ℝ}
    (h : items.Pairwise fun a b => a.2 ≤ b.2) :
    (pqEnqueue items e).Pairwise fun a b => a.2 ≤ b.2 := by
  induction items with
  | nil => simp [pqEnqueue]
  | cons x rest ih =>
    rw [List.pairwise_cons] at h
    rw [pqEnqueue]
    by_cases hc : e.2 < x.2
    · rw [if_pos hc]
      rw [List.pairwise_cons]
      constructor
      · intro y hy
        rcases List.mem_cons.mp hy with rfl | hy2
        · exact le_of_lt hc
        · exact le_trans (le_of_lt hc) (h.1 y hy2)
      · exact List.pairwise_cons.mpr h
    · rw [if_neg hc]
      rw [List.pairwise_cons]
      constructor
      · intro y hy
        rcases mem_of_mem_pqEnqueue hy with h2 | rfl
        · exact h.1 y h2
        · exact le_of_not_lt hc
      · exact ih h.2

/-- One neighbor relaxation (`for (const neighbor in neighbors)` body): a
neighbor missing from the distances map compares as `undefined` and never
updates. -/
noncomputable def relaxStepR (g : GraphR) (uCode : Code)
    (acc : (Code → WithTop ℝ) × (Code → Option Code) × List (Code × WithTop ℝ))
    (nb : Code × ℝ) :
    (Code → WithTop ℝ) × (Code → Option Code) × List (Code × WithTop ℝ) :=
  let alt := acc.1 uCode + (nb.2 : WithTop ℝ)
  if nb.1 ∈ keysR g ∧ alt < acc.1 nb.1 then
    (Function.update acc.1 nb.1 alt, Function.update acc.2.1 nb.1 (some uCode),
      pqEnqueue acc.2.2 (nb.1, alt))
  else acc

/-- All neighbor relaxations of the popped station. -/
noncomputable def relaxAllR (g : GraphR) (uCode : Code) (nbrs : NbrList)
    (st : (Code → WithTop ℝ) × (Code → Option Code) × List (Code × WithTop ℝ)) :
    (Code → WithTop ℝ) × (Code → Option Code) × List (Code × WithTop ℝ) :=
  nbrs.foldl (relaxStepR g uCode) st

/-- State of the `while (!queue.isEmpty())` loop. -/
structure RS where
  dist : Code → WithTop ℝ
  prev : Code → Option Code
  queue : List (Code × WithTop ℝ)

/-- The `while (u) { path.unshift(u); u = previous[u]; }` reconstruction
loop; an empty-string code is falsy in JavaScript and stops the loop. -/
def reconR (prev : Code → Option Code) : ℕ → Code → List Code → List Code
  | 0, _, acc => acc
  | fuel + 1, u, acc =>
    if u = "" then acc
    else
      match prev u with
      | some u2 => reconR prev fuel u2 (u :: acc)
      | none => u :: acc

/-- The main loop, with an explicit iteration budget: dequeue the closest
entry, return the reconstructed path when the end code is popped, and
otherwise relax the popped station's neighbors. -/
noncomputable def loopR (g : GraphR) (endCode : Code) :
    ℕ → RS → Option (Option (List Code))
  | 0, _ => none
  | fuel + 1, st =>
    match st.queue with
    | [] => some none
    | (c, _) :: rest =>
      if c = endCode then
        some (some (reconR st.prev ((keysR g).length + 1) endCode []))
      else
        match lookupR g.stations c with
        | none => loopR g endCode fuel ⟨st.dist, st.prev, rest⟩
        | some nbrs =>
          let r := relaxAllR g c nbrs (st.dist, st.prev, rest)
          loopR g endCode fuel ⟨r.1, r.2.1, r.2.2⟩

/-- Iteration budget: one more than the total number of adjacency entries
plus the initial entry; every iteration strictly shrinks the sum of the
queue length and the unpopped stations' neighbor counts. -/
def fuelBound (g : GraphR) : ℕ :=
  (g.stations.map fun kn => kn.2.length).sum + 2

/-- Embedding of `findPath(startCode, endCode)`; the outer `Option` records
whether the iteration budget sufficed (`none` = budget exhausted, which the
correctness theorem rules out). -/
noncomputable def findPathR (g : GraphR) (s e : Code) :
    Option (Option (List Code)) :=
  if (lookupR g.stations s).isNone ∨ (lookupR g.stations e).isNone then
    some none
  else
    loopR g e (fuelBound g)
      ⟨fun c => if c = s then 0 else ⊤, fun _ => none, [(s, (0 : WithTop ℝ))]⟩

/-- The neighbor-count budget of the not-yet-popped stations. -/
def budgetR (g : GraphR) (P : List Code) : ℕ :=
  (((keysR g).filter fun k => decide (k ∉ P)).map
    fun k => (nbrsOf g k).length).sum

theorem budget_cons_aux (f : Code → ℕ) (c : Code) (P : List Code) :
    ∀ l : List Code, c ∈ l → l.Nodup → c ∉ P →
    ((l.filter fun k => decide (k ∉ c :: P)).map f).sum + f c
      = ((l.filter fun k => decide (k ∉ P)).map f).sum := by
  intro l
  induction l with
  | nil => intro hc; exact absurd hc (List.not_mem_nil c)
  | cons x xs ih =>
    intro hc hnd hcp
    rw [List.nodup_cons] at hnd
    rcases List.mem_cons.mp hc with rfl | hc2
    · rw [List.filter_cons_of_neg (by simp),
        List.filter_cons_of_pos (by simp [hcp])]
      have hxs : (xs.filter fun k => decide (k ∉ c :: P))
          = xs.filter fun k => decide (k ∉ P) := by
        apply List.filter_congr
        intro k hk
        have hkx : k ≠ c := fun h => hnd.1 (h ▸ hk)
        simp [List.mem_cons, hkx]
      rw [hxs, List.map_cons, List.sum_cons]
      ring
    · have hxc : x ≠ c := fun h => hnd.1 (h ▸ hc2)
      by_cases hxp : x ∈ P
      · rw [List.filter_cons_of_neg (by simp [List.mem_cons, hxp]),
          List.filter_cons_of_neg (by simp [hxp])]
        exact ih hc2 hnd.2 hcp
      · rw [List.filter_cons_of_pos (by simp [List.mem_cons, hxp, hxc]),
          List.filter_cons_of_pos (by simp [hxp])]
        rw [List.map_cons, List.sum_cons, List.map_cons, List.sum_cons]
        have := ih hc2 hnd.2 hcp
        omega

theorem budgetR_cons {g : GraphR} {P : List Code} {c : Code}
    (hc : c ∈ keysR g) (hnd : (keysR g).Nodup) (hcp : c ∉ P) :
    budgetR g (c :: P) + (nbrsOf g c).length = budgetR g P :=
  budget_cons_aux (fun k => (nbrsOf g k).length) c P (keysR g) hc hnd hcp

theorem lookupR_of_nodup_mem : ∀ {l : List (Code × NbrList)} {k : Code}
    {v : NbrList}, (l.map Prod.fst).Nodup → (k, v) ∈ l →
    lookupR l k = some v := by
  intro l
  induction l with
  | nil => intro k v _ h; exact absurd h (List.not_mem_nil _)
  | cons kn rest ih =>
    intro k v hnd hm
    rw [List.map_cons, List.nodup_cons] at hnd
    rw [lookupR]
    rcases List.mem_cons.mp hm with heq | hm2
    · rw [show k = kn.1 from congrArg Prod.fst heq]
      rw [if_pos rfl]
      rw [show v = kn.2 from congrArg Prod.snd heq]
    · by_cases hk : k = kn.1
      · exfalso
        apply hnd.1
        rw [← hk]
        exact List.mem_map.mpr ⟨(k, v), hm2, rfl⟩
      · rw [if_neg hk]
        exact ih hnd.2 hm2

theorem budgetR_nil {g : GraphR} (hnd : (keysR g).Nodup) :
    budgetR g [] = (g.stations.map fun kn => kn.2.length).sum := by
  unfold budgetR
  rw [List.filter_eq_self.mpr (by simp)]
  unfold keysR
  rw [List.map_map]
  congr 1
  apply List.map_congr_left
  intro kn hkn
  have : lookupR g.stations kn.1 = some kn.2 :=
    lookupR_of_nodup_mem hnd (by rw [Prod.mk.eta]; exact hkn)
  simp [Function.comp, nbrsOf_eq_of_lookup this]

/-- Ghost invariant of the main loop.  `P` is the list of already-popped
stations (newest first) and `lb` a lower bound on all queue priorities (the
priority of the last pop). -/
structure RInvR (g : GraphR) (s endCode : Code) (P : List Code)
    (lb : WithTop ℝ) (st : RS) : Prop where
  sorted : st.queue.Pairwise fun a b => a.2 ≤ b.2
  qlb : ∀ q ∈ st.queue, lb ≤ q.2
  popped : ∀ c ∈ P, ∃ d : ℝ, st.dist c = (d : WithTop ℝ)
    ∧ (d : WithTop ℝ) ≤ lb ∧ ShortestR g s c d
  qpaths : ∀ q ∈ st.queue, ∃ d : ℝ, q.2 = (d : WithTop ℝ)
    ∧ ∃ es, GWalkR g s q.1 es ∧ weightR es = d
  dist_le : ∀ q ∈ st.queue, st.dist q.1 ≤ q.2
  fresh : ∀ c, c ∉ P → st.dist c ≠ ⊤ → (c, st.dist c) ∈ st.queue
  relaxed : ∀ u ∈ P, ∀ n ∈ nbrsOf g u, n.1 ∈ keysR g →
    st.dist n.1 ≤ st.dist u + (n.2 : WithTop ℝ)
  start : s ∈ P ∨ (s, (0 : WithTop ℝ)) ∈ st.queue
  dist_start : st.dist s = 0
  dist_nonneg : ∀ c, 0 ≤ st.dist c
  prev_eq : ∀ v u, st.prev v = some u → u ∈ P
    ∧ ∃ n ∈ nbrsOf g u, n.1 = v ∧ st.dist v = st.dist u + (n.2 : WithTop ℝ)
  prev_none_top : ∀ v, v ≠ s → st.prev v = none → st.dist v = ⊤
  prev_start : st.prev s = none
  q_prev : ∀ q ∈ st.queue, q.1 = s ∨ st.prev q.1 ≠ none
  chain : ∀ v ∈ P, ∃ n < P.length, PrevChainR st.prev s n v
  P_sub : ∀ c ∈ P, c ∈ keysR g
  P_nodup : P.Nodup
  q_sub : ∀ q ∈ st.queue, q.1 ∈ keysR g
  end_not : endCode ∉ P
  lb_nonneg : 0 ≤ lb

theorem prevChainR_mono {prev prev' : Code → Option Code}
    {W : List Code} {s : Code}
    (hagree : ∀ x ∈ W, prev' x = prev x)
    (hclosed : ∀ x ∈ W, ∀ u, prev x = some u → u ∈ W) :
    ∀ n v, v ∈ W → PrevChainR prev s n v → PrevChainR prev' s n v := by
  intro n
  induction n with
  | zero => intro v _ h; exact h
  | succ n ih =>
    intro v hv h
    rcases h with h | ⟨u, hpe, hch⟩
    · exact Or.inl h
    · exact Or.inr ⟨u, by rw [hagree v hv]; exact hpe,
        ih u (hclosed v hv u hpe) hch⟩

/-- Cover lemma, generalized: from a popped station, any walk to an
unpopped in-map target is covered by a queue entry. -/
theorem coverR_aux {g : GraphR} {s endCode : Code} {P : List Code}
    {lb : WithTop ℝ} {st : RS}
    (hinv : RInvR g s endCode P lb st) (hnn : NonnegR g) :
    ∀ {a t : Code} {es : List (Code × ℝ)}, GWalkR g a t es → a ∈ P →
      t ∉ P → t ∈ keysR g → ∀ da : ℝ,
      st.dist a = (da : WithTop ℝ) → ShortestR g s a da →
      ∃ q ∈ st.queue, q.2 ≤ ((da + weightR es : ℝ) : WithTop ℝ) := by
  intro a t es hw
  induction hw with
  | nil => intro ha ht; exact absurd ha ht
  | @cons a c es n hn hw ih =>
    intro ha hc hcd da hda hsh
    by_cases hv : n.1 ∈ P
    · obtain ⟨db, hdb, _, hshb⟩ := hinv.popped _ hv
      have hble : db ≤ da + n.2 := by
        obtain ⟨⟨esa, hwa, hwae⟩, _⟩ := hsh
        have := hshb.2 (esa ++ [n])
          (hwa.append_steps (GWalkR.cons n hn (GWalkR.nil n.1)))
        rw [weightR_append, weightR_cons, weightR_nil, hwae] at this
        linarith
      obtain ⟨q, hq, hqle⟩ := ih hv hc hcd db hdb hshb
      refine ⟨q, hq, le_trans hqle ?_⟩
      rw [WithTop.coe_le_coe, weightR_cons]
      linarith
    · have hed : n.1 ∈ keysR g := by
        cases hw with
        | nil => exact hcd
        | cons n2 hn2 hw2 =>
          exact mem_keysR_of_nbrs_ne_nil (List.ne_nil_of_mem hn2)
      have hrel := hinv.relaxed _ ha n hn hed
      have h0 : 0 ≤ weightR es := weightR_nonneg hnn hw
      have hnt : st.dist n.1 ≠ ⊤ := by
        have h2 : st.dist n.1 ≤ ((da + n.2 : ℝ) : WithTop ℝ) := by
          calc st.dist n.1 ≤ st.dist a + (n.2 : WithTop ℝ) := hrel
            _ = ((da + n.2 : ℝ) : WithTop ℝ) := by rw [hda, ← WithTop.coe_add]
        exact ne_top_of_le_ne_top WithTop.coe_ne_top h2
      refine ⟨(n.1, st.dist n.1), hinv.fresh n.1 hv hnt, ?_⟩
      calc st.dist n.1 ≤ st.dist a + (n.2 : WithTop ℝ) := hrel
        _ = ((da + n.2 : ℝ) : WithTop ℝ) := by rw [hda, ← WithTop.coe_add]
        _ ≤ ((da + weightR (n :: es) : ℝ) : WithTop ℝ) := by
            rw [WithTop.coe_le_coe, weightR_cons]; linarith

/-- Cover lemma: any walk from the start to an unpopped in-map target is
covered by a queue entry of priority at most the walk weight. -/
theorem coverR {g : GraphR} {s endCode : Code} {P : List Code}
    {lb : WithTop ℝ} {st : RS}
    (hinv : RInvR g s endCode P lb st) (hnn : NonnegR g)
    {t : Code} {es : List (Code × ℝ)} (hw : GWalkR g s t es) (ht : t ∉ P)
    (htd : t ∈ keysR g) :
    ∃ q ∈ st.queue, q.2 ≤ ((weightR es : ℝ) : WithTop ℝ) := by
  by_cases hsv : s ∈ P
  · have hsh : ShortestR g s s 0 :=
      ⟨⟨[], GWalkR.nil s, rfl⟩, fun es' hw' => weightR_nonneg hnn hw'⟩
    have hds : st.dist s = ((0 : ℝ) : WithTop ℝ) := by
      rw [hinv.dist_start]
      exact WithTop.coe_zero.symm
    obtain ⟨q, hq, hle⟩ := coverR_aux hinv hnn hw hsv ht htd 0 hds hsh
    exact ⟨q, hq, by simpa using hle⟩
  · rcases hinv.start with h | h
    · exact absurd h hsv
    · refine ⟨(s, 0), h, ?_⟩
      show (0 : WithTop ℝ) ≤ _
      rw [← WithTop.coe_zero, WithTop.coe_le_coe]
      exact weightR_nonneg hnn hw

theorem sorted_head_min {c : Code × WithTop ℝ} {rest : List (Code × WithTop ℝ)}
    (hs : (c :: rest).Pairwise fun a b => a.2 ≤ b.2) :
    ∀ x ∈ c :: rest, c.2 ≤ x.2 := by
  intro x hx
  rcases List.mem_cons.mp hx with rfl | hx2
  · exact le_refl _
  · exact (List.pairwise_cons.mp hs).1 x hx2

/-- When the queue head is an unpopped station, its priority equals its
tentative distance and both equal the true shortest distance. -/
theorem settleR {g : GraphR} {s endCode : Code} {P : List Code}
    {lb : WithTop ℝ} {st : RS} {c : Code} {p : WithTop ℝ}
    {rest : List (Code × WithTop ℝ)}
    (hinv : RInvR g s endCode P lb st) (hnn : NonnegR g)
    (hq : st.queue = (c, p) :: rest) (hcp : c ∉ P) :
    ∃ d : ℝ, p = (d : WithTop ℝ) ∧ st.dist c = (d : WithTop ℝ)
      ∧ ShortestR g s c d := by
  have hcq : (c, p) ∈ st.queue := by rw [hq]; exact List.mem_cons_self _ _
  obtain ⟨d0, hd0, es0, hw0, hwe0⟩ := hinv.qpaths _ hcq
  have hd0' : p = (d0 : WithTop ℝ) := hd0
  have hmin : ∀ x ∈ st.queue, p ≤ x.2 := by
    intro x hx
    rw [hq] at hx
    exact sorted_head_min (hq ▸ hinv.sorted) x hx
  have hle : st.dist c ≤ p := hinv.dist_le _ hcq
  have hne : st.dist c ≠ ⊤ := by
    rw [hd0'] at hle
    exact ne_top_of_le_ne_top WithTop.coe_ne_top hle
  have hfr := hinv.fresh c hcp hne
  have heq : st.dist c = p := le_antisymm hle (hmin _ hfr)
  refine ⟨d0, hd0', heq.trans hd0', ⟨es0, hw0, hwe0⟩, ?_⟩
  intro es' hw'
  obtain ⟨q, hq2, hqle⟩ := coverR hinv hnn hw' hcp (hinv.q_sub _ hcq)
  have h2 : (d0 : WithTop ℝ) ≤ ((weightR es' : ℝ) : WithTop ℝ) :=
    hd0' ▸ le_trans (hmin q hq2) hqle
  exact WithTop.coe_le_coe.mp h2

/-- Invariant of the intermediate state during the relaxation fold, with the
freshly popped station `c` (of settled distance `dc`) prepended to the old
popped list `P`. -/
structure FInvR (g : GraphR) (s : Code) (P : List Code) (c : Code) (dc : ℝ)
    (acc : (Code → WithTop ℝ) × (Code → Option Code) × List (Code × WithTop ℝ)) :
    Prop where
  sorted : acc.2.2.Pairwise fun a b => a.2 ≤ b.2
  qlb : ∀ q ∈ acc.2.2, (dc : WithTop ℝ) ≤ q.2
  popped : ∀ k ∈ c :: P, ∃ d : ℝ, acc.1 k = (d : WithTop ℝ)
    ∧ (d : WithTop ℝ) ≤ (dc : WithTop ℝ) ∧ ShortestR g s k d
  qpaths : ∀ q ∈ acc.2.2, ∃ d : ℝ, q.2 = (d : WithTop ℝ)
    ∧ ∃ es, GWalkR g s q.1 es ∧ weightR es = d
  dist_le : ∀ q ∈ acc.2.2, acc.1 q.1 ≤ q.2
  fresh : ∀ k, k ∉ c :: P → acc.1 k ≠ ⊤ → (k, acc.1 k) ∈ acc.2.2
  relaxed_old : ∀ u ∈ P, ∀ n ∈ nbrsOf g u, n.1 ∈ keysR g →
    acc.1 n.1 ≤ acc.1 u + (n.2 : WithTop ℝ)
  start : s ∈ c :: P ∨ (s, (0 : WithTop ℝ)) ∈ acc.2.2
  dist_start : acc.1 s = 0
  dist_nonneg : ∀ k, 0 ≤ acc.1 k
  prev_eq : ∀ v u, acc.2.1 v = some u → u ∈ c :: P
    ∧ ∃ n ∈ nbrsOf g u, n.1 = v ∧ acc.1 v = acc.1 u + (n.2 : WithTop ℝ)
  prev_none_top : ∀ v, v ≠ s → acc.2.1 v = none → acc.1 v = ⊤
  prev_start : acc.2.1 s = none
  q_prev : ∀ q ∈ acc.2.2, q.1 = s ∨ acc.2.1 q.1 ≠ none
  q_sub : ∀ q ∈ acc.2.2, q.1 ∈ keysR g
  dist_c : acc.1 c = (dc : WithTop ℝ)

/-- One neighbor relaxation preserves the fold invariant, keeps all existing
queue entries, leaves popped stations untouched, pushes at most one entry,
only lowers distances, and fully relaxes the processed neighbor. -/
theorem relaxStepR_inv {g : GraphR} {s : Code} {P : List Code} {c : Code}
    {dc : ℝ}
    {acc : (Code → WithTop ℝ) × (Code → Option Code) × List (Code × WithTop ℝ)}
    {nb : Code × ℝ} (hnn : NonnegR g) (hn : nb ∈ nbrsOf g c)
    (h : FInvR g s P c dc acc) :
    FInvR g s P c dc (relaxStepR g c acc nb)
    ∧ (∀ y ∈ acc.2.2, y ∈ (relaxStepR g c acc nb).2.2)
    ∧ (∀ k ∈ c :: P, (relaxStepR g c acc nb).1 k = acc.1 k
        ∧ (relaxStepR g c acc nb).2.1 k = acc.2.1 k)
    ∧ (nb.1 ∈ keysR g → (relaxStepR g c acc nb).1 nb.1
        ≤ (relaxStepR g c acc nb).1 c + (nb.2 : WithTop ℝ))
    ∧ (relaxStepR g c acc nb).2.2.length ≤ acc.2.2.length + 1
    ∧ (∀ k, (relaxStepR g c acc nb).1 k ≤ acc.1 k) := by
  obtain ⟨dcc, hdcc, hdcle, hshc⟩ := h.popped c (List.mem_cons_self c P)
  have hshc' : ShortestR g s c dc := by
    have : dcc = dc := by
      have := h.dist_c ▸ hdcc
      exact_mod_cast this.symm
    exact this ▸ hshc
  have hw0 : 0 ≤ nb.2 := nonneg_of_mem_nbrs hnn hn
  have hdc0 : (0 : ℝ) ≤ dc := by
    have := h.dist_nonneg c
    rw [h.dist_c] at this
    exact_mod_cast this
  have halt : acc.1 c + (nb.2 : WithTop ℝ) = ((dc + nb.2 : ℝ) : WithTop ℝ) := by
    rw [h.dist_c, ← WithTop.coe_add]
  have haltge : (dc : WithTop ℝ) ≤ acc.1 c + (nb.2 : WithTop ℝ) := by
    rw [halt, WithTop.coe_le_coe]
    linarith
  have halt0 : (0 : WithTop ℝ) ≤ acc.1 c + (nb.2 : WithTop ℝ) := by
    rw [halt, ← WithTop.coe_zero, WithTop.coe_le_coe]
    linarith
  unfold relaxStepR
  by_cases hcond : nb.1 ∈ keysR g
      ∧ acc.1 c + (nb.2 : WithTop ℝ) < acc.1 nb.1
  · rw [if_pos hcond]
    obtain ⟨hdk, hlt⟩ := hcond
    have hnbm : nb.1 ∉ c :: P := by
      intro hmem
      rcases List.mem_cons.mp hmem with heq | hmem2
      · rw [heq] at hlt
        exact absurd hlt (not_lt.mpr (le_add_of_nonneg_right (by
          rw [← WithTop.coe_zero, WithTop.coe_le_coe]; exact hw0)))
      · obtain ⟨d, hd, hdle, _⟩ := h.popped _ (List.mem_cons_of_mem c hmem2)
        rw [hd] at hlt
        have : (d : WithTop ℝ) ≤ acc.1 c + (nb.2 : WithTop ℝ) :=
          le_trans (le_trans hdle (h.dist_c ▸ le_refl _)) haltge
        exact absurd hlt (not_lt.mpr this)
    have htks : nb.1 ≠ s := by
      intro heq
      rw [heq, h.dist_start] at hlt
      exact absurd hlt (not_lt.mpr halt0)
    have hne_of_mem : ∀ k ∈ c :: P, k ≠ nb.1 :=
      fun k hk heq => hnbm (heq ▸ hk)
    refine ⟨?_, ?_, ?_, ?_, ?_, ?_⟩
    · refine ⟨?_, ?_, ?_, ?_, ?_, ?_, ?_, ?_, ?_, ?_, ?_, ?_, ?_, ?_, ?_, ?_⟩
        <;> try dsimp only
      · exact pairwise_pqEnqueue h.sorted
      · intro q hq
        rcases mem_of_mem_pqEnqueue hq with h2 | rfl
        · exact h.qlb q h2
        · exact haltge
      · intro k hk
        rw [Function.update_noteq (hne_of_mem k hk)]
        exact h.popped k hk
      · intro q hq
        rcases mem_of_mem_pqEnqueue hq with h2 | rfl
        · exact h.qpaths q h2
        · refine ⟨dc + nb.2, halt.symm ▸ rfl, ?_⟩
          obtain ⟨⟨esc, hwc, hwec⟩, _⟩ := hshc'
          refine ⟨esc ++ [nb],
            hwc.append_steps (GWalkR.cons nb hn (GWalkR.nil nb.1)), ?_⟩
          rw [weightR_append, weightR_cons, weightR_nil, hwec]
          ring
      · intro q hq
        rcases mem_of_mem_pqEnqueue hq with h2 | rfl
        · by_cases hk : q.1 = nb.1
          · rw [hk, Function.update_same]
            calc acc.1 c + (nb.2 : WithTop ℝ)
                ≤ acc.1 nb.1 := le_of_lt hlt
              _ ≤ q.2 := hk ▸ h.dist_le q h2
          · rw [Function.update_noteq hk]
            exact h.dist_le q h2
        · rw [Function.update_same]
      · intro k hk hkt
        by_cases hke : k = nb.1
        · subst hke
          rw [Function.update_same]
          exact mem_pqEnqueue_self _ _
        · rw [Function.update_noteq hke] at hkt ⊢
          exact mem_pqEnqueue_of_mem _ (h.fresh k hk hkt)
      · intro u hu n' hn' hd'
        have hune : u ≠ nb.1 := hne_of_mem u (List.mem_cons_of_mem c hu)
        rw [Function.update_noteq hune]
        by_cases hk : n'.1 = nb.1
        · rw [hk, Function.update_same]
          exact le_trans (le_of_lt hlt) (hk ▸ h.relaxed_old u hu n' hn' hd')
        · rw [Function.update_noteq hk]
          exact h.relaxed_old u hu n' hn' hd'
      · rcases h.start with hst | hst
        · exact Or.inl hst
        · exact Or.inr (mem_pqEnqueue_of_mem _ hst)
      · rw [Function.update_noteq (fun hh => htks hh.symm)]
        exact h.dist_start
      · intro k
        by_cases hke : k = nb.1
        · subst hke
          rw [Function.update_same]
          exact halt0
        · rw [Function.update_noteq hke]
          exact h.dist_nonneg k
      · intro v u hpe
        by_cases hv : v = nb.1
        · subst hv
          rw [Function.update_same] at hpe
          have hu : u = c := (Option.some_injective _ hpe.symm)
          constructor
          · rw [hu]
            exact List.mem_cons_self c P
          · refine ⟨nb, ?_, rfl, ?_⟩
            · rw [hu]
              exact hn
            · rw [hu, Function.update_same,
                Function.update_noteq (hne_of_mem c (List.mem_cons_self c P))]
        · rw [Function.update_noteq hv] at hpe
          obtain ⟨h1, n', hn', hn1, hd'⟩ := h.prev_eq v u hpe
          refine ⟨h1, n', hn', hn1, ?_⟩
          rw [Function.update_noteq hv, Function.update_noteq (hne_of_mem u h1)]
          exact hd'
      · intro v hvs hpe
        by_cases hv : v = nb.1
        · subst hv
          rw [Function.update_same] at hpe
          exact absurd hpe (Option.some_ne_none _)
        · rw [Function.update_noteq hv] at hpe
          rw [Function.update_noteq hv]
          exact h.prev_none_top v hvs hpe
      · rw [Function.update_noteq (fun hh => htks hh.symm)]
        exact h.prev_start
      · intro q hq
        rcases mem_of_mem_pqEnqueue hq with h2 | rfl
        · rcases h.q_prev q h2 with hh | hh
          · exact Or.inl hh
          · right
            by_cases hk : q.1 = nb.1
            · rw [hk, Function.update_same]
              exact Option.some_ne_none _
            · rw [Function.update_noteq hk]
              exact hh
        · right
          rw [Function.update_same]
          exact Option.some_ne_none _
      · intro q hq
        rcases mem_of_mem_pqEnqueue hq with h2 | rfl
        · exact h.q_sub q h2
        · exact hdk
      · rw [Function.update_noteq (hne_of_mem c (List.mem_cons_self c P))]
        exact h.dist_c
    · exact fun y hy => mem_pqEnqueue_of_mem _ hy
    · intro k hk
      exact ⟨Function.update_noteq (hne_of_mem k hk) _ _,
        Function.update_noteq (hne_of_mem k hk) _ _⟩
    · intro _
      dsimp only
      rw [Function.update_same,
        Function.update_noteq (hne_of_mem c (List.mem_cons_self c P))]
    · dsimp only
      rw [length_pqEnqueue]
    · intro k
      dsimp only
      by_cases hke : k = nb.1
      · subst hke
        rw [Function.update_same]
        exact le_of_lt hlt
      · rw [Function.update_noteq hke]
  · rw [if_neg hcond]
    refine ⟨h, fun y hy => hy, fun k _ => ⟨rfl, rfl⟩, ?_, by omega, fun k => le_refl _⟩
    intro hdk
    have hnlt : ¬ acc.1 c + (nb.2 : WithTop ℝ) < acc.1 nb.1 :=
      fun hlt => hcond ⟨hdk, hlt⟩
    exact le_of_not_lt hnlt

/-- The whole relaxation fold preserves the invariant, keeps all existing
entries, leaves popped stations untouched, pushes at most one entry per
neighbor, only lowers distances, and fully relaxes every neighbor. -/
theorem relaxAllR_fold_inv {g : GraphR} {s : Code} {P : List Code} {c : Code}
    {dc : ℝ} (hnn : NonnegR g) :
    ∀ (nbrs : NbrList)
      (acc : (Code → WithTop ℝ) × (Code → Option Code) × List (Code × WithTop ℝ)),
      (∀ n ∈ nbrs, n ∈ nbrsOf g c) → FInvR g s P c dc acc →
      FInvR g s P c dc (nbrs.foldl (relaxStepR g c) acc)
      ∧ (∀ y ∈ acc.2.2, y ∈ (nbrs.foldl (relaxStepR g c) acc).2.2)
      ∧ (∀ k ∈ c :: P, (nbrs.foldl (relaxStepR g c) acc).1 k = acc.1 k
          ∧ (nbrs.foldl (relaxStepR g c) acc).2.1 k = acc.2.1 k)
      ∧ (∀ n ∈ nbrs, n.1 ∈ keysR g →
          (nbrs.foldl (relaxStepR g c) acc).1 n.1
            ≤ (nbrs.foldl (relaxStepR g c) acc).1 c + (n.2 : WithTop ℝ))
      ∧ (nbrs.foldl (relaxStepR g c) acc).2.2.length
          ≤ acc.2.2.length + nbrs.length
      ∧ (∀ k, (nbrs.foldl (relaxStepR g c) acc).1 k ≤ acc.1 k) := by
  intro nbrs
  induction nbrs with
  | nil =>
    intro acc _ h
    exact ⟨h, fun y hy => hy, fun k _ => ⟨rfl, rfl⟩, by simp, by simp,
      fun k => le_refl _⟩
  | cons n ns ih =>
    intro acc hsub h
    obtain ⟨h1, h2, h3, h4, h5, h6⟩ :=
      relaxStepR_inv hnn (hsub n (List.mem_cons_self n ns)) h
    obtain ⟨g1, g2, g3, g4, g5, g6⟩ := ih (relaxStepR g c acc n)
      (fun n' hn' => hsub n' (List.mem_cons_of_mem n hn')) h1
    rw [List.foldl_cons]
    refine ⟨g1, ?_, ?_, ?_, ?_, ?_⟩
    · exact fun y hy => g2 y (h2 y hy)
    · intro k hk
      obtain ⟨ga, gb⟩ := g3 k hk
      obtain ⟨ha, hb⟩ := h3 k hk
      exact ⟨ga.trans ha, gb.trans hb⟩
    · intro n' hn' hd
      rcases List.mem_cons.mp hn' with rfl | hn2
      · have hc1 := (g3 c (List.mem_cons_self c P)).1
        calc (ns.foldl (relaxStepR g c) (relaxStepR g c acc n')).1 n'.1
            ≤ (relaxStepR g c acc n').1 n'.1 := g6 n'.1
          _ ≤ (relaxStepR g c acc n').1 c + (n'.2 : WithTop ℝ) := h4 hd
          _ = (ns.foldl (relaxStepR g c) (relaxStepR g c acc n')).1 c
              + (n'.2 : WithTop ℝ) := by rw [hc1]
      · exact g4 n' hn2 hd
    · have := g5
      simp only [List.length_cons]
      omega
    · exact fun k => le_trans (g6 k) (h6 k)

/-- Relaxing the neighbors of an already fully-relaxed station changes
nothing: every strict-improvement test fails. -/
theorem relaxAllR_noop {g : GraphR} {c : Code} {D : Code → WithTop ℝ}
    {V : Code → Option Code} {q : List (Code × WithTop ℝ)} :
    ∀ nbrs : NbrList,
      (∀ n ∈ nbrs, n.1 ∈ keysR g → D n.1 ≤ D c + (n.2 : WithTop ℝ)) →
      nbrs.foldl (relaxStepR g c) (D, V, q) = (D, V, q) := by
  intro nbrs
  induction nbrs with
  | nil => intro _; rfl
  | cons n ns ih =>
    intro hrel
    rw [List.foldl_cons]
    have hstep : relaxStepR g c (D, V, q) n = (D, V, q) := by
      unfold relaxStepR
      rw [if_neg]
      rintro ⟨hmem, hlt⟩
      exact absurd hlt (not_lt.mpr (hrel n (List.mem_cons_self n ns) hmem))
    rw [hstep]
    exact ih fun n' hn' => hrel n' (List.mem_cons_of_mem n hn')

/-- Predecessor chains for the freshly popped station. -/
theorem chainR_extend {g : GraphR} {s endCode : Code} {P : List Code}
    {lb p : WithTop ℝ} {st : RS} {c : Code}
    {rest : List (Code × WithTop ℝ)}
    (hinv : RInvR g s endCode P lb st)
    (hq : st.queue = (c, p) :: rest) :
    ∀ v ∈ c :: P, ∃ n < (c :: P).length, PrevChainR st.prev s n v := by
  intro v hv
  have hcq : (c, p) ∈ st.queue := by rw [hq]; exact List.mem_cons_self _ _
  rcases List.mem_cons.mp hv with rfl | hv2
  · rcases hinv.q_prev _ hcq with hcs | hcs
    · exact ⟨0, by simp, hcs⟩
    · obtain ⟨u, hpe⟩ := Option.ne_none_iff_exists'.mp hcs
      obtain ⟨hu, _⟩ := hinv.prev_eq _ u hpe
      obtain ⟨n, hn, hch⟩ := hinv.chain u hu
      exact ⟨n + 1, by simp only [List.length_cons]; omega,
        Or.inr ⟨u, hpe, hch⟩⟩
  · obtain ⟨n, hn, hch⟩ := hinv.chain v hv2
    exact ⟨n, by simp only [List.length_cons]; omega, hch⟩

/-- Dropping the popped head of an already-popped station preserves the
invariant. -/
theorem staleR_inv {g : GraphR} {s endCode : Code} {P : List Code}
    {lb p : WithTop ℝ} {st : RS} {c : Code}
    {rest : List (Code × WithTop ℝ)}
    (hinv : RInvR g s endCode P lb st)
    (hq : st.queue = (c, p) :: rest) (hcp : c ∈ P) :
    RInvR g s endCode P lb ⟨st.dist, st.prev, rest⟩ := by
  have hrme : ∀ x ∈ rest, x ∈ st.queue := by
    intro x hx
    rw [hq]
    exact List.mem_cons_of_mem _ hx
  have hmemr : ∀ x ∈ st.queue, x.1 ∉ P → x ∈ rest := by
    intro x hx hxp
    rw [hq] at hx
    rcases List.mem_cons.mp hx with rfl | h2
    · exact absurd hcp hxp
    · exact h2
  refine ⟨?_, ?_, ?_, ?_, ?_, ?_, ?_, ?_, ?_, ?_, ?_, ?_, ?_, ?_, ?_, ?_,
    ?_, ?_, ?_, ?_⟩
  · exact (List.pairwise_cons.mp (hq ▸ hinv.sorted)).2
  · exact fun q hq2 => hinv.qlb q (hrme q hq2)
  · exact hinv.popped
  · exact fun q hq2 => hinv.qpaths q (hrme q hq2)
  · exact fun q hq2 => hinv.dist_le q (hrme q hq2)
  · exact fun k hk hkt => hmemr _ (hinv.fresh k hk hkt) hk
  · exact hinv.relaxed
  · rcases hinv.start with h | h
    · exact Or.inl h
    · by_cases hsp : s ∈ P
      · exact Or.inl hsp
      · exact Or.inr (hmemr _ h hsp)
  · exact hinv.dist_start
  · exact hinv.dist_nonneg
  · exact hinv.prev_eq
  · exact hinv.prev_none_top
  · exact hinv.prev_start
  · exact fun q hq2 => hinv.q_prev q (hrme q hq2)
  · exact hinv.chain
  · exact hinv.P_sub
  · exact hinv.P_nodup
  · exact fun q hq2 => hinv.q_sub q (hrme q hq2)
  · exact hinv.end_not
  · exact hinv.lb_nonneg

/-- Popping a fresh station that has no adjacency entry preserves the
invariant with the station marked popped. -/
theorem freshR_none_inv {g : GraphR} {s endCode : Code} {P : List Code}
    {lb p : WithTop ℝ} {st : RS} {c : Code}
    {rest : List (Code × WithTop ℝ)}
    (hinv : RInvR g s endCode P lb st) (hnn : NonnegR g)
    (hq : st.queue = (c, p) :: rest) (hcp : c ∉ P) (hce : c ≠ endCode)
    (hnb : nbrsOf g c = []) :
    RInvR g s endCode (c :: P) p ⟨st.dist, st.prev, rest⟩ := by
  obtain ⟨d, hpd, hdist, hsh⟩ := settleR hinv hnn hq hcp
  have hcq : (c, p) ∈ st.queue := by rw [hq]; exact List.mem_cons_self _ _
  have hlbp : lb ≤ p := hinv.qlb _ hcq
  have hrme : ∀ x ∈ rest, x ∈ st.queue := by
    intro x hx
    rw [hq]
    exact List.mem_cons_of_mem _ hx
  have hmemr : ∀ x ∈ st.queue, x.1 ≠ c → x ∈ rest := by
    intro x hx hxc
    rw [hq] at hx
    rcases List.mem_cons.mp hx with rfl | h2
    · exact absurd rfl hxc
    · exact h2
  refine ⟨?_, ?_, ?_, ?_, ?_, ?_, ?_, ?_, ?_, ?_, ?_, ?_, ?_, ?_, ?_, ?_,
    ?_, ?_, ?_, ?_⟩
  · exact (List.pairwise_cons.mp (hq ▸ hinv.sorted)).2
  · intro q hq2
    exact sorted_head_min (hq ▸ hinv.sorted) q (hq ▸ hrme q hq2)
  · intro k hk
    rcases List.mem_cons.mp hk with rfl | hk2
    · exact ⟨d, hdist, le_of_eq hpd.symm, hsh⟩
    · obtain ⟨d', h1, h2, h3⟩ := hinv.popped k hk2
      exact ⟨d', h1, le_trans h2 hlbp, h3⟩
  · exact fun q hq2 => hinv.qpaths q (hrme q hq2)
  · exact fun q hq2 => hinv.dist_le q (hrme q hq2)
  · intro k hk hkt
    have hk1 : k ∉ P := fun h => hk (List.mem_cons_of_mem _ h)
    have hk2 : k ≠ c := fun h => hk (h ▸ List.mem_cons_self _ _)
    exact hmemr _ (hinv.fresh k hk1 hkt) hk2
  · intro u hu n hn hkey
    rcases List.mem_cons.mp hu with rfl | hu2
    · rw [hnb] at hn
      exact absurd hn (List.not_mem_nil n)
    · exact hinv.relaxed u hu2 n hn hkey
  · rcases hinv.start with h | h
    · exact Or.inl (List.mem_cons_of_mem _ h)
    · by_cases hsc : s = c
      · exact Or.inl (by rw [hsc]; exact List.mem_cons_self _ _)
      · exact Or.inr (hmemr _ h hsc)
  · exact hinv.dist_start
  · exact hinv.dist_nonneg
  · intro v u hpe
    obtain ⟨h1, h2⟩ := hinv.prev_eq v u hpe
    exact ⟨List.mem_cons_of_mem _ h1, h2⟩
  · exact hinv.prev_none_top
  · exact hinv.prev_start
  · exact fun q hq2 => hinv.q_prev q (hrme q hq2)
  · have hch := chainR_extend hinv hq
    exact hch
  · intro k hk
    rcases List.mem_cons.mp hk with rfl | hk2
    · exact hinv.q_sub _ hcq
    · exact hinv.P_sub k hk2
  · exact List.nodup_cons.mpr ⟨hcp, hinv.P_nodup⟩
  · exact fun q hq2 => hinv.q_sub q (hrme q hq2)
  · intro hmem
    rcases List.mem_cons.mp hmem with heq | h2
    · exact hce heq.symm
    · exact hinv.end_not h2
  · rw [hpd]
    have := hinv.dist_nonneg c
    rw [hdist] at this
    exact this

/-- Popping a fresh station and relaxing its neighbors preserves the
invariant with the station marked popped; the queue grows by at most one
entry per neighbor. -/
theorem freshR_relax_inv {g : GraphR} {s endCode : Code} {P : List Code}
    {lb p : WithTop ℝ} {st : RS} {c : Code}
    {rest : List (Code × WithTop ℝ)} {nbrs : NbrList}
    (hinv : RInvR g s endCode P lb st) (hnn : NonnegR g)
    (hq : st.queue = (c, p) :: rest) (hcp : c ∉ P) (hce : c ≠ endCode)
    (hl : lookupR g.stations c = some nbrs) :
    RInvR g s endCode (c :: P) p
      ⟨(relaxAllR g c nbrs (st.dist, st.prev, rest)).1,
       (relaxAllR g c nbrs (st.dist, st.prev, rest)).2.1,
       (relaxAllR g c nbrs (st.dist, st.prev, rest)).2.2⟩
    ∧ (relaxAllR g c nbrs (st.dist, st.prev, rest)).2.2.length
        ≤ rest.length + nbrs.length := by
  obtain ⟨d, hpd, hdist, hsh⟩ := settleR hinv hnn hq hcp
  have hcq : (c, p) ∈ st.queue := by rw [hq]; exact List.mem_cons_self _ _
  have hlbp : lb ≤ p := hinv.qlb _ hcq
  have hnb : nbrsOf g c = nbrs := nbrsOf_eq_of_lookup hl
  have hrme : ∀ x ∈ rest, x ∈ st.queue := by
    intro x hx
    rw [hq]
    exact List.mem_cons_of_mem _ hx
  have hmemr : ∀ x ∈ st.queue, x.1 ≠ c → x ∈ rest := by
    intro x hx hxc
    rw [hq] at hx
    rcases List.mem_cons.mp hx with rfl | h2
    · exact absurd rfl hxc
    · exact h2
  have hinit : FInvR g s P c d (st.dist, st.prev, rest) := by
    refine ⟨?_, ?_, ?_, ?_, ?_, ?_, ?_, ?_, ?_, ?_, ?_, ?_, ?_, ?_, ?_, ?_⟩
    · exact (List.pairwise_cons.mp (hq ▸ hinv.sorted)).2
    · intro q hq2
      have := sorted_head_min (hq ▸ hinv.sorted) q (hq ▸ hrme q hq2)
      rw [hpd] at this
      exact this
    · intro k hk
      rcases List.mem_cons.mp hk with rfl | hk2
      · exact ⟨d, hdist, le_refl _, hsh⟩
      · obtain ⟨d', h1, h2, h3⟩ := hinv.popped k hk2
        exact ⟨d', h1, le_trans h2 (hpd ▸ hlbp), h3⟩
    · exact fun q hq2 => hinv.qpaths q (hrme q hq2)
    · exact fun q hq2 => hinv.dist_le q (hrme q hq2)
    · intro k hk hkt
      have hk1 : k ∉ P := fun h => hk (List.mem_cons_of_mem _ h)
      have hk2 : k ≠ c := fun h => hk (h ▸ List.mem_cons_self _ _)
      exact hmemr _ (hinv.fresh k hk1 hkt) hk2
    · exact fun u hu n hn hkey => hinv.relaxed u hu n hn hkey
    · rcases hinv.start with h | h
      · exact Or.inl (List.mem_cons_of_mem _ h)
      · by_cases hsc : s = c
        · exact Or.inl (by rw [hsc]; exact List.mem_cons_self _ _)
        · exact Or.inr (hmemr _ h hsc)
    · exact hinv.dist_start
    · exact hinv.dist_nonneg
    · intro v u hpe
      obtain ⟨h1, h2⟩ := hinv.prev_eq v u hpe
      exact ⟨List.mem_cons_of_mem _ h1, h2⟩
    · exact hinv.prev_none_top
    · exact hinv.prev_start
    · exact fun q hq2 => hinv.q_prev q (hrme q hq2)
    · exact fun q hq2 => hinv.q_sub q (hrme q hq2)
    · exact hdist
  obtain ⟨hfin, hmono, hagree, hfront, hlen, hdec⟩ :=
    relaxAllR_fold_inv hnn nbrs (st.dist, st.prev, rest)
      (fun n hn => hnb ▸ hn) hinit
  rw [relaxAllR]
  constructor
  · refine ⟨?_, ?_, ?_, ?_, ?_, ?_, ?_, ?_, ?_, ?_, ?_, ?_, ?_, ?_, ?_, ?_,
      ?_, ?_, ?_, ?_⟩
    · exact hfin.sorted
    · intro q hq2
      have := hfin.qlb q hq2
      rw [← hpd] at this
      exact this
    · intro k hk
      obtain ⟨d', h1, h2, h3⟩ := hfin.popped k hk
      exact ⟨d', h1, h2.trans (le_of_eq hpd.symm), h3⟩
    · exact hfin.qpaths
    · exact hfin.dist_le
    · exact hfin.fresh
    · intro u hu n hn hkey
      rcases List.mem_cons.mp hu with rfl | hu2
      · have := hfront n (hnb ▸ hn) hkey
        exact this
      · exact hfin.relaxed_old u hu2 n hn hkey
    · exact hfin.start
    · exact hfin.dist_start
    · exact hfin.dist_nonneg
    · exact hfin.prev_eq
    · exact hfin.prev_none_top
    · exact hfin.prev_start
    · exact hfin.q_prev
    · intro v hv
      obtain ⟨n, hn, hch⟩ := chainR_extend hinv hq v hv
      refine ⟨n, hn, ?_⟩
      refine prevChainR_mono (fun x hx => (hagree x hx).2) ?_ n v hv hch
      intro x hx u hpe
      obtain ⟨h1, _⟩ := hinv.prev_eq x u hpe
      exact List.mem_cons_of_mem _ h1
    · intro k hk
      rcases List.mem_cons.mp hk with rfl | hk2
      · exact hinv.q_sub _ hcq
      · exact hinv.P_sub k hk2
    · exact List.nodup_cons.mpr ⟨hcp, hinv.P_nodup⟩
    · exact hfin.q_sub
    · intro hmem
      rcases List.mem_cons.mp hmem with heq | h2
      · exact hce heq.symm
      · exact hinv.end_not h2
    · rw [hpd]
      have := hinv.dist_nonneg c
      rw [hdist] at this
      exact this
  · exact hlen

theorem nodup_subset_length_le {P K : List Code} (hnd : P.Nodup)
    (hsub : ∀ x ∈ P, x ∈ K) : P.length ≤ K.length := by
  have h1 : P.toFinset.card = P.length := List.toFinset_card_of_nodup hnd
  have h2 : P.toFinset ⊆ K.toFinset := by
    intro x hx
    rw [List.mem_toFinset] at hx ⊢
    exact hsub x hx
  have h3 := Finset.card_le_card h2
  have h4 := List.toFinset_card_le K
  omega

/-- The `while (u)` reconstruction follows the predecessor chain back to the
start and produces a walk whose weight telescopes to the recorded
distance. -/
theorem reconR_spec {g : GraphR} {s : Code} {D : Code → WithTop ℝ}
    {V : Code → Option Code}
    (hprev : ∀ v u, V v = some u →
      ∃ n ∈ nbrsOf g u, n.1 = v ∧ D v = D u + (n.2 : WithTop ℝ))
    (hpkey : ∀ v u, V v = some u → u ≠ "")
    (hs0 : D s = 0) (hVs : V s = none) :
    ∀ n v fuel acc, PrevChainR V s n v → n < fuel → v ≠ "" →
      ∃ es, GWalkR g s v es
        ∧ ((weightR es : ℝ) : WithTop ℝ) = D v
        ∧ reconR V fuel v acc = s :: es.map Prod.fst ++ acc := by
  intro n
  induction n with
  | zero =>
    intro v fuel acc hch hlt hvne
    have hvs : v = s := hch
    cases fuel with
    | zero => omega
    | succ m =>
      refine ⟨[], ?_, ?_, ?_⟩
      · rw [hvs]
        exact GWalkR.nil s
      · rw [weightR_nil, hvs, hs0]
        exact WithTop.coe_zero
      · rw [reconR, if_neg hvne, hvs, hVs]
        simp [hvs]
  | succ n ih =>
    intro v fuel acc hch hlt hvne
    by_cases hvs : v = s
    · cases fuel with
      | zero => omega
      | succ m =>
        refine ⟨[], ?_, ?_, ?_⟩
        · rw [hvs]
          exact GWalkR.nil s
        · rw [weightR_nil, hvs, hs0]
          exact WithTop.coe_zero
        · rw [reconR, if_neg hvne, hvs, hVs]
          simp [hvs]
    · have hch' : v = s ∨ ∃ u, V v = some u ∧ PrevChainR V s n u := hch
      rcases hch' with h | ⟨u, hpe, hchu⟩
      · exact absurd h hvs
      · obtain ⟨nb, hnb, hnb1, hd⟩ := hprev v u hpe
        cases fuel with
        | zero => omega
        | succ m =>
          obtain ⟨es, hw, hwd, hrec⟩ :=
            ih u m (v :: acc) hchu (by omega) (hpkey v u hpe)
          have hwv : GWalkR g u v [nb] := by
            rw [← hnb1]
            exact GWalkR.cons nb hnb (GWalkR.nil nb.1)
          refine ⟨es ++ [nb], hw.append_steps hwv, ?_, ?_⟩
          · rw [weightR_append, weightR_cons, weightR_nil, add_zero,
              WithTop.coe_add, hwd, hd]
          · rw [reconR, if_neg hvne, hpe]
            dsimp only
            rw [hrec]
            simp [hnb1]

/-- Specification of a loop result: `null` only when no walk exists, and a
returned path is the start-to-end station sequence of a minimum-weight
walk. -/
def GoodR (g : GraphR) (s e : Code) (r : Option (List Code)) : Prop :=
  (r = none → ¬ ∃ es, GWalkR g s e es)
  ∧ ∀ p, r = some p → ∃ es, GWalkR g s e es ∧ p = s :: es.map Prod.fst
      ∧ ∀ es', GWalkR g s e es' → weightR es ≤ weightR es'

/-- The main loop, run with enough fuel from an invariant state, terminates
and returns a correct result. -/
theorem loopR_spec {g : GraphR} {s e : Code} (hnn : NonnegR g)
    (hnd : (keysR g).Nodup) (hee : e ∈ keysR g)
    (hns : ∀ k ∈ keysR g, k ≠ "") :
    ∀ fuel (st : RS) (P : List Code) (lb : WithTop ℝ),
      RInvR g s e P lb st →
      st.queue.length + budgetR g P < fuel →
      ∃ r, loopR g e fuel st = some r ∧ GoodR g s e r := by
  intro fuel
  induction fuel with
  | zero =>
    intro st P lb _ hbud
    omega
  | succ fuel ih =>
    intro st P lb hinv hbud
    obtain ⟨D, V, Q⟩ := st
    rw [loopR]
    cases Q with
    | nil =>
      refine ⟨none, rfl, ?_, ?_⟩
      · intro _ ⟨es, hw⟩
        obtain ⟨q, hq, _⟩ := coverR hinv hnn hw hinv.end_not hee
        exact absurd hq (List.not_mem_nil q)
      · intro p hp
        exact absurd hp (by simp)
    | cons cp rest =>
      obtain ⟨c, p⟩ := cp
      dsimp only
      by_cases hce : c = e
      · rw [if_pos hce]
        subst hce
        obtain ⟨d, hpd, hdist, hsh⟩ := settleR hinv hnn rfl hinv.end_not
        have hPlen : P.length ≤ (keysR g).length :=
          nodup_subset_length_le hinv.P_nodup hinv.P_sub
        have hchain : ∃ n < (keysR g).length + 1, PrevChainR V s n c := by
          rcases hinv.q_prev (c, p) (List.mem_cons_self _ _) with hcs | hcs
          · exact ⟨0, by omega, hcs⟩
          · obtain ⟨u, hpe⟩ := Option.ne_none_iff_exists'.mp hcs
            obtain ⟨hu, _⟩ := hinv.prev_eq _ u hpe
            obtain ⟨n, hn, hch⟩ := hinv.chain u hu
            exact ⟨n + 1, by omega, Or.inr ⟨u, hpe, hch⟩⟩
        obtain ⟨n, hn, hch⟩ := hchain
        obtain ⟨es, hw, hwd, hrec⟩ := reconR_spec
          (fun v u hpe => (hinv.prev_eq v u hpe).2)
          (fun v u hpe => hns u (hinv.P_sub u (hinv.prev_eq v u hpe).1))
          hinv.dist_start hinv.prev_start n c ((keysR g).length + 1) []
          hch hn (hns c hee)
        refine ⟨some (reconR V ((keysR g).length + 1) c []),
          rfl, by simp, ?_⟩
        intro q hq
        have hq' : q = reconR V ((keysR g).length + 1) c [] :=
          (Option.some_injective _ hq).symm
        refine ⟨es, hw, ?_, ?_⟩
        · rw [hq', hrec]
          simp
        · intro es' hw'
          have hwed : weightR es = d := by
            rw [hdist] at hwd
            exact_mod_cast hwd
          rw [hwed]
          exact hsh.2 es' hw'
      · rw [if_neg hce]
        have hck : c ∈ keysR g := hinv.q_sub (c, p) (List.mem_cons_self _ _)
        cases hl : lookupR g.stations c with
        | none =>
          by_cases hcp : c ∈ P
          · exact ih ⟨D, V, rest⟩ P lb (staleR_inv hinv rfl hcp)
              (by simp only [List.length_cons] at hbud ⊢; omega)
          · have hnb : nbrsOf g c = [] := by
              unfold nbrsOf
              rw [hl]
            have hinv' := freshR_none_inv hinv hnn rfl hcp hce hnb
            have hbud' := budgetR_cons hck hnd hcp
            rw [hnb] at hbud'
            refine ih ⟨D, V, rest⟩ (c :: P) p hinv' ?_
            simp only [List.length_cons, List.length_nil] at hbud hbud' ⊢
            omega
        | some nbrs =>
          have hnb : nbrsOf g c = nbrs := nbrsOf_eq_of_lookup hl
          by_cases hcp : c ∈ P
          · have hnoop : relaxAllR g c nbrs (D, V, rest) = (D, V, rest) := by
              rw [relaxAllR]
              exact relaxAllR_noop nbrs
                (fun n' hn' hk => hinv.relaxed c hcp n' (hnb ▸ hn') hk)
            dsimp only
            rw [hnoop]
            exact ih ⟨D, V, rest⟩ P lb (staleR_inv hinv rfl hcp)
              (by simp only [List.length_cons] at hbud ⊢; omega)
          · obtain ⟨hinv', hlen⟩ := freshR_relax_inv hinv hnn rfl hcp hce hl
            have hbud' := budgetR_cons hck hnd hcp
            rw [hnb] at hbud'
            dsimp only
            refine ih _ (c :: P) p hinv' ?_
            simp only [List.length_cons] at hbud hlen ⊢
            omega

/-- C8: `findPath` over the station-code adjacency map returns (within its
iteration budget) `null` exactly when the start code or the end code is
missing from the map or no walk connects them; otherwise it returns the
ordered list of station codes of a minimum-weight walk, beginning with the
start code and ending with the end code.  Hypotheses: edge weights are
non-negative, the map's keys are distinct (JavaScript object keys), and no
station code is the empty string (which is falsy in JavaScript). -/
theorem findPath_null_or_shortest (g : GraphR) (s e : Code)
    (hnn : NonnegR g) (hnd : (keysR g).Nodup)
    (hns : ∀ k ∈ keysR g, k ≠ "") :
    ∃ r : Option (List Code), findPathR g s e = some r
      ∧ (r = none ↔ s ∉ keysR g ∨ e ∉ keysR g ∨ ¬ ∃ es, GWalkR g s e es)
      ∧ ∀ p, r = some p → p.head? = some s ∧ p.getLast? = some e
          ∧ ∃ es, GWalkR g s e es ∧ p = s :: es.map Prod.fst
          ∧ ∀ es', GWalkR g s e es' → weightR es ≤ weightR es' := by
  rw [findPathR]
  by_cases hg : (lookupR g.stations s).isNone ∨ (lookupR g.stations e).isNone
  · rw [if_pos hg]
    refine ⟨none, rfl, ?_, ?_⟩
    · constructor
      · intro _
        rcases hg with h | h
        · left
          rw [keysR, ← lookupR_isSome_iff]
          simp [Option.isNone_iff_eq_none.mp h]
        · right; left
          rw [keysR, ← lookupR_isSome_iff]
          simp [Option.isNone_iff_eq_none.mp h]
      · intro _; rfl
    · intro p hp
      exact absurd hp (by simp)
  · rw [if_neg hg]
    push_neg at hg
    have hse : s ∈ keysR g := by
      rw [keysR, ← lookupR_isSome_iff]
      simpa [Option.isSome_iff_ne_none, Option.isNone_iff_eq_none] using hg.1
    have hee : e ∈ keysR g := by
      rw [keysR, ← lookupR_isSome_iff]
      simpa [Option.isSome_iff_ne_none, Option.isNone_iff_eq_none] using hg.2
    have hinv0 : RInvR g s e [] 0
        ⟨fun c => if c = s then 0 else ⊤, fun _ => none,
          [(s, (0 : WithTop ℝ))]⟩ := by
      refine ⟨?_, ?_, ?_, ?_, ?_, ?_, ?_, ?_, ?_, ?_, ?_, ?_, ?_, ?_, ?_,
        ?_, ?_, ?_, ?_, ?_⟩
      · simp
      · intro q hq
        rw [List.mem_singleton.mp hq]
      · intro k hk
        exact absurd hk (List.not_mem_nil k)
      · intro q hq
        rw [List.mem_singleton.mp hq]
        exact ⟨0, WithTop.coe_zero.symm, [], GWalkR.nil s, rfl⟩
      · intro q hq
        rw [List.mem_singleton.mp hq]
        simp
      · intro k hk hkt
        by_cases hks : k = s
        · subst hks
          simp
        · exfalso
          apply hkt
          simp [hks]
      · intro u hu
        exact absurd hu (List.not_mem_nil u)
      · exact Or.inr (List.mem_singleton.mpr rfl)
      · simp
      · intro k
        by_cases h : k = s <;> simp [h]
      · intro v u hpe
        exact Option.noConfusion hpe
      · intro v hvs _
        simp [hvs]
      · rfl
      · intro q hq
        rw [List.mem_singleton.mp hq]
        exact Or.inl rfl
      · intro v hv
        exact absurd hv (List.not_mem_nil v)
      · intro k hk
        exact absurd hk (List.not_mem_nil k)
      · exact List.nodup_nil
      · intro q hq
        rw [List.mem_singleton.mp hq]
        exact hse
      · exact List.not_mem_nil e
      · exact le_refl _
    have hbud : ([(s, (0 : WithTop ℝ))] : List (Code × WithTop ℝ)).length
        + budgetR g [] < fuelBound g := by
      rw [budgetR_nil hnd, fuelBound]
      simp only [List.length_singleton]
      omega
    obtain ⟨r, hr, hgood⟩ :=
      loopR_spec hnn hnd hee hns (fuelBound g) _ [] 0 hinv0 hbud
    refine ⟨r, hr, ?_, ?_⟩
    · constructor
      · intro hrn
        right; right
        exact hgood.1 hrn
      · intro hc
        rcases hc with h | h | h
        · exact absurd hse h
        · exact absurd hee h
        · cases r with
          | none => rfl
          | some q =>
            obtain ⟨es, hw, _, _⟩ := hgood.2 q rfl
            exact absurd ⟨es, hw⟩ h
    · intro q hq
      obtain ⟨es, hw, hshape, hmin⟩ := hgood.2 q hq
      refine ⟨?_, ?_, es, hw, hshape, hmin⟩
      · rw [hshape]
        rfl
      · rw [hshape]
        cases hes : es with
        | nil =>
          rw [hes] at hw
          cases hw
          simp
        | cons n ns =>
          have hlast := GWalkR_map_getLast hw (by rw [hes]; simp)
          rw [hes] at hlast
          rw [List.map_cons, List.getLast?_cons_cons]
          rw [List.map_cons] at hlast
          exact hlast

/-- Concrete instance for the `findPath` specification: a single isolated
station. -/
def wgraphR : GraphR := ⟨[("A", [])]⟩

theorem findPath_null_or_shortest_witness :
    ∃ r : Option (List Code), findPathR wgraphR "A" "A" = some r
      ∧ (r = none ↔ "A" ∉ keysR wgraphR ∨ "A" ∉ keysR wgraphR
          ∨ ¬ ∃ es, GWalkR wgraphR "A" "A" es)
      ∧ ∀ p, r = some p → p.head? = some "A" ∧ p.getLast? = some "A"
          ∧ ∃ es, GWalkR wgraphR "A" "A" es ∧ p = "A" :: es.map Prod.fst
          ∧ ∀ es', GWalkR wgraphR "A" "A" es' → weightR es ≤ weightR es' :=
  findPath_null_or_shortest wgraphR "A" "A"
    (by
      intro kn hkn n hn
      rw [List.mem_singleton.mp hkn] at hn
      exact absurd hn (List.not_mem_nil n))
    (by simp [keysR, wgraphR])
    (by
      intro k hk
      simp only [keysR, wgraphR, List.map_cons, List.map_nil,
        List.mem_singleton] at hk
      rw [hk]
      simp)

end RailGraphJS
